import Mathlib

/-!
# BVH viewer: hierarchy parser, joint tree and frame application

A shallow embedding of `src/main.c` (and of the parser copy in `src/test.c`).

* The nodes allocated by `malloc` live in a heap, a list of records; the
  address of a node is its index and `malloc` hands out the next index, so a
  pointer is an `Option Nat` (`none` is `NULL`).
* `float` values are only stored, copied and zeroed by the code, so they are
  values of an arbitrary type `V` with a zero; the `%f` conversion of `sscanf`
  is a parameter `scanF` of the parser.
* A `FILE *` is the list of the bytes not read yet, each byte written as a
  `Char`.
* A call either returns, or runs into undefined behaviour of C (`undef`), or
  the model's fuel runs out (`timeout`).
* `parseMotion` reads the stream line by line; `atof` and the answers of `malloc`
  and `realloc` to a request of zero bytes are parameters. Opening and closing
  the file are not part of the model.
-/

namespace BVH

/-- Size of the `name` field of a node (`MAX_NAME_LENGTH`). -/
def MAX_NAME_LENGTH : Nat := 20

/-- Size of the line buffers of the parser (`MAX_LINE_LENGTH`). -/
def MAX_LINE_LENGTH : Nat := 256

/-- The record `struct Node` (declared in `src/test.c`). -/
structure Node (V : Type) where
  name : List Char
  offset : V × V × V
  channels : Int
  channelData : List V
  numChildren : Int
  parent : Option Nat
  children : Option Nat
  next : Option Nat
deriving DecidableEq, Repr

/-- The allocated nodes: the node at address `a` is the `a`-th entry. -/
abbrev Heap (V : Type) := List (Node V)

/-- Outcome of a call: it returns a value, or it runs into undefined behaviour
of C, or the fuel of the model is used up. -/
inductive Run (α : Type) where
  | ret (a : α)
  | undef
  | timeout
deriving DecidableEq, Repr

/-- Overwrite the node at address `a`. -/
def Heap.put {V : Type} (h : Heap V) (a : Nat) (nd : Node V) : Heap V :=
  List.set h a nd

/-- The loop `while (ptr->next != NULL) ptr = ptr->next;` of `createNode`,
started at `ptr`: the address of the last node of the sibling list. -/
def lastSibling {V : Type} (h : Heap V) : Nat → Nat → Run Nat
  | 0, _ => .timeout
  | fuel + 1, ptr =>
    match h[ptr]? with
    | none => .undef
    | some nd =>
      match nd.next with
      | none => .ret ptr
      | some q => lastSibling h fuel q

/-- The node `createNode` fills in at the new address `aux`: the fields as given, a
zeroed `channelData` of `numChannels` entries (`calloc`), no children, no `next`. -/
def freshNode {V : Type} [Zero V] (name : List Char) (parent : Option Nat)
    (numChannels : Int) (ofx ofy ofz : V) : Node V :=
  { name := name, offset := (ofx, ofy, ofz), channels := numChannels,
    channelData := List.replicate numChannels.toNat 0,
    numChildren := 0, parent := parent, children := none, next := none }

/-- The function `createNode` of `src/main.c`: allocates a node at the next free address,
fills its fields and, when `parent` is not `NULL`, links it at the end of
the parent's list of children. It returns the new address and the new heap.
`strcpy` into the 20-byte `name` field is undefined for a longer name
(`src/test.c` cuts the name to 19 characters instead). -/
def createNode {V : Type} [Zero V] (name : List Char) (parent : Option Nat)
    (numChannels : Int) (ofx ofy ofz : V) (h : Heap V) : Run (Nat × Heap V) :=
  if MAX_NAME_LENGTH ≤ name.length then .undef else
  let aux := h.length
  let h1 : Heap V := h ++ [freshNode name parent numChannels ofx ofy ofz]
  match parent with
  | none => .ret (aux, h1)
  | some p =>
    match h1[p]? with
    | none => .undef
    | some pn =>
      match pn.children with
      | none =>
        .ret (aux, h1.put p { pn with children := some aux, numChildren := pn.numChildren + 1 })
      | some first =>
        match lastSibling h1 h1.length first with
        | .timeout => .timeout
        | .undef => .undef
        | .ret last =>
          match h1[last]? with
          | none => .undef
          | some ln =>
            let h2 := h1.put last { ln with next := some aux }
            match h2[p]? with
            | none => .undef
            | some pn2 =>
              .ret (aux, h2.put p { pn2 with numChildren := pn2.numChildren + 1 })

/-! ## The C library calls the parser makes -/

/-- The predicate `isspace` in the C locale. -/
def isspace (c : Char) : Bool :=
  c = ' ' || c = '\t' || c = '\n' || c = Char.ofNat 11 || c = Char.ofNat 12 || c = '\r'

/-- The characters `fgets` stores for a buffer with room for `n` of them: up to
and including the first newline, and what stays unread. -/
def fgetsAux : Nat → List Char → List Char × List Char
  | 0, s => ([], s)
  | _ + 1, [] => ([], [])
  | n + 1, c :: s =>
    if c = '\n' then ([c], s)
    else ((c :: (fgetsAux n s).1), (fgetsAux n s).2)

/-- The call `fgets(line, size, file)`: `none` at end of input, else the characters
stored and the rest of the stream. -/
def fgets (size : Nat) (file : List Char) : Option (List Char × List Char) :=
  match file with
  | [] => none
  | _ :: _ => some (fgetsAux (size - 1) file)

/-- The C string held by a buffer: its characters before the first NUL. -/
def cstr (buf : List Char) : List Char :=
  buf.takeWhile (fun c => c ≠ Char.ofNat 0)

/-- The function `trim_prefix` of the source: drops the leading white space of the string. -/
def trim_prefix (str : List Char) : List Char :=
  str.dropWhile isspace

/-- The call `strchr(line, c) != NULL`. -/
def strchr (line : List Char) (c : Char) : Bool :=
  line.contains c

/-- The conversion `%s`, or `%<width>s` when a width is given: skips white
space and takes the characters up to the next white space, at most `width`;
it fails at the end of the string. -/
def scanStr (width : Option Nat) (s : List Char) : Option (List Char) :=
  let tok := (s.dropWhile isspace).takeWhile (fun c => !isspace c)
  let tok := match width with
    | none => tok
    | some w => tok.take w
  if tok = [] then none else some tok

/-- Matches the ordinary characters `lit` of a format at the start of `s`. -/
def matchLit (lit s : List Char) : Option (List Char) :=
  if s.take lit.length = lit then some (s.drop lit.length) else none

/-- Value of a run of decimal digits. -/
def digitsVal (ds : List Char) : Nat :=
  ds.foldl (fun acc c => 10 * acc + (c.toNat - 48)) 0

/-- The conversion `%d` on a string whose leading white space is gone: an
optional sign and at least one decimal digit. Values outside the range of
`int` are not modelled. -/
def scanInt (s : List Char) : Option (Int × List Char) :=
  let neg : Bool := match s with
    | '-' :: _ => true
    | _ => false
  let body : List Char := match s with
    | '-' :: t => t
    | '+' :: t => t
    | _ => s
  let ds := body.takeWhile Char.isDigit
  if ds = [] then none
  else some ((if neg then -(digitsVal ds : Int) else (digitsVal ds : Int)), body.drop ds.length)

/-- Three `%f` conversions in a row, each after optional white space, as in
the tail `" %f %f %f"` of the OFFSET formats; `none` stands for a result
other than 3. -/
def scanF3 {V : Type} (scanF : List Char → Option (V × List Char)) (s : List Char) :
    Option (V × V × V) :=
  match scanF (s.dropWhile isspace) with
  | none => none
  | some (x, s1) =>
    match scanF (s1.dropWhile isspace) with
    | none => none
    | some (y, s2) =>
      match scanF (s2.dropWhile isspace) with
      | none => none
      | some (z, _) => some (x, y, z)

/-- The call `sscanf(line, "OFFSET %f %f %f", ...)`: the offset when the result is 3. -/
def sscanfOffset {V : Type} (scanF : List Char → Option (V × List Char)) (line : List Char) :
    Option (V × V × V) :=
  match matchLit "OFFSET".toList line with
  | none => none
  | some r => scanF3 scanF r

/-- The call `sscanf(line, " OFFSET %f %f %f", ...)` of the End Site branch: white space
is skipped before the word. -/
def sscanfEndOffset {V : Type} (scanF : List Char → Option (V × List Char))
    (line : List Char) : Option (V × V × V) :=
  sscanfOffset scanF (line.dropWhile isspace)

/-- The call `sscanf(line, "CHANNELS %d", &numChannels)`: the count when the result is 1. -/
def sscanfChannels (line : List Char) : Option Int :=
  match matchLit "CHANNELS".toList line with
  | none => none
  | some r =>
    match scanInt (r.dropWhile isspace) with
    | none => none
    | some (n, _) => some n

/-- The calls `sscanf(line, "ROOT %19s", name)` and `sscanf(line, "JOINT %63s", childName)`:
the name when the result is 1. -/
def sscanfName (word : List Char) (width : Nat) (line : List Char) : Option (List Char) :=
  match matchLit word line with
  | none => none
  | some r => scanStr (some width) r

/-! ## The hierarchy parser -/

/-- The function `parseRoot`: reads the `ROOT <name>` line and creates the root node with 6
channels and a zero offset. The result is the pointer returned, the heap and
the rest of the stream. -/
def parseRoot {V : Type} [Zero V] (h : Heap V) (file : List Char) :
    Run (Option Nat × Heap V × List Char) :=
  match fgets MAX_LINE_LENGTH file with
  | none => .ret (none, h, file)
  | some (buf, rest) =>
    let line := trim_prefix (cstr buf)
    if line.take 4 ≠ "ROOT".toList then .ret (none, h, rest)
    else
      match sscanfName "ROOT".toList 19 line with
      | none => .ret (none, h, rest)
      | some name =>
        match createNode name none 6 0 0 0 h with
        | .ret (root, h1) => .ret (some root, h1, rest)
        | .undef => .undef
        | .timeout => .timeout

/-- The `while (fgets(...))` loop of `parseBody` for the joint `parent`, entered with the
local counter `braceLevel`. Each step of the recursion reads one line; the
recursive call `parseBody(file, child)` of the JOINT branch is the same loop
entered with counter 1. The result is the pointer returned (`none` is `NULL`),
the heap and the rest of the stream. -/
def parseBodyLoop {V : Type} [Zero V] (scanF : List Char → Option (V × List Char)) :
    Nat → Nat → Int → Heap V → List Char → Run (Option Nat × Heap V × List Char)
  | 0, _, _, _, _ => .timeout
  | fuel + 1, parent, braceLevel, h, file =>
    match fgets MAX_LINE_LENGTH file with
    | none => .ret (some parent, h, file)
    | some (buf, rest) =>
      let line := trim_prefix (cstr buf)
      if line.head? = none ∨ line.head? = some '\n' then
        parseBodyLoop scanF fuel parent braceLevel h rest
      else
        let level1 := if strchr line (Char.ofNat 123) then braceLevel + 1 else braceLevel
        let level2 := if strchr line (Char.ofNat 125) then level1 - 1 else level1
        if level2 = 0 then .ret (some parent, h, rest)
        else
          match scanStr none line with
          | none => parseBodyLoop scanF fuel parent level2 h rest
          | some keyword =>
            if keyword = "OFFSET".toList then
              match sscanfOffset scanF line with
              | none => .ret (none, h, rest)
              | some off =>
                match h[parent]? with
                | none => .undef
                | some pn =>
                  parseBodyLoop scanF fuel parent level2 (h.put parent { pn with offset := off }) rest
            else if keyword = "CHANNELS".toList then
              match sscanfChannels line with
              | none => .ret (none, h, rest)
              | some numChannels =>
                match h[parent]? with
                | none => .undef
                | some pn =>
                  parseBodyLoop scanF fuel parent level2
                    (h.put parent { pn with channels := numChannels,
                                            channelData := List.replicate numChannels.toNat 0 })
                    rest
            else if keyword = "JOINT".toList then
              match sscanfName "JOINT".toList 63 line with
              | none => .ret (none, h, rest)
              | some childName =>
                match createNode childName (some parent) 0 0 0 0 h with
                | .undef => .undef
                | .timeout => .timeout
                | .ret (child, h1) =>
                  match parseBodyLoop scanF fuel child 1 h1 rest with
                  | .undef => .undef
                  | .timeout => .timeout
                  | .ret (none, h2, rest2) => .ret (none, h2, rest2)
                  | .ret (some _, h2, rest2) => parseBodyLoop scanF fuel parent level2 h2 rest2
            else if keyword = "End".toList then
              match fgets MAX_LINE_LENGTH rest with
              | none => .ret (none, h, rest)
              | some (_, rest1) =>
                match fgets MAX_LINE_LENGTH rest1 with
                | none => .ret (none, h, rest1)
                | some (buf2, rest2) =>
                  match sscanfEndOffset scanF (cstr buf2) with
                  | none => .ret (none, h, rest2)
                  | some (ofx, ofy, ofz) =>
                    match createNode "End Site".toList (some parent) 0 ofx ofy ofz h with
                    | .undef => .undef
                    | .timeout => .timeout
                    | .ret (endSite, h1) => .ret (some endSite, h1, rest2)
            else parseBodyLoop scanF fuel parent level2 h rest

/-- The function `parseBody`: the loop entered with `braceLevel = 1`. -/
def parseBody {V : Type} [Zero V] (scanF : List Char → Option (V × List Char))
    (fuel : Nat) (parent : Nat) (h : Heap V) (file : List Char) :
    Run (Option Nat × Heap V × List Char) :=
  parseBodyLoop scanF fuel parent 1 h file

/-- The header test of `parseHierarchy`,
`fgets(line, sizeof(line), file) == NULL || strncmp(line, "HIERARCHY", 9) != 0`,
negated: `true` when the parse goes on. -/
def headerOk (file : List Char) : Bool :=
  match fgets MAX_LINE_LENGTH file with
  | none => false
  | some (buf, _) => (cstr buf).take 9 = "HIERARCHY".toList

/-- The function `parseHierarchy` on the content of the file (the file could be opened):
the root it returns together with the heap holding the tree, or `none` for
`NULL`. Every step of the parser reads a line, so the length of the input
plus one is fuel enough (`parseHierarchy_no_timeout`). In `src/main.c` the function then calls
`parseMotion` on the rest of the stream and drops the result; that call does
not touch the nodes (`src/test.c` has the same function without it). The
function with that call is `parseHierarchyMain`. -/
def parseHierarchy {V : Type} [Zero V] (scanF : List Char → Option (V × List Char))
    (file : List Char) : Run (Option (Nat × Heap V)) :=
  if headerOk file = false then .ret none
  else
    match fgets MAX_LINE_LENGTH file with
    | none => .ret none
    | some (_, rest) =>
      match parseRoot ([] : Heap V) rest with
      | .undef => .undef
      | .timeout => .timeout
      | .ret (none, _, _) => .ret none
      | .ret (some root, h, rest1) =>
        match parseBody scanF (rest1.length + 1) root h rest1 with
        | .undef => .undef
        | .timeout => .timeout
        | .ret (none, _, _) => .ret none
        | .ret (some _, h2, _) => .ret (some (root, h2))

/-! ## Applying the values of a frame -/

/-- Outcome of `applyData`: it returns with the heap and the cursor `dataPos`; or
it reads `data[dataPos]` past the end of the buffer, which stops the model
with the heap and cursor of that moment (undefined behaviour in C); or another
undefined behaviour (bad pointer, write past a node's `channelData`); or the fuel
is used up. -/
inductive Applied (V : Type) where
  | done (h : Heap V) (dataPos : Nat)
  | overrun (h : Heap V) (dataPos : Nat)
  | undef
  | timeout
deriving DecidableEq, Repr

/-- Outcome of the copy loop of one node. -/
inductive Copied (V : Type) where
  | ok (channelData : List V) (dataPos : Nat)
  | overrun (channelData : List V) (dataPos : Nat)
  | undef
deriving DecidableEq, Repr

/-- The loop `for (c = ...; c < n->channels; c++) n->channelData[c] = data[dataPos++];`
with `todo` rounds left. -/
def copyChannels {V : Type} (data : List V) : Nat → Nat → List V → Nat → Copied V
  | 0, _, cd, dataPos => .ok cd dataPos
  | todo + 1, c, cd, dataPos =>
    match data[dataPos]? with
    | none => .overrun cd dataPos
    | some v =>
      if c < cd.length then copyChannels data todo (c + 1) (cd.set c v) (dataPos + 1)
      else .undef

mutual
/-- The function `applyData(data, n)` with the global cursor `dataPos` passed along. -/
def applyData {V : Type} (data : List V) : Nat → Nat → Heap V → Nat → Applied V
  | 0, _, _, _ => .timeout
  | fuel + 1, n, h, dataPos =>
    match h[n]? with
    | none => .undef
    | some nd =>
      if nd.numChildren = 0 then .done h dataPos
      else
        match copyChannels data nd.channels.toNat 0 nd.channelData dataPos with
        | .undef => .undef
        | .overrun cd pos => .overrun (h.put n { nd with channelData := cd }) pos
        | .ok cd pos => applyChildren data fuel nd.children (h.put n { nd with channelData := cd }) pos
/-- The loop `while (ptr != NULL) { applyData(data, ptr); ptr = ptr->next; }`. -/
def applyChildren {V : Type} (data : List V) : Nat → Option Nat → Heap V → Nat → Applied V
  | 0, _, _, _ => .timeout
  | _ + 1, none, h, dataPos => .done h dataPos
  | fuel + 1, some ptr, h, dataPos =>
    match applyData data fuel ptr h dataPos with
    | .done h1 pos1 =>
      match h1[ptr]? with
      | none => .undef
      | some pd => applyChildren data fuel pd.next h1 pos1
    | .overrun h1 pos1 => .overrun h1 pos1
    | .undef => .undef
    | .timeout => .timeout
end

/-! ## Reading the linked structure -/

/-- The list `l` is the sibling list starting at `ptr`: the addresses met by
following `next` from `ptr` until `NULL`. -/
def siblings {V : Type} (h : Heap V) : Option Nat → List Nat → Bool
  | ptr, [] => decide (ptr = none)
  | ptr, a :: l =>
    match h[a]? with
    | none => false
    | some nd => decide (ptr = some a) && siblings h nd.next l

/-- Shape of a list of sibling trees in first-child / next-sibling form, the form
of the `children` and `next` links: `node a kids sibs` is the node at address
`a`, the list of its children and the siblings after it. -/
inductive Shape where
  | nil
  | node (addr : Nat) (kids : Shape) (sibs : Shape)
deriving DecidableEq, Repr

/-- Addresses of the top-level siblings of a shape, in order. -/
def Shape.roots : Shape → List Nat
  | .nil => []
  | .node a _ s => a :: s.roots

/-- Addresses of all nodes of a shape in pre-order: a node, its children from
first to last, then its later siblings. -/
def Shape.addrs : Shape → List Nat
  | .nil => []
  | .node a k s => a :: (k.addrs ++ s.addrs)

/-- Number of nodes of a shape. -/
def Shape.size : Shape → Nat
  | .nil => 0
  | .node _ k s => k.size + s.size + 1

/-- The heap holds the shape `t` at `ptr`, every top-level node having the parent
field `par`: the `children` / `next` links spell out `t`, and `numChildren`
counts the children. -/
def reprs {V : Type} (h : Heap V) : Option Nat → Option Nat → Shape → Bool
  | _, ptr, .nil => decide (ptr = none)
  | par, ptr, .node a k s =>
    match h[a]? with
    | none => false
    | some nd =>
      decide (ptr = some a) && decide (nd.parent = par) &&
      decide (nd.numChildren = (k.roots.length : Int)) &&
      reprs h (some a) nd.children k && reprs h par nd.next s

/-- The node at `root` is the root of a tree whose children have the shape `kids`:
the links are as `reprs` says and no node occurs twice. -/
def isTree {V : Type} (h : Heap V) (root : Nat) (kids : Shape) : Prop :=
  reprs h none (some root) (.node root kids .nil) = true ∧ (root :: kids.addrs).Nodup

/-- Every address of the list `as` holds a node whose `channelData` buffer has
exactly `channels` entries. -/
def buffersFit {V : Type} (h : Heap V) (as : List Nat) : Bool :=
  as.all (fun a =>
    match h[a]? with
    | none => false
    | some nd => decide (nd.channelData.length = nd.channels.toNat))

/-- What linking the new node `aux` under the parent `p`, whose children so far are
`kids`, makes of the node `nd` at address `a`: the parent counts one child
more and, if it had none, points to `aux`; the last child so far gets `aux`
as its `next`; nothing else changes. -/
def relink {V : Type} (p aux : Nat) (kids : List Nat) (a : Nat) (nd : Node V) : Node V :=
  { nd with
    children := if a = p ∧ kids = [] then some aux else nd.children
    numChildren := if a = p then nd.numChildren + 1 else nd.numChildren
    next := if kids.getLast? = some a then some aux else nd.next }

/-! ## The walk of `applyData` over the pre-order list -/

/-- A node without its `channelData`: what `applyData` never writes. -/
def skeleton {V : Type} (nd : Node V) : Node V :=
  { nd with channelData := [] }

/-- Number of buffer values `applyData` copies into the node at `a`: its channel
count, or nothing when `numChildren` is 0 (the node is skipped). -/
def taken {V : Type} (h : Heap V) (a : Nat) : Nat :=
  match h[a]? with
  | none => 0
  | some nd => if nd.numChildren = 0 then 0 else nd.channels.toNat

/-- Values copied into the nodes of the list `as`, in total. -/
def takenSum {V : Type} (h : Heap V) (as : List Nat) : Nat :=
  (as.map (taken h)).sum

/-- Channel count of the node at `a`. -/
def channelsOf {V : Type} (h : Heap V) (a : Nat) : Nat :=
  match h[a]? with
  | none => 0
  | some nd => nd.channels.toNat

/-- The buffer `cd` with its first entries replaced by `vals`. -/
def overwrite {V : Type} (cd vals : List V) : List V :=
  vals ++ cd.drop vals.length

/-- The part of the buffer `data` a node of `n` channels is given at cursor `pos`:
the `n` values from `pos` on, fewer where the buffer ends before. -/
def slice {V : Type} (data : List V) (pos n : Nat) : List V :=
  (data.drop pos).take n

/-- The heap after every node of the list `as` that has children, taken in order,
has been given its slice of `data`, the cursor starting at `pos` and moving
on by the channel count of each such node. -/
def applied {V : Type} (data : List V) : List Nat → Heap V → Nat → Heap V
  | [], h, _ => h
  | a :: as, h, pos =>
    match h[a]? with
    | none => applied data as h pos
    | some nd =>
      if nd.numChildren = 0 then applied data as h pos
      else
        applied data as
          (h.put a { nd with channelData := overwrite nd.channelData (slice data pos nd.channels.toNat) })
          (pos + nd.channels.toNat)

/-- The walk of `applyData` written as one loop over a list of addresses: each
node is skipped or filled by `copyChannels`, as in `applyData`. -/
def walk {V : Type} (data : List V) : List Nat → Heap V → Nat → Applied V
  | [], h, pos => .done h pos
  | a :: as, h, pos =>
    match h[a]? with
    | none => .undef
    | some nd =>
      if nd.numChildren = 0 then walk data as h pos
      else
        match copyChannels data nd.channels.toNat 0 nd.channelData pos with
        | .undef => .undef
        | .overrun cd p => .overrun (h.put a { nd with channelData := cd }) p
        | .ok cd p => walk data as (h.put a { nd with channelData := cd }) p

/-! ## The order of the calls of `applyData` -/

mutual
/-- The nodes on which `applyData` is called, in order, when it is called on `n`:
the recursion of `applyData` without the copying. -/
def visits {V : Type} : Nat → Nat → Heap V → Option (List Nat)
  | 0, _, _ => none
  | fuel + 1, n, h =>
    match h[n]? with
    | none => none
    | some nd =>
      if nd.numChildren = 0 then some [n]
      else
        match visitsChildren fuel nd.children h with
        | none => none
        | some l => some (n :: l)
/-- The nodes visited by the loop over the children list starting at `ptr`. -/
def visitsChildren {V : Type} : Nat → Option Nat → Heap V → Option (List Nat)
  | 0, _, _ => none
  | _ + 1, none, _ => some []
  | fuel + 1, some ptr, h =>
    match visits fuel ptr h with
    | none => none
    | some l1 =>
      match h[ptr]? with
      | none => none
      | some pd =>
        match visitsChildren fuel pd.next h with
        | none => none
        | some l2 => some (l1 ++ l2)
end

/-- The last path of a shape: the last top-level node, its last child, the last
child of that one, and so on. These are the joints whose bodies are still
open while the parser runs. -/
def Shape.spine : Shape → List Nat
  | .nil => []
  | .node a k .nil => a :: k.spine
  | .node _ _ (.node b kb sb) => (Shape.node b kb sb).spine

/-- The sibling list `k` with the leaf `n` added at its end. -/
def Shape.snoc : Shape → Nat → Shape
  | .nil, n => .node n .nil .nil
  | .node a k s, n => .node a k (s.snoc n)

/-- The shape with the leaf `n` added as last child of the node `p` of the last
path. -/
def Shape.addLeaf (p n : Nat) : Shape → Shape
  | .nil => .nil
  | .node a k .nil => if a = p then .node a (k.snoc n) .nil else .node a (k.addLeaf p n) .nil
  | .node a k (.node b kb sb) => .node a k ((Shape.node b kb sb).addLeaf p n)

/-- The heap holds one tree, rooted at address 0 with children of shape `kids`, and
the pre-order of the tree lists the addresses `0, 1, 2, ...` of the heap in
order, that is in the order in which `createNode` made the nodes. -/
def parsed {V : Type} (h : Heap V) (kids : Shape) : Prop :=
  reprs h none (some 0) (.node 0 kids .nil) = true ∧ 0 :: kids.addrs = List.range h.length

/-- Every node of `h` is still there in `h'`, with the same `parent` field. -/
def parentsKept {V : Type} (h h' : Heap V) : Prop :=
  ∀ (a : Nat) (nd : Node V), h[a]? = some nd → ∃ nd', h'[a]? = some nd' ∧ nd'.parent = nd.parent

/-! ## Minimal files: a root with one End Site -/

/-- The parts of a minimal hierarchy file that vary: the name of the root, the
text of the two OFFSET lines after the word `OFFSET ` and of the CHANNELS line
after `CHANNELS 6`, the white space at the start of each line, and all that
follows the OFFSET line of the End Site (the two closing braces and the motion
section, in a file laid out as the format says). -/
structure MinimalFile where
  name : List Char
  rootOffset : List Char
  channelNames : List Char
  endOffset : List Char
  indentRoot : List Char
  indentOpen : List Char
  indentOffset : List Char
  indentChannels : List Char
  indentEnd : List Char
  indentEndOpen : List Char
  indentEndOffset : List Char
  rest : List Char

/-- The text of the file after the ROOT line: the opening brace, the OFFSET and
CHANNELS lines of the root, the End Site block up to its OFFSET line, and the
rest. -/
def MinimalFile.body (m : MinimalFile) : List Char :=
  (m.indentOpen ++ [Char.ofNat 123]) ++ '\n' ::
  ((m.indentOffset ++ ("OFFSET ".toList ++ m.rootOffset)) ++ '\n' ::
  ((m.indentChannels ++ ("CHANNELS 6".toList ++ m.channelNames)) ++ '\n' ::
  ((m.indentEnd ++ "End Site".toList) ++ '\n' ::
  ((m.indentEndOpen ++ [Char.ofNat 123]) ++ '\n' ::
  ((m.indentEndOffset ++ ("OFFSET ".toList ++ m.endOffset)) ++ '\n' :: m.rest)))))

/-- The text of the file. -/
def MinimalFile.text (m : MinimalFile) : List Char :=
  "HIERARCHY".toList ++ '\n' ::
  ((m.indentRoot ++ ("ROOT ".toList ++ m.name)) ++ '\n' :: m.body)

/-- A character of an indentation: a space or a tab. -/
def blankChar (c : Char) : Bool :=
  c = ' ' || c = '\t'

/-- A character that may stand inside a line: neither a newline nor NUL. -/
def lineChar (c : Char) : Bool :=
  c ≠ '\n' && c ≠ Char.ofNat 0

/-- A character that may stand inside a line of a joint body outside the braces
lines: a `lineChar` that is no brace. -/
def plainChar (c : Char) : Bool :=
  lineChar c && c ≠ Char.ofNat 123 && c ≠ Char.ofNat 125

/-- The file is laid out as a minimal file: the indentations are spaces and tabs;
the name has 1 to 19 characters, none of them white space or NUL; the texts
of the lines hold no newline, NUL or (in the body of the root) brace; the
text after `CHANNELS 6` does not go on with a digit; and every line fits the
line buffer of the parser. -/
def MinimalFile.valid (m : MinimalFile) : Bool :=
  m.indentRoot.all blankChar && m.indentOpen.all blankChar && m.indentOffset.all blankChar &&
  m.indentChannels.all blankChar && m.indentEnd.all blankChar &&
  m.indentEndOpen.all blankChar && m.indentEndOffset.all blankChar &&
  decide (m.name ≠ []) && decide (m.name.length < MAX_NAME_LENGTH) &&
  m.name.all (fun c => !isspace c && lineChar c) &&
  m.rootOffset.all plainChar && m.channelNames.all plainChar && m.endOffset.all lineChar &&
  m.channelNames.head?.all (fun c => !c.isDigit) &&
  decide ((m.indentRoot ++ ("ROOT ".toList ++ m.name)).length + 1 < MAX_LINE_LENGTH) &&
  decide ((m.indentOpen ++ [Char.ofNat 123]).length + 1 < MAX_LINE_LENGTH) &&
  decide ((m.indentOffset ++ ("OFFSET ".toList ++ m.rootOffset)).length + 1 < MAX_LINE_LENGTH) &&
  decide ((m.indentChannels ++ ("CHANNELS 6".toList ++ m.channelNames)).length + 1
    < MAX_LINE_LENGTH) &&
  decide ((m.indentEnd ++ "End Site".toList).length + 1 < MAX_LINE_LENGTH) &&
  decide ((m.indentEndOpen ++ [Char.ofNat 123]).length + 1 < MAX_LINE_LENGTH) &&
  decide ((m.indentEndOffset ++ ("OFFSET ".toList ++ m.endOffset)).length + 1 < MAX_LINE_LENGTH)

/-- The brace counter of `parseBody` after a non-blank line: one more for a line
holding an opening brace, one less for a line holding a closing brace (the two
`if (strchr(...))` statements). -/
def levelAfter (braceLevel : Int) (line : List Char) : Int :=
  if strchr line (Char.ofNat 125) then
    (if strchr line (Char.ofNat 123) then braceLevel + 1 else braceLevel) - 1
  else if strchr line (Char.ofNat 123) then braceLevel + 1 else braceLevel

/-! ## Sample inputs -/

/-- A hierarchy whose root has two sibling joints `A` and `B`, each closed by an
End Site, followed by a motion section. -/
def twoSiblingsFile : List Char :=
  ("HIERARCHY\nROOT R\n\x7b\nOFFSET 0 0 0\n" ++
   "CHANNELS 6 Xposition Yposition Zposition Zrotation Xrotation Yrotation\n" ++
   "JOINT A\n\x7b\nOFFSET 1 2 3\nCHANNELS 3 Zrotation Xrotation Yrotation\n" ++
   "End Site\n\x7b\nOFFSET 4 5 6\n\x7d\n\x7d\n" ++
   "JOINT B\n\x7b\nOFFSET 7 8 9\nCHANNELS 3 Zrotation Xrotation Yrotation\n" ++
   "End Site\n\x7b\nOFFSET 1 1 1\n\x7d\n\x7d\n\x7d\n" ++
   "MOTION\nFrames: 1\nFrame Time: 0.1\n1 2 3 4 5 6 7 8 9 10 11 12\n").toList

/-- The file `twoSiblingsFile` with the count of the CHANNELS line of joint `B`
replaced by `abc`. -/
def badChannelsInSiblingFile : List Char :=
  ("HIERARCHY\nROOT R\n\x7b\nOFFSET 0 0 0\n" ++
   "CHANNELS 6 Xposition Yposition Zposition Zrotation Xrotation Yrotation\n" ++
   "JOINT A\n\x7b\nOFFSET 1 2 3\nCHANNELS 3 Zrotation Xrotation Yrotation\n" ++
   "End Site\n\x7b\nOFFSET 4 5 6\n\x7d\n\x7d\n" ++
   "JOINT B\n\x7b\nOFFSET 7 8 9\nCHANNELS abc\n" ++
   "End Site\n\x7b\nOFFSET 1 1 1\n\x7d\n\x7d\n\x7d\n" ++
   "MOTION\nFrames: 1\nFrame Time: 0.1\n1 2 3 4 5 6 7 8 9 10 11 12\n").toList

/-- The file `twoSiblingsFile` with the count of the CHANNELS line of joint `A`
replaced by `abc`. -/
def badChannelsInFirstJointFile : List Char :=
  ("HIERARCHY\nROOT R\n\x7b\nOFFSET 0 0 0\n" ++
   "CHANNELS 6 Xposition Yposition Zposition Zrotation Xrotation Yrotation\n" ++
   "JOINT A\n\x7b\nOFFSET 1 2 3\nCHANNELS abc\n" ++
   "End Site\n\x7b\nOFFSET 4 5 6\n\x7d\n\x7d\n" ++
   "JOINT B\n\x7b\nOFFSET 7 8 9\nCHANNELS 3 Zrotation Xrotation Yrotation\n" ++
   "End Site\n\x7b\nOFFSET 1 1 1\n\x7d\n\x7d\n\x7d\n" ++
   "MOTION\nFrames: 1\nFrame Time: 0.1\n1 2 3 4 5 6 7 8 9 10 11 12\n").toList

/-- A hierarchy text that stops inside the body of joint `A`: neither `A` nor the
root is closed. -/
def truncatedFile : List Char :=
  ("HIERARCHY\nROOT R\n\x7b\nOFFSET 0 0 0\n" ++
   "CHANNELS 6 Xposition Yposition Zposition Zrotation Xrotation Yrotation\n" ++
   "JOINT A\n\x7b\nOFFSET 1 2 3\n").toList

/-- A well-formed hierarchy (a root with one End Site) after one blank line. -/
def blankLineFirstFile : List Char :=
  "\nHIERARCHY\nROOT R\n\x7b\nOFFSET 0 0 0\nCHANNELS 6\nEnd Site\n\x7b\nOFFSET 4 5 6\n\x7d\n\x7d\n".toList

/-- The same hierarchy with text after the word HIERARCHY on the first line. -/
def headerWithTailFile : List Char :=
  "HIERARCHY of bones\nROOT R\n\x7b\nOFFSET 0 0 0\nCHANNELS 6\nEnd Site\n\x7b\nOFFSET 4 5 6\n\x7d\n\x7d\n".toList

/-- A root `R` of 6 channels whose only child so far is the joint `A`. -/
def sampleRoot : Node Int :=
  { name := "R".toList, offset := (0, 0, 0), channels := 6, channelData := [0, 0, 0, 0, 0, 0],
    numChildren := 1, parent := none, children := some 1, next := none }

/-- The heap of `sampleRoot` (address 0) and its child `A` (address 1). -/
def sampleHeap : Heap Int :=
  [sampleRoot,
   { name := "A".toList, offset := (1, 2, 3), channels := 3, channelData := [0, 0, 0],
     numChildren := 0, parent := some 0, children := none, next := none }]

/-- The node `nd` as the walk leaves it when it meets it at cursor `pos`: a node
without children is skipped; otherwise the first entries of `channelData`
are overwritten by the slice of `data` at `pos` (all of them when the buffer
holds `channels` more values, fewer or none when it ends before). -/
def fillNode {V : Type} (data : List V) (nd : Node V) (pos : Nat) : Node V :=
  if nd.numChildren = 0 then nd
  else { nd with channelData := overwrite nd.channelData (slice data pos nd.channels.toNat) }

/-- The tree `A` (3 channels) with child `B` (3 channels) with child End Site (0
channels), at the addresses 0, 1, 2. -/
def chainHeap : Heap Int :=
  [{ name := "A".toList, offset := (0, 0, 0), channels := 3, channelData := [0, 0, 0],
     numChildren := 1, parent := none, children := some 1, next := none },
   { name := "B".toList, offset := (1, 2, 3), channels := 3, channelData := [0, 0, 0],
     numChildren := 1, parent := some 0, children := some 2, next := none },
   { name := "End Site".toList, offset := (4, 5, 6), channels := 0, channelData := [],
     numChildren := 0, parent := some 1, children := none, next := none }]

/-- The shape of the children of the root of `chainHeap`. -/
def chainKids : Shape :=
  .node 1 (.node 2 .nil .nil) .nil

/-- The heap `chainHeap` after frame `[1, 2, 3, 4, 5, 6]` has been applied. -/
def chainHeapApplied : Heap Int :=
  [{ name := "A".toList, offset := (0, 0, 0), channels := 3, channelData := [1, 2, 3],
     numChildren := 1, parent := none, children := some 1, next := none },
   { name := "B".toList, offset := (1, 2, 3), channels := 3, channelData := [4, 5, 6],
     numChildren := 1, parent := some 0, children := some 2, next := none },
   { name := "End Site".toList, offset := (4, 5, 6), channels := 0, channelData := [],
     numChildren := 0, parent := some 1, children := none, next := none }]

/-- A tree of one node: a root of 3 channels without children. -/
def leafHeap : Heap Int :=
  [{ name := "R".toList, offset := (0, 0, 0), channels := 3, channelData := [0, 0, 0],
     numChildren := 0, parent := none, children := none, next := none }]

/-- The heap `chainHeap` at the moment the walk over the buffer `[1, 2, 3, 4]` reads
past its end: `A` is filled, `B` has got the one value left. -/
def chainHeapPartly : Heap Int :=
  [{ name := "A".toList, offset := (0, 0, 0), channels := 3, channelData := [1, 2, 3],
     numChildren := 1, parent := none, children := some 1, next := none },
   { name := "B".toList, offset := (1, 2, 3), channels := 3, channelData := [4, 0, 0],
     numChildren := 1, parent := some 0, children := some 2, next := none },
   { name := "End Site".toList, offset := (4, 5, 6), channels := 0, channelData := [],
     numChildren := 0, parent := some 1, children := none, next := none }]

/-- A hierarchy whose root has the two children `A` and `B`, each with one child
joint closed by an End Site, followed by a motion section. -/
def twoChainsFile : List Char :=
  ("HIERARCHY\nROOT R\n\x7b\nOFFSET 0 0 0\n" ++
   "CHANNELS 6 Xposition Yposition Zposition Zrotation Xrotation Yrotation\n" ++
   "JOINT A\n\x7b\nOFFSET 1 2 3\nCHANNELS 3 Zrotation Xrotation Yrotation\n" ++
   "JOINT C\n\x7b\nOFFSET 1 1 1\nCHANNELS 3 Zrotation Xrotation Yrotation\n" ++
   "End Site\n\x7b\nOFFSET 4 5 6\n\x7d\n\x7d\n\x7d\n" ++
   "JOINT B\n\x7b\nOFFSET 7 8 9\nCHANNELS 3 Zrotation Xrotation Yrotation\n" ++
   "JOINT D\n\x7b\nOFFSET 2 2 2\nCHANNELS 3 Zrotation Xrotation Yrotation\n" ++
   "End Site\n\x7b\nOFFSET 1 1 1\n\x7d\n\x7d\n\x7d\n\x7d\n" ++
   "MOTION\nFrames: 1\nFrame Time: 0.1\n1 2 3 4 5 6 7 8 9 10 11 12 13 14 15 16 17 18\n").toList

/-- The tree `parseHierarchy` builds from `twoChainsFile`. -/
def twoChainsHeap : Heap Int :=
  [{ name := "R".toList, offset := (0, 0, 0), channels := 6, channelData := [0, 0, 0, 0, 0, 0],
     numChildren := 2, parent := none, children := some 1, next := none },
   { name := "A".toList, offset := (1, 2, 3), channels := 3, channelData := [0, 0, 0],
     numChildren := 1, parent := some 0, children := some 2, next := some 4 },
   { name := "C".toList, offset := (1, 1, 1), channels := 3, channelData := [0, 0, 0],
     numChildren := 1, parent := some 1, children := some 3, next := none },
   { name := "End Site".toList, offset := (4, 5, 6), channels := 0, channelData := [],
     numChildren := 0, parent := some 2, children := none, next := none },
   { name := "B".toList, offset := (7, 8, 9), channels := 3, channelData := [0, 0, 0],
     numChildren := 1, parent := some 0, children := some 5, next := none },
   { name := "D".toList, offset := (2, 2, 2), channels := 3, channelData := [0, 0, 0],
     numChildren := 1, parent := some 4, children := some 6, next := none },
   { name := "End Site".toList, offset := (1, 1, 1), channels := 0, channelData := [],
     numChildren := 0, parent := some 5, children := none, next := none }]

/-- A minimal file with indented lines: root `Hips`, one End Site. -/
def sampleMinimal : MinimalFile :=
  { name := "Hips".toList,
    rootOffset := "0 0 0".toList,
    channelNames := " Xposition Yposition Zposition Zrotation Xrotation Yrotation".toList,
    endOffset := "4 5 6".toList,
    indentRoot := [], indentOpen := [], indentOffset := "  ".toList,
    indentChannels := "  ".toList, indentEnd := "  ".toList, indentEndOpen := "  ".toList,
    indentEndOffset := "    ".toList,
    rest := "  \x7d\n\x7d\nMOTION\nFrames: 1\nFrame Time: 0.1\n1 2 3 4 5 6\n".toList }

/-! ## Trees whose leaves have no channels -/

/-- Channel counts of the nodes of the list `as`, added up. -/
def channelSum {V : Type} (h : Heap V) (as : List Nat) : Nat :=
  (as.map (channelsOf h)).sum

/-- Every node of the list `as` that has no children (`numChildren` is 0) has channel
count 0. -/
def leavesBare {V : Type} (h : Heap V) (as : List Nat) : Bool :=
  as.all (fun a =>
    match h[a]? with
    | none => true
    | some nd => decide (nd.numChildren = 0 → nd.channels = 0))

/-! ## One line of a joint body -/

/-- What the loop of `parseBody` does with one line. -/
inductive LineAct (V : Type) where
  | skip (braceLevel : Int)
  | close
  | fail (rest : List Char)
  | update (braceLevel : Int) (nd : Node V)
  | joint (braceLevel : Int) (childName : List Char)
  | endSite (offset : V × V × V) (rest : List Char)
  | undef

/-- The body of the loop of `parseBodyLoop` up to the point where it goes on, returns, or
creates a node, for the trimmed line `line`, the rest `rest` of the stream
after it and the node `pn` stored at `parent`: the line is skipped (blank, no
keyword, or a keyword the parser does not know) and the loop goes on with a
brace counter; the counter is 0 and the loop returns `parent`; the parser
returns `NULL`; the node at `parent` is overwritten (OFFSET, CHANNELS); a
child joint is to be created and parsed; an End Site is to be created, after
the two lines read for it; or `parent` is no node. The loop written with this
function is `parseBodyLoop` (`parseBodyLoop_step`). -/
def lineAct {V : Type} [Zero V] (scanF : List Char → Option (V × List Char))
    (pn : Option (Node V)) (braceLevel : Int) (line rest : List Char) : LineAct V :=
  if line.head? = none ∨ line.head? = some '\n' then .skip braceLevel
  else
    let level1 := if strchr line (Char.ofNat 123) then braceLevel + 1 else braceLevel
    let level2 := if strchr line (Char.ofNat 125) then level1 - 1 else level1
    if level2 = 0 then .close
    else
      match scanStr none line with
      | none => .skip level2
      | some keyword =>
        if keyword = "OFFSET".toList then
          match sscanfOffset scanF line with
          | none => .fail rest
          | some off =>
            match pn with
            | none => .undef
            | some pn => .update level2 { pn with offset := off }
        else if keyword = "CHANNELS".toList then
          match sscanfChannels line with
          | none => .fail rest
          | some numChannels =>
            match pn with
            | none => .undef
            | some pn =>
              .update level2 { pn with channels := numChannels,
                                       channelData := List.replicate numChannels.toNat 0 }
        else if keyword = "JOINT".toList then
          match sscanfName "JOINT".toList 63 line with
          | none => .fail rest
          | some childName => .joint level2 childName
        else if keyword = "End".toList then
          match fgets MAX_LINE_LENGTH rest with
          | none => .fail rest
          | some (_, rest1) =>
            match fgets MAX_LINE_LENGTH rest1 with
            | none => .fail rest1
            | some (buf2, rest2) =>
              match sscanfEndOffset scanF (cstr buf2) with
              | none => .fail rest2
              | some off => .endSite off rest2
        else .skip level2

/-! ## What the parser keeps of a node -/

/-- Every node of `h` is still there in `h'` with the same name, offset, channel
count, `channelData` and parent, and, unless it is the node `p`, the same
`children` and `numChildren`. -/
def fieldsKept {V : Type} (p : Nat) (h h' : Heap V) : Prop :=
  ∀ (b : Nat) (nd : Node V), h[b]? = some nd →
    ∃ nd', h'[b]? = some nd' ∧ nd'.name = nd.name ∧ nd'.offset = nd.offset ∧
      nd'.channels = nd.channels ∧ nd'.channelData = nd.channelData ∧
      nd'.parent = nd.parent ∧
      (b ≠ p → nd'.children = nd.children ∧ nd'.numChildren = nd.numChildren)

/-- Every node of `h` is still there in `h'`, with the same name. -/
def namesKept {V : Type} (h h' : Heap V) : Prop :=
  ∀ (a : Nat) (nd : Node V), h[a]? = some nd → ∃ nd', h'[a]? = some nd' ∧ nd'.name = nd.name

/-- The offset `off` is what an End Site block of the text `file` gives: at some
position of `file` the parser's reads give a line whose first word is `End`, a
second line, and a third line on which `sscanf(line, " OFFSET %f %f %f", ...)` stores
`off`. -/
def endOffsetIn {V : Type} (scanF : List Char → Option (V × List Char)) (file : List Char)
    (off : V × V × V) : Prop :=
  ∃ s buf0 r0 buf1 r1 buf2 r2, s <:+ file ∧
    fgets MAX_LINE_LENGTH s = some (buf0, r0) ∧
    scanStr none ( trim_prefix (cstr buf0)) = some "End".toList ∧
    fgets MAX_LINE_LENGTH r0 = some (buf1, r1) ∧
    fgets MAX_LINE_LENGTH r1 = some (buf2, r2) ∧
    sscanfEndOffset scanF (cstr buf2) = some off

/-- Every node of `h` named `End Site` has channel count 0, an empty `channelData`, no
children, and the offset of the OFFSET line of an End Site block of `file`. -/
def endSitesOk {V : Type} (scanF : List Char → Option (V × List Char)) (file : List Char)
    (h : Heap V) : Prop :=
  ∀ (a : Nat) (nd : Node V), h[a]? = some nd → nd.name = "End Site".toList →
    nd.channels = 0 ∧ nd.channelData = [] ∧ nd.numChildren = 0 ∧ nd.children = none ∧
    endOffsetIn scanF file nd.offset

/-- Every node of `h` has a `channelData` of as many entries as its channel count says,
none for a negative count. -/
def buffersOk {V : Type} (h : Heap V) : Prop :=
  ∀ (a : Nat) (nd : Node V), h[a]? = some nd → nd.channelData.length = nd.channels.toNat
/-- A root with `CHANNELS -3` and one End Site. -/
def negativeChannelsFile : List Char :=
  "HIERARCHY\nROOT R\n\x7b\nOFFSET 0 0 0\nCHANNELS -3 X Y Z\nEnd Site\n\x7b\nOFFSET 4 5 6\n\x7d\n\x7d\n".toList

/-- The tree `parseHierarchy` builds from `negativeChannelsFile`. -/
def negativeChannelsHeap : Heap Int :=
  [{ name := "R".toList, offset := (0, 0, 0), channels := -3, channelData := [],
     numChildren := 1, parent := none, children := some 1, next := none },
   { name := "End Site".toList, offset := (4, 5, 6), channels := 0, channelData := [],
     numChildren := 0, parent := some 0, children := none, next := none }]

/-! ## Heaps built by `createNode` -/

/-- The `parent` field of the node at `b`, `none` also where there is no node. -/
def parentOf {V : Type} (h : Heap V) (b : Nat) : Option Nat :=
  (h[b]?).bind (fun nd => nd.parent)

/-- Addresses of the nodes whose `parent` field is `a`, in the order of their
addresses, which is the order in which `createNode` made them. -/
def childrenOf {V : Type} (h : Heap V) (a : Nat) : List Nat :=
  (List.range h.length).filter (fun b => decide (parentOf h b = some a))

/-- The heaps a program gets by calls of `createNode`, starting without nodes: each call
is given `NULL` or the address of a node made before as `parent`; between the
calls the program may write the fields `createNode` does not link with (name, offset,
channel count, `channelData`), as the OFFSET and CHANNELS branches of `parseBody` do. -/
inductive Built {V : Type} [Zero V] : Heap V → Prop where
  | empty : Built []
  | create (h h' : Heap V) (name : List Char) (parent : Option Nat) (numChannels : Int)
      (ofx ofy ofz : V) (a : Nat) (hb : Built h)
      (hp : ∀ p, parent = some p → p < h.length)
      (hc : createNode name parent numChannels ofx ofy ofz h = .ret (a, h')) : Built h'
  | write (h : Heap V) (a : Nat) (nd nd' : Node V) (hb : Built h) (ha : h[a]? = some nd)
      (h1 : nd'.parent = nd.parent) (h2 : nd'.children = nd.children)
      (h3 : nd'.next = nd.next) (h4 : nd'.numChildren = nd.numChildren) : Built (h.put a nd')

/-- In the heap `h` the list of children of every node, read along `children` and
`next`, is the list of the nodes that have it as `parent`, in order, and
`numChildren` is its length; and every `parent` field points to a node of `h`. -/
def counted {V : Type} (h : Heap V) : Prop :=
  (∀ (a : Nat) (nd : Node V), h[a]? = some nd →
    siblings h nd.children (childrenOf h a) = true ∧
    nd.numChildren = ((childrenOf h a).length : Int)) ∧
  (∀ (b : Nat) (nd : Node V) (q : Nat), h[b]? = some nd → nd.parent = some q → q < h.length)

/-! ## The motion parser -/

/-- What the C library answers to a request of zero bytes, which the C standard
leaves to the implementation: whether `malloc(0)` returns a block (`true`) or
`NULL`, and whether `realloc(p, 0)` returns a block or `NULL`. Requests of more than
zero bytes are taken to succeed. -/
structure Alloc where
  mallocZero : Bool
  reallocZero : Bool
deriving DecidableEq, Repr

/-- The answers of the GNU C library: `malloc(0)` returns a block, `realloc(p, 0)` frees
`p` and returns `NULL`. -/
def glibcAlloc : Alloc :=
  { mallocZero := true, reallocZero := false }

/-- A C library whose `malloc(0)` and `realloc(p, 0)` both return `NULL`. -/
def nullAlloc : Alloc :=
  { mallocZero := false, reallocZero := false }

/-- The lines successive calls `fgets(line, size, file)` return until the end of the
input, `fuel` bounding their number (every call takes at least one character,
so the length of the input is fuel enough). -/
def readLines (size : Nat) : Nat → List Char → List (List Char)
  | 0, _ => []
  | fuel + 1, file =>
    match fgets size file with
    | none => []
    | some (buf, rest) => buf :: readLines size fuel rest

/-- The test `strncmp(line, lit, n) == 0` for a literal `lit` of at least `n` characters. -/
def strncmpEq (line lit : List Char) (n : Nat) : Bool :=
  (cstr line).take n = lit.take n

/-- A loop `while (fgets(line, sizeof(line), file)) { if (stop(line)) break; }` over the lines
still to come: the content of the buffer `line` afterwards (`none` while nothing
was ever read into it), the lines left unread, and whether the loop ended at
`break` (`true`) or at the end of the input. -/
def readUntil (stop : List Char → Bool) :
    Option (List Char) → List (List Char) → Option (List Char) × List (List Char) × Bool
  | line, [] => (line, [], false)
  | _, l :: ls => if stop l then (some l, ls, true) else readUntil stop (some l) ls

/-- The tokens the calls `strtok(line, " ")`, `strtok(NULL, " ")`, ... return, `cur` holding the
characters of the token being read, last first: the maximal runs of
characters other than the space. -/
def strtokAux : List Char → List Char → List (List Char)
  | [], cur => if cur = [] then [] else [cur.reverse]
  | c :: s, cur =>
    if c = ' ' then (if cur = [] then strtokAux s [] else cur.reverse :: strtokAux s [])
    else strtokAux s (c :: cur)

/-- The tokens of the C string in the buffer `line`, as the loop
`token = strtok(line, " "); while (token != NULL) { ...; token = strtok(NULL, " "); }` meets them. -/
def strtokAll (line : List Char) : List (List Char) :=
  strtokAux (cstr line) []

/-- The call `sscanf(line, "Frames: %d", &frames)`: the number stored, if one is. -/
def sscanfFrames (line : List Char) : Option Int :=
  match matchLit "Frames:".toList line with
  | none => none
  | some r =>
    match scanInt (r.dropWhile isspace) with
    | none => none
    | some (n, _) => some n

/-- Smallest value of `int` (32 bits). -/
def INT_MIN : Int := -2147483648

/-- Largest value of `int` (32 bits). -/
def INT_MAX : Int := 2147483647

/-- The statement `int max_values = frames * 100;` of `parseMotion`: the capacity of `data`, or
`none` when the product is no value of `int` (signed overflow, undefined in C).
A number on the `Frames:` line that is itself no value of `int` falls under
`none` too, its product being further out of range. -/
def motionCapacity (frames : Int) : Option Int :=
  if INT_MIN ≤ frames * 100 ∧ frames * 100 ≤ INT_MAX then some (frames * 100) else none

/-- The function `parseMotion` of `src/main.c` on an open file: the buffer it returns, `none`
for `NULL`. The conversion `atof` is a parameter. The function reads the stream
only by `fgets(line, sizeof(line), file)` with the 1024-byte buffer `line`, so the stream
is taken as the list of the lines these calls return. The three `while` loops
look for the line `MOTION`, then for the line `Frames:` (whose number becomes
`frames`, 0 without such a line), then skip the lines `Frame Time`; a loop that
reaches the end of the input leaves the last line read in `line`. The capacity
`max_values` is `frames * 100` computed in `int`: the call is undefined when that
overflows (`motionCapacity`). The buffer `data` is given `max_values` entries; a
negative `max_values` makes the size asked of `malloc` wrap to a huge one, so
`malloc` fails and `NULL` is returned (`size_t` is taken to have 64 bits, so the
size of a capacity that is not negative does not wrap). The `do ... while` loop
then stores one value per token of `line` and of every line still unread; a
store past the entries of `data`, and the use of `line` when no line was ever
read, are undefined. The buffer is cut to the values stored by `realloc`. -/
def parseMotion {V : Type} (alloc : Alloc) (atof : List Char → V) (file : List Char) :
    Run (Option (List V)) :=
  let lines := readLines 1024 file.length file
  let (line1, lines1, _) :=
    readUntil (fun l => strncmpEq l "MOTION".toList 6) none lines
  let (line2, lines2, found) :=
    readUntil (fun l => strncmpEq l "Frames:".toList 7) line1 lines1
  let frames : Int :=
    match found, line2 with
    | true, some l => (sscanfFrames (cstr l)).getD 0
    | _, _ => 0
  let (line3, lines3, _) :=
    readUntil (fun l => !strncmpEq l "Frame Time:".toList 10) line2 lines2
  match motionCapacity frames with
  | none => .undef
  | some max_values =>
    if max_values < 0 then .ret none
    else if max_values = 0 ∧ alloc.mallocZero = false then .ret none
    else
      match line3 with
      | none => .undef
      | some line =>
        let data := (line :: lines3).flatMap (fun l => (strtokAll l).map atof)
        if max_values.toNat < data.length then .undef
        else if data.length = 0 ∧ alloc.reallocZero = false then .ret none
        else .ret (some data)

/-- A stand-in for `atof` with values in `Int`, for the sample inputs: the integer the
token starts with after white space, 0 when it starts with none (`atof` gives 0
for a text that is no number). -/
def atofInt (token : List Char) : Int :=
  match scanInt (token.dropWhile isspace) with
  | none => 0
  | some (n, _) => n

/-- The function `parseHierarchy` of `src/main.c` with its call of `parseMotion`: after `parseBody` has
returned a node, `parseMotion` reads on from where `parseBody` stopped; the buffer it returns
(or `NULL`) is dropped and the root is returned. Undefined behaviour inside `parseMotion`
is undefined behaviour of the call. -/
def parseHierarchyMain {V : Type} [Zero V] (alloc : Alloc) (atof : List Char → V)
    (scanF : List Char → Option (V × List Char)) (file : List Char) :
    Run (Option (Nat × Heap V)) :=
  if headerOk file = false then .ret none
  else
    match fgets MAX_LINE_LENGTH file with
    | none => .ret none
    | some (_, rest) =>
      match parseRoot ([] : Heap V) rest with
      | .undef => .undef
      | .timeout => .timeout
      | .ret (none, _, _) => .ret none
      | .ret (some root, h, rest1) =>
        match parseBody scanF (rest1.length + 1) root h rest1 with
        | .undef => .undef
        | .timeout => .timeout
        | .ret (none, _, _) => .ret none
        | .ret (some _, h2, rest2) =>
          match parseMotion alloc atof rest2 with
          | .undef => .undef
          | .timeout => .timeout
          | .ret _ => .ret (some (root, h2))

/-- A motion section whose one data line ends with a space before the newline. -/
def trailingSpaceMotion : List Char :=
  "MOTION\nFrames: 1\nFrame Time: 0.1\n1 2 3 \n".toList

/-- A motion section without data lines. -/
def noDataMotion : List Char :=
  "MOTION\nFrames: 1\nFrame Time: 0.1\n".toList

/-- A motion section of two frames of three values. -/
def twoFramesMotion : List Char :=
  "MOTION\nFrames: 2\nFrame Time: 0.1\n1 2 3\n4 5 6\n".toList

/-- What is left of a hierarchy-only file when `parseBody` has returned on its root: the
two closing braces, no motion section. -/
def noMotionRest : List Char :=
  "  \x7d\n\x7d\n".toList

/-- A motion section without a `Frames:` line. -/
def noFramesMotion : List Char :=
  "MOTION\nFrame Time: 0.1\n1 2 3\n".toList

/-! ## Texts that differ by lines the parser skips -/

/-- The End Site branch of the loop of `parseBody`, from the two reads of `fgets` to the
point where the node is to be created: what `lineAct` gives for a line whose
keyword is `End`, when the brace counter is not 0. -/
def endSiteAct {V : Type} (scanF : List Char → Option (V × List Char))
    (rest : List Char) : LineAct V :=
  match fgets MAX_LINE_LENGTH rest with
  | none => .fail rest
  | some (_, rest1) =>
    match fgets MAX_LINE_LENGTH rest1 with
    | none => .fail rest1
    | some (buf2, rest2) =>
      match sscanfEndOffset scanF (cstr buf2) with
      | none => .fail rest2
      | some off => .endSite off rest2

/-- A character of a blank line: white space other than the newline. -/
def blankLineChar (c : Char) : Bool :=
  isspace c && c ≠ '\n'

/-- The first word of the line in the buffer `buf` is `End`. -/
def isEndLine (buf : List Char) : Bool :=
  decide (scanStr none ( trim_prefix (cstr buf)) = some "End".toList)

/-- The text `t` is the text `s` with blank lines (white space and a newline) put in
between its lines; `k` is the number of lines at the start of `s` before which
no blank line is put in. Only lines that end with a newline and fit the line
buffer of the parser are passed over, and after a line whose first word is
`End` no blank line is put in before the next two lines. -/
inductive BlankIns : Nat → List Char → List Char → Prop where
  | same (k : Nat) (s : List Char) : BlankIns k s s
  | blank (ws s t : List Char) (hws : ws.all blankLineChar = true)
      (hlen : ws.length + 1 < MAX_LINE_LENGTH) (hrest : BlankIns 0 s t) :
      BlankIns 0 s (ws ++ '\n' :: t)
  | line (k k' : Nat) (body s t : List Char) (hbody : ∀ c ∈ body, c ≠ '\n')
      (hlen : body.length + 1 < MAX_LINE_LENGTH)
      (hk : k' = if isEndLine (body ++ ['\n']) then 2 else k - 1)
      (hrest : BlankIns k' s t) : BlankIns k (body ++ '\n' :: s) (body ++ '\n' :: t)

/-- The outcome `Y` of `parseBody` on a text with blank lines put in agrees with the
outcome `X` on the text without them: the same node and heap are returned,
and what is left unread differs by blank lines put in; or both return `NULL`;
or both are undefined; or both run out of fuel. -/
def outcomesAgree {V : Type} (X Y : Run (Option Nat × Heap V × List Char)) : Prop :=
  match X with
  | .ret (some a, h, s) => ∃ t k, Y = .ret (some a, h, t) ∧ BlankIns k s t
  | .ret (none, _, _) => ∃ h t, Y = .ret (none, h, t)
  | .undef => Y = .undef
  | .timeout => Y = .timeout

/-- The same for what the loop does with one line. -/
def actsAgree {V : Type} (A B : LineAct V) : Prop :=
  match A with
  | .endSite off s => ∃ t k, B = .endSite off t ∧ BlankIns k s t
  | .fail _ => ∃ r, B = .fail r
  | .skip l => B = .skip l
  | .close => B = .close
  | .undef => B = .undef
  | .update l nd => B = .update l nd
  | .joint l name => B = .joint l name

/-- The lines of a small hierarchy from its CHANNELS line on. -/
def gapTail : List Char :=
  "CHANNELS 6\nEnd Site\n\x7b\nOFFSET 4 5 6\n\x7d\n\x7d\n".toList

/-- A small hierarchy, a root with one End Site, line by line. -/
def plainGapFile : List Char :=
  "HIERARCHY".toList ++ '\n' :: ("ROOT R".toList ++ '\n' :: ([Char.ofNat 123] ++ '\n' ::
    ("OFFSET 0 0 0".toList ++ '\n' :: gapTail)))

/-- The file `plainGapFile` with an empty line after the ROOT line and a line of a space
and a tab before the CHANNELS line. -/
def blankGapFile : List Char :=
  "HIERARCHY".toList ++ '\n' :: ("ROOT R".toList ++ '\n' :: ([] ++ '\n' ::
    ([Char.ofNat 123] ++ '\n' :: ("OFFSET 0 0 0".toList ++ '\n' ::
      (" \t".toList ++ '\n' :: gapTail)))))

/-- The file `plainGapFile` with an empty line between the HIERARCHY line and the ROOT
line. -/
def blankBeforeRootFile : List Char :=
  "HIERARCHY\n\nROOT R\n\x7b\nOFFSET 0 0 0\nCHANNELS 6\nEnd Site\n\x7b\nOFFSET 4 5 6\n\x7d\n\x7d\n".toList

/-- The file `plainGapFile` with a line of two spaces between the End Site line and
the opening brace of its block. -/
def blankInEndSiteFile : List Char :=
  "HIERARCHY\nROOT R\n\x7b\nOFFSET 0 0 0\nCHANNELS 6\nEnd Site\n  \n\x7b\nOFFSET 4 5 6\n\x7d\n\x7d\n".toList

/-- The tree of `plainGapFile`. -/
def gapHeap : Heap Int :=
  [{ name := "R".toList, offset := (0, 0, 0), channels := 6, channelData := [0, 0, 0, 0, 0, 0],
     numChildren := 1, parent := none, children := some 1, next := none },
   { name := "End Site".toList, offset := (4, 5, 6), channels := 0, channelData := [],
     numChildren := 0, parent := some 0, children := none, next := none }]

/-! ## Text after the hierarchy -/

/-- The text is empty or ends with a newline. -/
def endsWithNewline (s : List Char) : Bool :=
  decide (s = []) || decide (s.getLast? = some '\n')

/-- The line in the buffer `buf` is one the hierarchy parser does nothing with,
wherever it reads it: after white space it does not begin with `OFFSET`, and
it is blank or holds no brace and has a first word other than `OFFSET`,
`CHANNELS`, `JOINT` and `End`. -/
def inertLine (buf : List Char) : Bool :=
  let line := trim_prefix (cstr buf)
  decide (line.take 6 ≠ "OFFSET".toList) &&
  (decide (line = []) ||
    (!strchr line (Char.ofNat 123) && !strchr line (Char.ofNat 125) &&
     decide (scanStr none line ≠ some "OFFSET".toList) &&
     decide (scanStr none line ≠ some "CHANNELS".toList) &&
     decide (scanStr none line ≠ some "JOINT".toList) &&
     decide (scanStr none line ≠ some "End".toList)))

/-- Every line the hierarchy parser reads from the text `M` is inert: so it is for a
motion section, whose lines are the words `MOTION`, `Frames:`, `Frame Time:` and
numbers. -/
def inertText (M : List Char) : Bool :=
  (readLines MAX_LINE_LENGTH M.length M).all inertLine

/-- The word `w` occurs in the text. -/
def mentions (w : List Char) : List Char → Bool
  | [] => w.isPrefixOf []
  | c :: s => w.isPrefixOf (c :: s) || mentions w s

/-- The outcome `Y` of `parseBody` on a text followed by the inert text `M` agrees with
the outcome `X` on the text alone: the same node and heap are returned, with
`M` still unread, or with nothing unread when `X` has read to the end of its
text; or both return `NULL`; or both are undefined; or both run out of fuel. -/
def outcomesAppend {V : Type} (M : List Char)
    (X Y : Run (Option Nat × Heap V × List Char)) : Prop :=
  match X with
  | .ret (some a, h, s) =>
    (Y = .ret (some a, h, s ++ M) ∧ endsWithNewline s = true) ∨
    (s = [] ∧ Y = .ret (some a, h, []))
  | .ret (none, _, _) => ∃ h t, Y = .ret (none, h, t)
  | .undef => Y = .undef
  | .timeout => Y = .timeout

/-- The same for what the loop does with one line. -/
def actsAppend {V : Type} (M : List Char) (A B : LineAct V) : Prop :=
  match A with
  | .endSite off s => B = .endSite off (s ++ M) ∧ endsWithNewline s = true
  | .fail _ => ∃ r, B = .fail r
  | .skip l => B = .skip l
  | .close => B = .close
  | .undef => B = .undef
  | .update l nd => B = .update l nd
  | .joint l name => B = .joint l name

/-- A hierarchy of a root `R` with one End Site, without a motion section. -/
def hierarchyOnlyFile : List Char :=
  "HIERARCHY\nROOT R\n\x7b\nOFFSET 0 0 0\nCHANNELS 6\nEnd Site\n\x7b\nOFFSET 4 5 6\n\x7d\n\x7d\n".toList

/-- A well-formed motion section for `hierarchyOnlyFile`: one frame of six values. -/
def oneFrameMotion : List Char :=
  "MOTION\nFrames: 1\nFrame Time: 0.1\n1 2 3 4 5 6\n".toList

/-! ## Capacity and count of the motion buffer -/

/-- The three `while` loops of `parseMotion`, up to the allocation of `data`: the value of
`frames` (0 unless a line `Frames:` was found and `sscanf` stored a number), the
content of the buffer `line` (`none` while nothing was ever read into it) and
the lines still unread. The capacity of `data` is `motionCapacity frames`. -/
def motionHeader (file : List Char) : Int × Option (List Char) × List (List Char) :=
  let lines := readLines 1024 file.length file
  let (line1, lines1, _) :=
    readUntil (fun l => strncmpEq l "MOTION".toList 6) none lines
  let (line2, lines2, found) :=
    readUntil (fun l => strncmpEq l "Frames:".toList 7) line1 lines1
  let frames : Int :=
    match found, line2 with
    | true, some l => (sscanfFrames (cstr l)).getD 0
    | _, _ => 0
  let (line3, lines3, _) :=
    readUntil (fun l => !strncmpEq l "Frame Time:".toList 10) line2 lines2
  (frames, line3, lines3)

/-- The tokens the `do ... while` loop of `parseMotion` meets, in order, when it starts with
`line` in the buffer and `lines3` unread: the value of the token number `count`
(from 0) is stored by `data[count++] = atof(token)`. -/
def motionTokens (line : List Char) (lines3 : List (List Char)) : List (List Char) :=
  (line :: lines3).flatMap strtokAll

/-- A motion section of one frame whose data line holds 101 values. -/
def manyValuesMotion : List Char :=
  "MOTION\nFrames: 1\nFrame Time: 0.1\n".toList ++
    ((List.replicate 100 "1 ".toList).flatten ++ "1\n".toList)

/-- A motion section whose `Frames:` line holds a number whose product with 100 is
no value of `int`. -/
def hugeFramesMotion : List Char :=
  "MOTION\nFrames: 42949673\nFrame Time: 0.1\n1 2 3 4 5 6\n".toList

/-! # Theorems -/

set_option maxRecDepth 1000000

/-! ## Reading lines -/

theorem fgetsAux_append (n : Nat) (s : List Char) :
    (fgetsAux n s).1 ++ (fgetsAux n s).2 = s := by
  induction n generalizing s with
  | zero => simp [fgetsAux]
  | succ n ih =>
    cases s with
    | nil => simp [fgetsAux]
    | cons c s =>
      by_cases hc : c = '\n'
      · simp [fgetsAux, hc]
      · simp [fgetsAux, hc, ih]

theorem take_of_prefix_take {l1 l2 w : List Char} (hp : l1 <+: l2)
    (h : l1.take w.length = w) : l2.take w.length = w := by
  obtain ⟨t, rfl⟩ := hp
  have hl : w.length ≤ l1.length := by
    have := congrArg List.length h
    simp at this
    omega
  rw [List.take_append_of_le_length hl, h]

theorem headerOk_iff (file : List Char) :
    headerOk file = true ↔ file.take 9 = "HIERARCHY".toList := by
  constructor
  · intro h
    unfold headerOk fgets at h
    cases file with
    | nil => simp at h
    | cons c s =>
      simp only [decide_eq_true_eq] at h
      have hp : cstr (fgetsAux (MAX_LINE_LENGTH - 1) (c :: s)).1 <+: (c :: s) := by
        refine List.IsPrefix.trans (List.takeWhile_prefix _) ?_
        exact ⟨_, fgetsAux_append _ _⟩
      exact take_of_prefix_take (w := "HIERARCHY".toList) hp h
  · intro h
    have hl : 9 ≤ file.length := by
      have := congrArg List.length h
      simp at this
      exact this
    match file, h, hl with
    | c1 :: c2 :: c3 :: c4 :: c5 :: c6 :: c7 :: c8 :: c9 :: rest, h, _ =>
      simp at h
      obtain ⟨rfl, rfl, rfl, rfl, rfl, rfl, rfl, rfl, rfl⟩ := h
      simp [headerOk, fgets, fgetsAux, MAX_LINE_LENGTH, cstr]

/-! ## The header check (C8) -/

/-- C8, as the code has it: the header check of `parseHierarchy` passes exactly
when the input begins with the nine characters `HIERARCHY` (so they open the
first line, whatever follows them on it), and for every other input, a blank
first line included, `parseHierarchy` returns `NULL`. -/
theorem header_check_first_line {V : Type} [Zero V]
    (scanF : List Char → Option (V × List Char)) (file : List Char) :
    (headerOk file = true ↔ file.take 9 = "HIERARCHY".toList) ∧
    (file.take 9 ≠ "HIERARCHY".toList → parseHierarchy scanF file = .ret none) := by
  refine ⟨headerOk_iff file, fun h => ?_⟩
  have hf : headerOk file = false := by
    cases hb : headerOk file with
    | false => rfl
    | true => exact absurd ((headerOk_iff file).1 hb) h
  simp [parseHierarchy, hf]

/-- C8, witness: a first line `ROOT R` is no header, the parse returns `NULL`. -/
theorem header_check_first_line_witness :
    "ROOT R\n\x7b\n\x7d\n".toList.take 9 ≠ "HIERARCHY".toList ∧
    parseHierarchy (V := Int) scanInt "ROOT R\n\x7b\n\x7d\n".toList = .ret none :=
  ⟨by decide, (header_check_first_line scanInt "ROOT R\n\x7b\n\x7d\n".toList).2 (by decide)⟩

/-- C8, counterexample: the first non-blank line of `blankLineFirstFile` is exactly
`HIERARCHY`, yet the blank line before it makes `parseHierarchy` return `NULL`;
and `headerWithTailFile`, whose first line is not exactly `HIERARCHY`, passes the
check and yields a tree. -/
theorem header_blank_line_rejected :
    headerOk blankLineFirstFile = false ∧
    parseHierarchy (V := Int) scanInt blankLineFirstFile = .ret none ∧
    headerOk headerWithTailFile = true ∧
    parseHierarchy (V := Int) scanInt headerWithTailFile = .ret (some (0,
      [{ name := "R".toList, offset := (0, 0, 0), channels := 6,
         channelData := [0, 0, 0, 0, 0, 0],
         numChildren := 1, parent := none, children := some 1, next := none },
       { name := "End Site".toList, offset := (4, 5, 6), channels := 0, channelData := [],
         numChildren := 0, parent := some 0, children := none, next := none }])) := by
  decide

/-! ## The parser on the sample inputs (C1, C9, C10) -/

/-- C1, the code at a failing input: `twoSiblingsFile` declares the joints `A` and
`B` as children of the root, but the tree `parseHierarchy` returns has three
nodes only, the root, `A` and the End Site of `A`; joint `B` and its End Site
are missing. -/
theorem parseHierarchy_drops_sibling_joint :
    parseHierarchy (V := Int) scanInt twoSiblingsFile = .ret (some (0,
      [{ name := "R".toList, offset := (0, 0, 0), channels := 6,
         channelData := [0, 0, 0, 0, 0, 0],
         numChildren := 1, parent := none, children := some 1, next := none },
       { name := "A".toList, offset := (1, 2, 3), channels := 3, channelData := [0, 0, 0],
         numChildren := 1, parent := some 0, children := some 2, next := none },
       { name := "End Site".toList, offset := (4, 5, 6), channels := 0, channelData := [],
         numChildren := 0, parent := some 1, children := none, next := none }])) := by
  decide

/-- C9, the code at a failing input: the line `CHANNELS abc` in the body of joint
`B` of `badChannelsInSiblingFile` is never read, and `parseHierarchy` returns a tree;
the same line in the body of joint `A` makes it return `NULL`. -/
theorem parseHierarchy_misses_bad_channels :
    parseHierarchy (V := Int) scanInt badChannelsInSiblingFile = .ret (some (0,
      [{ name := "R".toList, offset := (0, 0, 0), channels := 6,
         channelData := [0, 0, 0, 0, 0, 0],
         numChildren := 1, parent := none, children := some 1, next := none },
       { name := "A".toList, offset := (1, 2, 3), channels := 3, channelData := [0, 0, 0],
         numChildren := 1, parent := some 0, children := some 2, next := none },
       { name := "End Site".toList, offset := (4, 5, 6), channels := 0, channelData := [],
         numChildren := 0, parent := some 1, children := none, next := none }])) ∧
    parseHierarchy (V := Int) scanInt badChannelsInFirstJointFile = .ret none := by
  decide

/-- C10, the code at a failing input: `truncatedFile` ends inside the body of joint
`A`, and `parseHierarchy` returns the tree built so far, the root with its child
`A`, instead of `NULL`. -/
theorem parseHierarchy_returns_tree_at_premature_end :
    parseHierarchy (V := Int) scanInt truncatedFile = .ret (some (0,
      [{ name := "R".toList, offset := (0, 0, 0), channels := 6,
         channelData := [0, 0, 0, 0, 0, 0],
         numChildren := 1, parent := none, children := some 1, next := none },
       { name := "A".toList, offset := (1, 2, 3), channels := 0, channelData := [],
         numChildren := 0, parent := some 0, children := none, next := none }])) := by
  decide

theorem put_getElem? {V : Type} (h : Heap V) (a b : Nat) (nd : Node V) :
    (h.put a nd)[b]? = if a = b then (h[b]?).map (fun _ => nd) else h[b]? := by
  unfold Heap.put
  by_cases hab : a = b
  · subst hab
    by_cases hlt : a < h.length
    · simp [List.getElem?_set_self hlt, List.getElem?_eq_getElem hlt]
    · have h1 : h[a]? = none := List.getElem?_eq_none (by omega)
      have h2 : (List.set h a nd)[a]? = none := List.getElem?_eq_none (by simp; omega)
      simp [h1, h2]
  · simp [hab, List.getElem?_set_ne hab]

theorem put_length {V : Type} (h : Heap V) (a : Nat) (nd : Node V) :
    (h.put a nd).length = h.length := by
  simp [Heap.put]

theorem siblings_cons {V : Type} (h : Heap V) (ptr : Option Nat) (a : Nat) (l : List Nat) :
    siblings h ptr (a :: l) = true ↔
      ptr = some a ∧ ∃ nd, h[a]? = some nd ∧ siblings h nd.next l = true := by
  simp only [siblings]
  cases h[a]? with
  | none => simp
  | some nd => simp

theorem siblings_nil {V : Type} (h : Heap V) (ptr : Option Nat) :
    siblings h ptr [] = true ↔ ptr = none := by
  simp [siblings]

theorem siblings_functional {V : Type} (h : Heap V) (ptr : Option Nat) (l1 l2 : List Nat)
    (h1 : siblings h ptr l1 = true) (h2 : siblings h ptr l2 = true) : l1 = l2 := by
  induction l1 generalizing ptr l2 with
  | nil =>
    rw [siblings_nil] at h1
    cases l2 with
    | nil => rfl
    | cons b l2 =>
      rw [siblings_cons] at h2
      rw [h1] at h2
      exact absurd h2.1 (by simp)
  | cons a l1 ih =>
    rw [siblings_cons] at h1
    obtain ⟨hp, nd, hnd, hl⟩ := h1
    cases l2 with
    | nil =>
      rw [siblings_nil] at h2
      rw [h2] at hp
      exact absurd hp (by simp)
    | cons b l2 =>
      rw [siblings_cons] at h2
      obtain ⟨hp2, nd2, hnd2, hl2⟩ := h2
      have hab : a = b := by
        rw [hp] at hp2
        exact Option.some.inj hp2
      subst hab
      rw [hnd] at hnd2
      cases hnd2
      rw [ih _ _ hl hl2]

theorem siblings_suffix {V : Type} (h : Heap V) (ptr : Option Nat) (l1 : List Nat) (a : Nat)
    (l2 : List Nat) (hs : siblings h ptr (l1 ++ a :: l2) = true) :
    siblings h (some a) (a :: l2) = true := by
  induction l1 generalizing ptr with
  | nil =>
    simp only [List.nil_append] at hs
    have := (siblings_cons h ptr a l2).1 hs
    rw [this.1] at hs
    exact hs
  | cons b l1 ih =>
    simp only [List.cons_append] at hs
    obtain ⟨_, nd, _, hl⟩ := (siblings_cons _ _ _ _).1 hs
    exact ih _ hl

theorem siblings_nodup {V : Type} (h : Heap V) (ptr : Option Nat) (l : List Nat)
    (hs : siblings h ptr l = true) : l.Nodup := by
  induction l generalizing ptr with
  | nil => exact List.nodup_nil
  | cons a l ih =>
    obtain ⟨hp, nd, hnd, hl⟩ := (siblings_cons _ _ _ _).1 hs
    refine List.nodup_cons.2 ⟨?_, ih _ hl⟩
    intro hmem
    obtain ⟨l1, l2, rfl⟩ := List.append_of_mem hmem
    have h2 := siblings_suffix h _ l1 a l2 hl
    rw [hp] at hs
    have := siblings_functional h _ _ _ hs h2
    have hlen := congrArg List.length this
    simp at hlen
    omega

theorem siblings_bound {V : Type} (h : Heap V) (ptr : Option Nat) (l : List Nat)
    (hs : siblings h ptr l = true) : ∀ a ∈ l, a < h.length := by
  induction l generalizing ptr with
  | nil => simp
  | cons a l ih =>
    obtain ⟨hp, nd, hnd, hl⟩ := (siblings_cons _ _ _ _).1 hs
    intro b hb
    rcases List.mem_cons.1 hb with rfl | hb
    · by_contra hge
      rw [List.getElem?_eq_none (by omega)] at hnd
      cases hnd
    · exact ih _ hl b hb

theorem nodup_bounded_length (l : List Nat) (n : Nat) (hn : l.Nodup)
    (hb : ∀ a ∈ l, a < n) : l.length ≤ n := by
  have hsub : l ⊆ List.range n := fun a ha => List.mem_range.2 (hb a ha)
  have := (List.Nodup.subperm hn hsub).length_le
  simpa using this

theorem siblings_congr {V : Type} (h h' : Heap V) (ptr : Option Nat) (l : List Nat)
    (hsame : ∀ a ∈ l, (h'[a]?).map (fun nd => nd.next) = (h[a]?).map (fun nd => nd.next))
    (hs : siblings h ptr l = true) : siblings h' ptr l = true := by
  induction l generalizing ptr with
  | nil => simpa [siblings] using hs
  | cons a l ih =>
    obtain ⟨hp, nd, hnd, hl⟩ := (siblings_cons _ _ _ _).1 hs
    have h1 := hsame a (List.mem_cons_self _ _)
    rw [hnd] at h1
    cases hnd' : h'[a]? with
    | none => rw [hnd'] at h1; simp at h1
    | some nd' =>
      rw [hnd'] at h1
      simp at h1
      refine (siblings_cons _ _ _ _).2 ⟨hp, nd', hnd', ?_⟩
      rw [h1]
      exact ih _ (fun b hb => hsame b (List.mem_cons_of_mem _ hb)) hl

theorem lastSibling_spec {V : Type} (h : Heap V) (a : Nat) (l : List Nat) (fuel : Nat)
    (hs : siblings h (some a) (a :: l) = true) (hf : l.length < fuel) :
    lastSibling h fuel a = .ret ((a :: l).getLast (by simp)) := by
  induction l generalizing a fuel with
  | nil =>
    obtain ⟨_, nd, hnd, hl⟩ := (siblings_cons _ _ _ _).1 hs
    rw [siblings_nil] at hl
    cases fuel with
    | zero => simp at hf
    | succ fuel => simp [lastSibling, hnd, hl]
  | cons b l ih =>
    obtain ⟨_, nd, hnd, hl⟩ := (siblings_cons _ _ _ _).1 hs
    have hb := ((siblings_cons _ _ _ _).1 hl).1
    cases fuel with
    | zero => simp at hf
    | succ fuel =>
      rw [hb] at hl
      have := ih b fuel hl (by simpa using hf)
      simp [lastSibling, hnd, hb, this]

theorem createNode_null {V : Type} [Zero V] (name : List Char) (nc : Int) (ofx ofy ofz : V)
    (h : Heap V) (hname : name.length < MAX_NAME_LENGTH) :
    createNode name none nc ofx ofy ofz h
      = .ret (h.length, h ++ [freshNode name none nc ofx ofy ofz]) := by
  simp [createNode, Nat.not_le.2 hname]

theorem createNode_spec {V : Type} [Zero V] (name : List Char) (nc : Int) (ofx ofy ofz : V)
    (h : Heap V) (p : Nat) (pn : Node V) (kids : List Nat)
    (hname : name.length < MAX_NAME_LENGTH) (hp : h[p]? = some pn)
    (hk : siblings h pn.children kids = true) :
    ∃ h', createNode name (some p) nc ofx ofy ofz h = .ret (h.length, h') ∧
      h'.length = h.length + 1 ∧
      h'[h.length]? = some (freshNode name (some p) nc ofx ofy ofz) ∧
      ∀ (a : Nat) (nd : Node V), h[a]? = some nd →
        h'[a]? = some (relink p h.length kids a nd) := by
  have hplt : p < h.length := by
    by_contra hge
    rw [List.getElem?_eq_none (by omega)] at hp
    cases hp
  have hold : ∀ (a : Nat) (nd : Node V), h[a]? = some nd →
      (h ++ [freshNode name (some p) nc ofx ofy ofz])[a]? = some nd := by
    intro a nd ha
    have halt : a < h.length := by
      by_contra hge
      rw [List.getElem?_eq_none (by omega)] at ha
      cases ha
    rw [List.getElem?_append_left halt, ha]
  have hnew : (h ++ [freshNode name (some p) nc ofx ofy ofz])[h.length]?
      = some (freshNode name (some p) nc ofx ofy ofz) := by
    simp
  cases hc : pn.children with
  | none =>
    rw [hc] at hk
    have hkn : kids = [] := by
      cases kids with
      | nil => rfl
      | cons b l => exact absurd ((siblings_cons _ _ _ _).1 hk).1 (by simp)
    subst hkn
    refine ⟨(h ++ [freshNode name (some p) nc ofx ofy ofz]).put p
      { pn with children := some h.length, numChildren := pn.numChildren + 1 }, ?_, ?_, ?_, ?_⟩
    · simp only [createNode, Nat.not_le.2 hname, if_false]
      simp only [hold p pn hp, hc]
    · simp [put_length]
    · rw [put_getElem?, if_neg (by omega), hnew]
    · intro a nd ha
      rw [put_getElem?, hold a nd ha]
      by_cases hpa : p = a
      · subst hpa
        rw [hp] at ha
        cases ha
        simp [relink, hc]
      · have hap : ¬ a = p := fun e => hpa e.symm
        simp [relink, hpa, hap]
  | some first =>
    rw [hc] at hk
    obtain ⟨l, rfl⟩ : ∃ l, kids = first :: l := by
      cases kids with
      | nil => simp [siblings] at hk
      | cons b l =>
        have := ((siblings_cons _ _ _ _).1 hk).1
        cases this
        exact ⟨l, rfl⟩
    have hnd := siblings_nodup _ _ _ hk
    have hbd := siblings_bound _ _ _ hk
    have hlen := nodup_bounded_length _ _ hnd hbd
    have hk1 : siblings (h ++ [freshNode name (some p) nc ofx ofy ofz]) (some first)
        (first :: l) = true := by
      refine siblings_congr h _ _ _ ?_ hk
      intro a ha
      rw [List.getElem?_append_left (hbd a ha)]
    have hlast := lastSibling_spec _ first l
      (h ++ [freshNode name (some p) nc ofx ofy ofz]).length hk1
      (by simp at hlen ⊢; omega)
    have hlm : (first :: l).getLast (by simp) ∈ first :: l := List.getLast_mem _
    have hllt := hbd _ hlm
    obtain ⟨ln, hln⟩ : ∃ ln, h[(first :: l).getLast (by simp)]? = some ln :=
      ⟨_, List.getElem?_eq_getElem hllt⟩
    have hgl : (first :: l).getLast? = some ((first :: l).getLast (by simp)) :=
      List.getLast?_eq_getLast _ _
    generalize hlastdef : (first :: l).getLast (by simp) = last at *
    have hcreate : ∀ pn2, ((h ++ [freshNode name (some p) nc ofx ofy ofz]).put last
          { ln with next := some h.length })[p]? = some pn2 →
        createNode name (some p) nc ofx ofy ofz h = .ret (h.length,
          ((h ++ [freshNode name (some p) nc ofx ofy ofz]).put last
            { ln with next := some h.length }).put p
            { pn2 with numChildren := pn2.numChildren + 1 }) := by
      intro pn2 hpn2
      simp only [createNode, Nat.not_le.2 hname, if_false]
      simp only [hold p pn hp, hc, hlast, hold last ln hln, hpn2]
    by_cases hlp : last = p
    · subst hlp
      rw [hln] at hp
      have e : ln = pn := Option.some.inj hp
      subst e
      have hpn2 : ((h ++ [freshNode name (some last) nc ofx ofy ofz]).put last
          { ln with next := some h.length })[last]? = some { ln with next := some h.length } := by
        rw [put_getElem?, hold last ln hln]
        simp
      refine ⟨_, hcreate _ hpn2, ?_, ?_, ?_⟩
      · simp [put_length]
      · rw [put_getElem?, if_neg (by omega), put_getElem?, if_neg (by omega), hnew]
      · intro a nd ha
        rw [put_getElem?, put_getElem?, hold a nd ha]
        by_cases hla : last = a
        · subst hla
          rw [hln] at ha
          cases ha
          simp [relink, hgl]
        · have h1 : ¬ a = last := fun e => hla e.symm
          have h2 : ¬ some last = some a := fun e => hla (Option.some.inj e)
          simp [relink, hgl, hla, h1, h2]
    · have hpn2 : ((h ++ [freshNode name (some p) nc ofx ofy ofz]).put last
          { ln with next := some h.length })[p]? = some pn := by
        rw [put_getElem?, hold p pn hp]
        simp [hlp]
      refine ⟨_, hcreate _ hpn2, ?_, ?_, ?_⟩
      · simp [put_length]
      · rw [put_getElem?, if_neg (by omega), put_getElem?, if_neg (by omega), hnew]
      · intro a nd ha
        rw [put_getElem?, put_getElem?, hold a nd ha]
        by_cases hpa : p = a
        · subst hpa
          rw [hp] at ha
          cases ha
          have h2 : ¬ some last = some p := fun e => hlp (Option.some.inj e)
          simp [relink, hgl, hlp, h2]
        · have hap : ¬ a = p := fun e => hpa e.symm
          by_cases hla : last = a
          · subst hla
            rw [hln] at ha
            cases ha
            simp [relink, hgl, hpa, hap]
          · have h2 : ¬ some last = some a := fun e => hla (Option.some.inj e)
            simp [relink, hgl, hpa, hap, hla, h2]

theorem getElem?_lt_length {V : Type} (h : Heap V) (a : Nat) (nd : Node V)
    (ha : h[a]? = some nd) : a < h.length := by
  by_contra hge
  rw [List.getElem?_eq_none (by omega)] at ha
  cases ha

theorem siblings_snoc {V : Type} (h h' : Heap V) (n : Nat) (fn : Node V) (kids : List Nat)
    (ptr : Option Nat) (hs : siblings h ptr kids = true)
    (hn : h'[n]? = some fn) (hfn : fn.next = none)
    (hrel : ∀ x ∈ kids, ∀ nd, h[x]? = some nd →
      ∃ nd', h'[x]? = some nd' ∧
        nd'.next = if kids.getLast? = some x then some n else nd.next) :
    siblings h' (if kids = [] then some n else ptr) (kids ++ [n]) = true := by
  induction kids generalizing ptr with
  | nil =>
    simp only [if_true, List.nil_append]
    exact (siblings_cons _ _ _ _).2 ⟨rfl, fn, hn, by rw [hfn]; simp [siblings]⟩
  | cons a l ih =>
    have hnd := siblings_nodup _ _ _ hs
    obtain ⟨hp, nd, hnda, hl⟩ := (siblings_cons _ _ _ _).1 hs
    obtain ⟨nd', hnd', hnext⟩ := hrel a (List.mem_cons_self _ _) nd hnda
    simp only [List.cons_append, if_neg (List.cons_ne_nil a l)]
    refine (siblings_cons _ _ _ _).2 ⟨hp, nd', hnd', ?_⟩
    cases l with
    | nil =>
      rw [hnext]
      simp only [List.getLast?_singleton, if_true, List.nil_append]
      exact (siblings_cons _ _ _ _).2 ⟨rfl, fn, hn, by rw [hfn]; simp [siblings]⟩
    | cons b l' =>
      have hgl : (a :: b :: l').getLast? = (b :: l').getLast? := by
        simp [List.getLast?_cons_cons]
      have hne : ¬ (b :: l').getLast? = some a := by
        intro e
        have hmem : a ∈ b :: l' := List.mem_of_getLast?_eq_some e
        exact (List.nodup_cons.1 hnd).1 hmem
      rw [hnext, hgl, if_neg hne]
      have := ih nd.next hl (fun x hx ndx hndx => by
        obtain ⟨ndx', h1, h2⟩ := hrel x (List.mem_cons_of_mem _ hx) ndx hndx
        exact ⟨ndx', h1, by rw [h2, hgl]⟩)
      simpa using this

/-- C5: for a parent `p` whose children so far are the `k` nodes `kids`, and a name
that fits the `name` field, `createNode` returns a new node (at the next free
address) with the given name, channel count and offset, a zeroed buffer, no
children and `parent = p`; afterwards the children of `p` are `kids` followed
by the new node, `numChildren` of `p` is one more, and every other field of
every old node is as before (`relink`). With a `NULL` parent the new node is
added and nothing else changes. -/
theorem createNode_links_last_child {V : Type} [Zero V] (name : List Char) (nc : Int)
    (ofx ofy ofz : V) (h : Heap V) (p : Nat) (pn : Node V) (kids : List Nat)
    (hname : name.length < MAX_NAME_LENGTH) (hp : h[p]? = some pn)
    (hk : siblings h pn.children kids = true) :
    createNode name none nc ofx ofy ofz h
      = .ret (h.length, h ++ [freshNode name none nc ofx ofy ofz]) ∧
    ∃ h' pn', createNode name (some p) nc ofx ofy ofz h = .ret (h.length, h') ∧
      h'.length = h.length + 1 ∧
      h'[h.length]? = some (freshNode name (some p) nc ofx ofy ofz) ∧
      h'[p]? = some pn' ∧
      pn'.numChildren = pn.numChildren + 1 ∧
      siblings h' pn'.children (kids ++ [h.length]) = true ∧
      ∀ (a : Nat) (nd : Node V), h[a]? = some nd →
        h'[a]? = some (relink p h.length kids a nd) := by
  refine ⟨createNode_null name nc ofx ofy ofz h hname, ?_⟩
  obtain ⟨h', hc, hlen, hnew, hrel⟩ := createNode_spec name nc ofx ofy ofz h p pn kids hname hp hk
  refine ⟨h', relink p h.length kids p pn, hc, hlen, hnew, hrel p pn hp, by simp [relink], ?_, hrel⟩
  have hs := siblings_snoc h h' h.length _ kids pn.children hk hnew (by simp [freshNode])
    (fun x _ nd hx => ⟨_, hrel x nd hx, by simp [relink]⟩)
  cases kids with
  | nil => simpa [relink] using hs
  | cons b l => simpa [relink] using hs

/-- C5, witness: a second child `B` is created under `sampleRoot`, which has the
child `A` at address 1. -/
theorem createNode_links_last_child_witness :
    ("B".toList.length < MAX_NAME_LENGTH ∧ sampleHeap[0]? = some sampleRoot ∧
      siblings sampleHeap sampleRoot.children [1] = true) ∧
    (createNode "B".toList none 3 (7 : Int) 8 9 sampleHeap
      = .ret (sampleHeap.length, sampleHeap ++ [freshNode "B".toList none 3 7 8 9]) ∧
    ∃ h' pn', createNode "B".toList (some 0) 3 (7 : Int) 8 9 sampleHeap
        = .ret (sampleHeap.length, h') ∧
      h'.length = sampleHeap.length + 1 ∧
      h'[sampleHeap.length]? = some (freshNode "B".toList (some 0) 3 7 8 9) ∧
      h'[0]? = some pn' ∧
      pn'.numChildren = sampleRoot.numChildren + 1 ∧
      siblings h' pn'.children ([1] ++ [sampleHeap.length]) = true ∧
      ∀ (a : Nat) (nd : Node Int), sampleHeap[a]? = some nd →
        h'[a]? = some (relink 0 sampleHeap.length [1] a nd)) :=
  ⟨⟨by decide, by decide, by decide⟩,
   createNode_links_last_child "B".toList 3 7 8 9 sampleHeap 0 sampleRoot [1]
     (by decide) (by decide) (by decide)⟩

theorem skel_getElem? {V : Type} {h h' : Heap V}
    (hs : h'.map skeleton = h.map skeleton) (a : Nat) :
    (h'[a]?).map skeleton = (h[a]?).map skeleton := by
  have := congrArg (fun l => l[a]?) hs
  simpa [List.getElem?_map] using this

theorem skel_some {V : Type} {h h' : Heap V}
    (hs : h'.map skeleton = h.map skeleton) {a : Nat} {nd : Node V} (ha : h[a]? = some nd) :
    ∃ nd', h'[a]? = some nd' ∧ skeleton nd' = skeleton nd := by
  have := skel_getElem? hs a
  rw [ha] at this
  cases hnd' : h'[a]? with
  | none => rw [hnd'] at this; simp at this
  | some nd' =>
    rw [hnd'] at this
    exact ⟨nd', rfl, by simpa using this⟩

theorem skel_none {V : Type} {h h' : Heap V}
    (hs : h'.map skeleton = h.map skeleton) {a : Nat} (ha : h[a]? = none) :
    h'[a]? = none := by
  have := skel_getElem? hs a
  rw [ha] at this
  cases hnd' : h'[a]? with
  | none => rfl
  | some nd' => rw [hnd'] at this; simp at this

theorem skeleton_fields {V : Type} {nd nd' : Node V} (hs : skeleton nd' = skeleton nd) :
    nd'.name = nd.name ∧ nd'.offset = nd.offset ∧ nd'.channels = nd.channels ∧
    nd'.numChildren = nd.numChildren ∧ nd'.parent = nd.parent ∧
    nd'.children = nd.children ∧ nd'.next = nd.next := by
  cases nd
  cases nd'
  simp only [skeleton, Node.mk.injEq] at hs
  simp only
  tauto

theorem skel_put {V : Type} (h : Heap V) (a : Nat) (nd : Node V) (cd : List V)
    (ha : h[a]? = some nd) :
    (h.put a { nd with channelData := cd }).map skeleton = h.map skeleton := by
  apply List.ext_getElem?
  intro b
  simp only [List.getElem?_map, put_getElem?]
  by_cases hab : a = b
  · subst hab
    simp [ha, skeleton]
  · simp [hab]

theorem reprs_node {V : Type} (h : Heap V) (par ptr : Option Nat) (a : Nat) (k s : Shape) :
    reprs h par ptr (.node a k s) = true ↔
      ∃ nd, h[a]? = some nd ∧ ptr = some a ∧ nd.parent = par ∧
        nd.numChildren = (k.roots.length : Int) ∧
        reprs h (some a) nd.children k = true ∧ reprs h par nd.next s = true := by
  simp only [reprs]
  cases h[a]? with
  | none => simp
  | some nd => simp [and_assoc]

theorem reprs_nil {V : Type} (h : Heap V) (par ptr : Option Nat) :
    reprs h par ptr .nil = true ↔ ptr = none := by
  simp [reprs]

theorem reprs_congr {V : Type} {h h' : Heap V} (hs : h'.map skeleton = h.map skeleton)
    (s : Shape) (par ptr : Option Nat) (hr : reprs h par ptr s = true) :
    reprs h' par ptr s = true := by
  induction s generalizing par ptr with
  | nil => simpa [reprs] using hr
  | node a k sib ihk ihs =>
    obtain ⟨nd, hnd, hp, hpar, hnum, hk, hsib⟩ := (reprs_node _ _ _ _ _ _).1 hr
    obtain ⟨nd', hnd', hsk⟩ := skel_some hs hnd
    obtain ⟨_, _, _, h4, h5, h6, h7⟩ := skeleton_fields hsk
    refine (reprs_node _ _ _ _ _ _).2 ⟨nd', hnd', hp, by rw [h5, hpar], by rw [h4, hnum], ?_, ?_⟩
    · rw [h6]; exact ihk _ _ hk
    · rw [h7]; exact ihs _ _ hsib

theorem roots_length_eq_zero (k : Shape) (hk : (k.roots.length : Int) = 0) : k = .nil := by
  cases k with
  | nil => rfl
  | node a k s => simp [Shape.roots] at hk; omega

theorem walk_append {V : Type} (data : List V) (l1 l2 : List Nat) (h : Heap V) (pos : Nat) :
    walk data (l1 ++ l2) h pos =
      match walk data l1 h pos with
      | .done h1 p1 => walk data l2 h1 p1
      | .overrun h1 p1 => .overrun h1 p1
      | .undef => .undef
      | .timeout => .timeout := by
  induction l1 generalizing h pos with
  | nil => simp [walk]
  | cons a l1 ih =>
    simp only [List.cons_append, walk]
    cases h[a]? with
    | none => rfl
    | some nd =>
      simp only
      by_cases hz : nd.numChildren = 0
      · simp only [hz, if_true]; exact ih _ _
      · simp only [hz, if_false]
        cases copyChannels data nd.channels.toNat 0 nd.channelData pos with
        | undef => rfl
        | overrun cd p => rfl
        | ok cd p => exact ih _ _

theorem walk_skeleton {V : Type} (data : List V) (l : List Nat) (h : Heap V) (pos : Nat) :
    (∀ h1 p1, walk data l h pos = .done h1 p1 → h1.map skeleton = h.map skeleton) ∧
    (∀ h1 p1, walk data l h pos = .overrun h1 p1 → h1.map skeleton = h.map skeleton) := by
  induction l generalizing h pos with
  | nil =>
    constructor
    · intro h1 p1 hw
      simp only [walk, Applied.done.injEq] at hw
      rw [hw.1]
    · intro h1 p1 hw
      simp [walk] at hw
  | cons a l ih =>
    simp only [walk]
    cases hnd : h[a]? with
    | none => simp
    | some nd =>
      simp only
      by_cases hz : nd.numChildren = 0
      · simp only [hz, if_true]; exact ih _ _
      · simp only [hz, if_false]
        cases copyChannels data nd.channels.toNat 0 nd.channelData pos with
        | undef => simp
        | overrun cd p =>
          constructor
          · intro h1 p1 hw; simp at hw
          · intro h1 p1 hw
            simp only [Applied.overrun.injEq] at hw
            rw [← hw.1]
            exact skel_put h a nd cd hnd
        | ok cd p =>
          simp only
          have := ih (h.put a { nd with channelData := cd }) p
          constructor
          · intro h1 p1 hw
            rw [this.1 h1 p1 hw]
            exact skel_put h a nd cd hnd
          · intro h1 p1 hw
            rw [this.2 h1 p1 hw]
            exact skel_put h a nd cd hnd

theorem applyChildren_eq_walk {V : Type} (data : List V) (s : Shape) :
    ∀ (h : Heap V) (par ptr : Option Nat) (pos fuel : Nat),
      reprs h par ptr s = true → 2 * s.size + 1 ≤ fuel →
      applyChildren data fuel ptr h pos = walk data s.addrs h pos := by
  induction s with
  | nil =>
    intro h par ptr pos fuel hr hf
    rw [reprs_nil] at hr
    subst hr
    cases fuel with
    | zero => omega
    | succ f => simp [applyChildren, walk, Shape.addrs]
  | node a k sib ihk ihs =>
    intro h par ptr pos fuel hr hf
    obtain ⟨nd, hnd, hp, hpar, hnum, hk, hsib⟩ := (reprs_node _ _ _ _ _ _).1 hr
    subst hp
    simp only [Shape.size] at hf
    obtain ⟨F, rfl⟩ : ∃ F, fuel = F + 1 := ⟨fuel - 1, by omega⟩
    obtain ⟨F', rfl⟩ : ∃ F', F = F' + 1 := ⟨F - 1, by omega⟩
    simp only [applyChildren, applyData, hnd, Shape.addrs, walk]
    by_cases hz : nd.numChildren = 0
    · simp only [hz, if_true, hnd]
      have hknil : k = .nil := roots_length_eq_zero k (by rw [← hnum, hz])
      subst hknil
      simp only [Shape.addrs, List.nil_append]
      exact ihs h par nd.next pos (F' + 1) hsib (by omega)
    · simp only [hz, if_false]
      cases hcc : copyChannels data nd.channels.toNat 0 nd.channelData pos with
      | undef => rfl
      | overrun cd p => rfl
      | ok cd p =>
        simp only
        have hsk := skel_put h a nd cd hnd
        rw [ihk _ (some a) nd.children p F' (reprs_congr hsk k _ _ hk) (by omega)]
        rw [walk_append]
        cases hw : walk data k.addrs (h.put a { nd with channelData := cd }) p with
        | undef => rfl
        | timeout => rfl
        | overrun h1 p1 => rfl
        | done h1 p1 =>
          simp only
          have hsk1 := (walk_skeleton data k.addrs _ p).1 h1 p1 hw
          have hsk2 : h1.map skeleton = h.map skeleton := hsk1.trans hsk
          obtain ⟨pd, hpd, hpdsk⟩ := skel_some hsk2 hnd
          rw [hpd]
          simp only
          rw [(skeleton_fields hpdsk).2.2.2.2.2.2]
          exact ihs h1 par nd.next p1 (F' + 1) (reprs_congr hsk2 sib _ _ hsib) (by omega)

theorem applyData_eq_walk {V : Type} (data : List V) (h : Heap V) (root : Nat) (kids : Shape)
    (pos fuel : Nat)
    (hr : reprs h none (some root) (.node root kids .nil) = true)
    (hf : 2 * kids.size + 2 ≤ fuel) :
    applyData data fuel root h pos = walk data (root :: kids.addrs) h pos := by
  obtain ⟨nd, hnd, _, hpar, hnum, hk, hsib⟩ := (reprs_node _ _ _ _ _ _).1 hr
  obtain ⟨F, rfl⟩ : ∃ F, fuel = F + 1 := ⟨fuel - 1, by omega⟩
  simp only [applyData, hnd, walk]
  by_cases hz : nd.numChildren = 0
  · simp only [hz, if_true]
    have hknil : kids = .nil := roots_length_eq_zero kids (by rw [← hnum, hz])
    subst hknil
    simp [Shape.addrs, walk]
  · simp only [hz, if_false]
    cases hcc : copyChannels data nd.channels.toNat 0 nd.channelData pos with
    | undef => rfl
    | overrun cd p => rfl
    | ok cd p =>
      simp only
      exact applyChildren_eq_walk data kids _ (some root) nd.children p F
        (reprs_congr (skel_put h root nd cd hnd) kids _ _ hk) (by omega)

theorem buffersFit_iff {V : Type} (h : Heap V) (as : List Nat) :
    buffersFit h as = true ↔
      ∀ a ∈ as, ∃ nd, h[a]? = some nd ∧ nd.channelData.length = nd.channels.toNat := by
  simp only [buffersFit, List.all_eq_true]
  constructor
  · intro hall a ha
    have := hall a ha
    cases hnd : h[a]? with
    | none => rw [hnd] at this; simp at this
    | some nd => rw [hnd] at this; exact ⟨nd, rfl, by simpa using this⟩
  · intro hall a ha
    obtain ⟨nd, hnd, hl⟩ := hall a ha
    rw [hnd]
    simpa using hl

theorem slice_zero {V : Type} (data : List V) (pos : Nat) : slice data pos 0 = [] := by
  simp [slice]

theorem slice_succ {V : Type} (data : List V) (pos n : Nat) (v : V)
    (hv : data[pos]? = some v) : slice data pos (n + 1) = v :: slice data (pos + 1) n := by
  unfold slice
  have hlt : pos < data.length := by
    by_contra hge
    rw [List.getElem?_eq_none (by omega)] at hv
    cases hv
  rw [List.drop_eq_getElem_cons hlt]
  have : data[pos] = v := by
    rw [List.getElem?_eq_getElem hlt] at hv
    exact Option.some.inj hv
  simp [this]

theorem slice_of_le {V : Type} (data : List V) (pos n : Nat) (h : data.length ≤ pos) :
    slice data pos n = [] := by
  simp [slice, List.drop_eq_nil_of_le h]

theorem slice_length {V : Type} (data : List V) (pos n : Nat) :
    (slice data pos n).length = min n (data.length - pos) := by
  simp [slice]

theorem take_set_succ {V : Type} (cd : List V) (c : Nat) (v : V) (hc : c < cd.length) :
    (cd.set c v).take (c + 1) = cd.take c ++ [v] := by
  induction cd generalizing c with
  | nil => simp at hc
  | cons x xs ih =>
    cases c with
    | zero => simp
    | succ c =>
      simp only [List.set_cons_succ, List.take_succ_cons, List.cons_append]
      rw [ih c (by simpa using hc)]

theorem drop_set_gt {V : Type} (cd : List V) (c : Nat) (v : V) (m : Nat) :
    (cd.set c v).drop (c + 1 + m) = cd.drop (c + 1 + m) := by
  induction cd generalizing c with
  | nil => simp
  | cons x xs ih =>
    cases c with
    | zero =>
      have : 0 + 1 + m = m + 1 := by omega
      rw [this]
      simp
    | succ c =>
      have : c + 1 + 1 + m = (c + 1 + m) + 1 := by omega
      rw [this]
      simp only [List.set_cons_succ, List.drop_succ_cons]
      exact ih c

theorem copyChannels_spec {V : Type} (data : List V) :
    ∀ (n c : Nat) (cd : List V) (pos : Nat), c + n ≤ cd.length →
      copyChannels data n c cd pos =
        if n = 0 ∨ pos + n ≤ data.length then
          .ok (cd.take c ++ slice data pos n ++ cd.drop (c + (slice data pos n).length)) (pos + n)
        else
          .overrun (cd.take c ++ slice data pos n ++ cd.drop (c + (slice data pos n).length))
            (max pos data.length) := by
  intro n
  induction n with
  | zero =>
    intro c cd pos _
    simp [copyChannels, slice_zero]
  | succ n ih =>
    intro c cd pos hc
    simp only [copyChannels]
    cases hv : data[pos]? with
    | none =>
      have hge : data.length ≤ pos := by
        by_contra hlt
        rw [List.getElem?_eq_getElem (by omega)] at hv
        cases hv
      have hcond : ¬ (n + 1 = 0 ∨ pos + (n + 1) ≤ data.length) := by omega
      simp only [hcond, if_false, slice_of_le data pos (n + 1) hge]
      simp [Nat.max_eq_left hge]
    | some v =>
      have hlt : pos < data.length := by
        by_contra hge
        rw [List.getElem?_eq_none (by omega)] at hv
        cases hv
      have hclt : c < cd.length := by omega
      simp only [hclt, if_true]
      rw [ih (c + 1) (cd.set c v) (pos + 1) (by simp; omega)]
      have htake := take_set_succ cd c v hclt
      have hdrop := drop_set_gt cd c v
      rw [htake, hdrop, slice_succ data pos n v hv]
      have hmax : max (pos + 1) data.length = max pos data.length := by
        rw [Nat.max_eq_right (by omega), Nat.max_eq_right (by omega)]
      have e1 : c + 1 + (slice data (pos + 1) n).length
          = c + (v :: slice data (pos + 1) n).length := by
        simp; omega
      rw [e1, hmax]
      have e2 : pos + 1 + n = pos + (n + 1) := by omega
      rw [e2]
      by_cases hcond : pos + (n + 1) ≤ data.length
      · have h1 : n = 0 ∨ pos + (n + 1) ≤ data.length := Or.inr hcond
        have h2 : n + 1 = 0 ∨ pos + (n + 1) ≤ data.length := Or.inr hcond
        simp only [h1, h2, if_true]
        simp
      · have h1 : ¬ (n = 0 ∨ pos + (n + 1) ≤ data.length) := by omega
        have h2 : ¬ (n + 1 = 0 ∨ pos + (n + 1) ≤ data.length) := by omega
        simp only [h1, h2, if_false]
        simp

theorem copyChannels_fit {V : Type} (data : List V) (cd : List V) (pos : Nat) :
    copyChannels data cd.length 0 cd pos =
      if cd.length = 0 ∨ pos + cd.length ≤ data.length then
        .ok (overwrite cd (slice data pos cd.length)) (pos + cd.length)
      else .overrun (overwrite cd (slice data pos cd.length)) (max pos data.length) := by
  rw [copyChannels_spec data cd.length 0 cd pos (by omega)]
  simp [overwrite]

theorem taken_congr {V : Type} {h h' : Heap V} (hs : h'.map skeleton = h.map skeleton)
    (a : Nat) : taken h' a = taken h a := by
  unfold taken
  cases hnd : h[a]? with
  | none => rw [skel_none hs hnd]
  | some nd =>
    obtain ⟨nd', hnd', hsk⟩ := skel_some hs hnd
    obtain ⟨_, _, h3, h4, _⟩ := skeleton_fields hsk
    rw [hnd']
    simp only [h3, h4]

theorem takenSum_congr {V : Type} {h h' : Heap V} (hs : h'.map skeleton = h.map skeleton)
    (as : List Nat) : takenSum h' as = takenSum h as := by
  unfold takenSum
  congr 1
  exact List.map_congr_left (fun a _ => taken_congr hs a)

theorem takenSum_cons {V : Type} (h : Heap V) (a : Nat) (as : List Nat) :
    takenSum h (a :: as) = taken h a + takenSum h as := by
  simp [takenSum]

theorem takenSum_append {V : Type} (h : Heap V) (l1 l2 : List Nat) :
    takenSum h (l1 ++ l2) = takenSum h l1 + takenSum h l2 := by
  simp [takenSum]

theorem overwrite_length {V : Type} (cd vals : List V) (hv : vals.length ≤ cd.length) :
    (overwrite cd vals).length = cd.length := by
  simp [overwrite]
  omega

theorem overwrite_nil {V : Type} (cd : List V) : overwrite cd [] = cd := by
  simp [overwrite]

theorem overwrite_overwrite {V : Type} (cd vals : List V) :
    overwrite (overwrite cd vals) vals = overwrite cd vals := by
  simp [overwrite]

theorem put_self {V : Type} (h : Heap V) (a : Nat) (nd : Node V) (ha : h[a]? = some nd) :
    h.put a nd = h := by
  apply List.ext_getElem?
  intro b
  rw [put_getElem?]
  by_cases hab : a = b
  · subst hab; simp [ha]
  · simp [hab]

theorem buffersFit_put {V : Type} (h : Heap V) (as : List Nat) (a : Nat) (nd : Node V)
    (cd : List V) (ha : h[a]? = some nd) (hcd : cd.length = nd.channelData.length)
    (hf : buffersFit h as = true) :
    buffersFit (h.put a { nd with channelData := cd }) as = true := by
  rw [buffersFit_iff] at hf ⊢
  intro b hb
  obtain ⟨ndb, hndb, hl⟩ := hf b hb
  rw [put_getElem?]
  by_cases hab : a = b
  · subst hab
    rw [ha] at hndb
    cases hndb
    refine ⟨{ nd with channelData := cd }, by simp [ha], ?_⟩
    simpa [hcd] using hl
  · exact ⟨ndb, by simp [hab, hndb], hl⟩

theorem applied_of_le {V : Type} (data : List V) (as : List Nat) (h : Heap V) (pos : Nat)
    (hp : data.length ≤ pos) : applied data as h pos = h := by
  induction as generalizing h pos with
  | nil => rfl
  | cons a as ih =>
    simp only [applied]
    cases hnd : h[a]? with
    | none => exact ih h pos hp
    | some nd =>
      simp only
      by_cases hz : nd.numChildren = 0
      · simp only [hz, if_true]; exact ih h pos hp
      · simp only [hz, if_false]
        rw [slice_of_le data pos _ hp, overwrite_nil]
        rw [put_self h a nd hnd]
        exact ih h _ (by omega)

theorem walk_spec {V : Type} (data : List V) (as : List Nat) :
    ∀ (h : Heap V) (pos : Nat), buffersFit h as = true →
      walk data as h pos =
        if takenSum h as = 0 ∨ pos + takenSum h as ≤ data.length then
          .done (applied data as h pos) (pos + takenSum h as)
        else .overrun (applied data as h pos) (max pos data.length) := by
  induction as with
  | nil =>
    intro h pos _
    simp [walk, applied, takenSum]
  | cons a as ih =>
    intro h pos hf
    have hf' := (buffersFit_iff _ _).1 hf
    obtain ⟨nd, hnd, hl⟩ := hf' a (List.mem_cons_self _ _)
    have hfas : buffersFit h as = true :=
      (buffersFit_iff _ _).2 (fun b hb => hf' b (List.mem_cons_of_mem _ hb))
    simp only [walk, applied, hnd, takenSum_cons]
    by_cases hz : nd.numChildren = 0
    · have ht : taken h a = 0 := by simp [taken, hnd, hz]
      simp only [hz, if_true, ht, Nat.zero_add]
      exact ih h pos hfas
    · have ht : taken h a = nd.channels.toNat := by simp [taken, hnd, hz]
      simp only [hz, if_false, ht]
      rw [← hl, copyChannels_fit]
      have hsl : (slice data pos nd.channelData.length).length ≤ nd.channelData.length := by
        rw [slice_length]; omega
      have hsk := skel_put h a nd (overwrite nd.channelData (slice data pos nd.channelData.length)) hnd
      have hfa := buffersFit_put h as a nd
        (overwrite nd.channelData (slice data pos nd.channelData.length)) hnd
        (overwrite_length _ _ hsl) hfas
      by_cases hok : nd.channelData.length = 0 ∨ pos + nd.channelData.length ≤ data.length
      · simp only [hok, if_true]
        rw [ih _ _ hfa, takenSum_congr hsk]
        by_cases hg : nd.channelData.length + takenSum h as = 0 ∨
            pos + (nd.channelData.length + takenSum h as) ≤ data.length
        · have hi : takenSum h as = 0 ∨
              pos + nd.channelData.length + takenSum h as ≤ data.length := by omega
          rw [if_pos hi, if_pos hg, Nat.add_assoc]
        · have hi : ¬ (takenSum h as = 0 ∨
              pos + nd.channelData.length + takenSum h as ≤ data.length) := by omega
          rw [if_neg hi, if_neg hg]
          have hmax : max (pos + nd.channelData.length) data.length = max pos data.length := by
            rcases hok with h0 | h1
            · rw [h0]; rfl
            · rw [Nat.max_eq_right h1, Nat.max_eq_right (by omega)]
          rw [hmax]
      · simp only [hok, if_false]
        have hg : ¬ (nd.channelData.length + takenSum h as = 0 ∨
            pos + (nd.channelData.length + takenSum h as) ≤ data.length) := by omega
        simp only [hg, if_false]
        rw [applied_of_le data as _ _ (by omega)]

theorem applied_skeleton {V : Type} (data : List V) (as : List Nat) (h : Heap V) (pos : Nat) :
    (applied data as h pos).map skeleton = h.map skeleton := by
  induction as generalizing h pos with
  | nil => rfl
  | cons a as ih =>
    simp only [applied]
    cases hnd : h[a]? with
    | none => exact ih h pos
    | some nd =>
      simp only
      by_cases hz : nd.numChildren = 0
      · simp only [hz, if_true]; exact ih h pos
      · simp only [hz, if_false]
        rw [ih]
        exact skel_put h a nd _ hnd

theorem applied_frame {V : Type} (data : List V) (as : List Nat) (h : Heap V) (pos : Nat)
    (b : Nat) (hb : b ∉ as) : (applied data as h pos)[b]? = h[b]? := by
  induction as generalizing h pos with
  | nil => rfl
  | cons a as ih =>
    have hba : a ≠ b := fun e => hb (by simp [e])
    have hbas : b ∉ as := fun e => hb (List.mem_cons_of_mem _ e)
    simp only [applied]
    cases hnd : h[a]? with
    | none => exact ih h pos hbas
    | some nd =>
      simp only
      by_cases hz : nd.numChildren = 0
      · simp only [hz, if_true]; exact ih h pos hbas
      · simp only [hz, if_false]
        rw [ih _ _ hbas, put_getElem?, if_neg hba]

theorem applied_getElem? {V : Type} (data : List V) (as : List Nat) :
    ∀ (h : Heap V) (pos i a : Nat) (nd : Node V), as.Nodup → as[i]? = some a →
      h[a]? = some nd →
      (applied data as h pos)[a]? = some (fillNode data nd (pos + takenSum h (as.take i))) := by
  induction as with
  | nil => intro h pos i a nd _ hi; simp at hi
  | cons b as ih =>
    intro h pos i a nd hnd hi ha
    have hbn := (List.nodup_cons.1 hnd).1
    have hasn := (List.nodup_cons.1 hnd).2
    cases i with
    | zero =>
      simp only [List.getElem?_cons_zero, Option.some.injEq] at hi
      subst hi
      simp only [applied, ha, List.take_zero, takenSum, List.map_nil, List.sum_nil, Nat.add_zero]
      by_cases hz : nd.numChildren = 0
      · simp only [hz, if_true]
        rw [applied_frame data as h pos b hbn, ha]
        simp [fillNode, hz]
      · simp only [hz, if_false]
        rw [applied_frame data as _ _ b hbn, put_getElem?]
        simp [ha, fillNode, hz]
    | succ i =>
      simp only [List.getElem?_cons_succ] at hi
      have hab : b ≠ a := by
        intro e
        subst e
        exact hbn (List.getElem?_mem hi)
      simp only [applied, List.take_succ_cons, takenSum_cons]
      cases hb : h[b]? with
      | none =>
        simp only
        rw [ih h pos i a nd hasn hi ha]
        simp [taken, hb]
      | some ndb =>
        simp only
        by_cases hz : ndb.numChildren = 0
        · simp only [hz, if_true]
          rw [ih h pos i a nd hasn hi ha]
          simp [taken, hb, hz]
        · simp only [hz, if_false]
          have hsk := skel_put h b ndb
            (overwrite ndb.channelData (slice data pos ndb.channels.toNat)) hb
          rw [ih _ _ i a nd hasn hi (by rw [put_getElem?, if_neg hab]; exact ha)]
          rw [takenSum_congr hsk]
          simp [taken, hb, hz, Nat.add_assoc]

theorem applied_buffersFit {V : Type} (data : List V) (as as' : List Nat) :
    ∀ (h : Heap V) (pos : Nat), buffersFit h as = true → buffersFit h as' = true →
      buffersFit (applied data as h pos) as' = true := by
  induction as with
  | nil => intro h pos _ h2; exact h2
  | cons a as ih =>
    intro h pos h1 h2
    have hf' := (buffersFit_iff _ _).1 h1
    obtain ⟨nd, hnd, hl⟩ := hf' a (List.mem_cons_self _ _)
    have hfas : buffersFit h as = true :=
      (buffersFit_iff _ _).2 (fun b hb => hf' b (List.mem_cons_of_mem _ hb))
    simp only [applied, hnd]
    by_cases hz : nd.numChildren = 0
    · simp only [hz, if_true]; exact ih h pos hfas h2
    · simp only [hz, if_false]
      have hsl : (slice data pos nd.channels.toNat).length ≤ nd.channelData.length := by
        rw [slice_length]; omega
      exact ih _ _ (buffersFit_put h as a nd _ hnd (overwrite_length _ _ hsl) hfas)
        (buffersFit_put h as' a nd _ hnd (overwrite_length _ _ hsl) h2)

theorem fillNode_fillNode {V : Type} (data : List V) (nd : Node V) (pos : Nat) :
    fillNode data (fillNode data nd pos) pos = fillNode data nd pos := by
  by_cases hz : nd.numChildren = 0
  · simp [fillNode, hz]
  · simp [fillNode, hz, overwrite_overwrite]

theorem applied_idem {V : Type} (data : List V) (as : List Nat) (h : Heap V) (pos : Nat)
    (hn : as.Nodup) (hf : buffersFit h as = true) :
    applied data as (applied data as h pos) pos = applied data as h pos := by
  apply List.ext_getElem?
  intro b
  by_cases hb : b ∈ as
  · obtain ⟨i, hi⟩ := List.getElem?_of_mem hb
    obtain ⟨nd, hnd, _⟩ := (buffersFit_iff _ _).1 hf b hb
    have h1 := applied_getElem? data as h pos i b nd hn hi hnd
    rw [applied_getElem? data as _ pos i b _ hn hi h1, h1]
    rw [takenSum_congr (applied_skeleton data as h pos), fillNode_fillNode]
  · rw [applied_frame data as _ pos b hb]

theorem takenSum_take_le {V : Type} (h : Heap V) (as : List Nat) (i a : Nat)
    (hi : as[i]? = some a) :
    takenSum h (as.take i) + taken h a ≤ takenSum h as := by
  induction as generalizing i with
  | nil => simp at hi
  | cons b as ih =>
    cases i with
    | zero =>
      simp only [List.getElem?_cons_zero, Option.some.injEq] at hi
      subst hi
      simp [takenSum]
    | succ i =>
      simp only [List.getElem?_cons_succ] at hi
      have := ih i hi
      simp only [List.take_succ_cons, takenSum_cons]
      omega

theorem applyData_tree {V : Type} (data : List V) (h : Heap V) (root : Nat) (kids : Shape)
    (pos fuel : Nat) (ht : isTree h root kids)
    (hb : buffersFit h (root :: kids.addrs) = true) (hf : 2 * kids.size + 2 ≤ fuel) :
    applyData data fuel root h pos =
      if takenSum h (root :: kids.addrs) = 0 ∨
          pos + takenSum h (root :: kids.addrs) ≤ data.length then
        .done (applied data (root :: kids.addrs) h pos) (pos + takenSum h (root :: kids.addrs))
      else .overrun (applied data (root :: kids.addrs) h pos) (max pos data.length) := by
  rw [applyData_eq_walk data h root kids pos fuel ht.1 hf]
  exact walk_spec data _ h pos hb

/-! ## Applying a frame (C2, C6, C7) -/

/-- C2, as the code has it: on a tree whose buffers fit, with enough values from
the cursor on, `applyData` returns; it has walked the tree in pre-order and
given every node that has children the next `channels` values of the buffer,
moving the cursor on by that count, while a node without children (an End
Site or any other leaf, whatever its channel count) is skipped, nothing
copied and the cursor not moved. The cursor ends at the start plus the
channel counts of the nodes that have children. -/
theorem applyData_fills_nodes_with_children {V : Type} (data : List V) (h : Heap V)
    (root : Nat) (kids : Shape) (pos fuel : Nat) (ht : isTree h root kids)
    (hb : buffersFit h (root :: kids.addrs) = true)
    (hd : pos + takenSum h (root :: kids.addrs) ≤ data.length)
    (hf : 2 * kids.size + 2 ≤ fuel) :
    ∃ h', applyData data fuel root h pos
        = .done h' (pos + takenSum h (root :: kids.addrs)) ∧
      ∀ (i a : Nat) (nd : Node V), (root :: kids.addrs)[i]? = some a → h[a]? = some nd →
        h'[a]? = some (if nd.numChildren = 0 then nd
          else { nd with
            channelData := slice data (pos + takenSum h ((root :: kids.addrs).take i))
              nd.channels.toNat }) := by
  refine ⟨applied data (root :: kids.addrs) h pos, ?_, ?_⟩
  · rw [applyData_tree data h root kids pos fuel ht hb hf, if_pos (Or.inr hd)]
  · intro i a nd hi ha
    rw [applied_getElem? data _ h pos i a nd ht.2 hi ha]
    by_cases hz : nd.numChildren = 0
    · simp [fillNode, hz]
    · simp only [fillNode, hz, if_false]
      obtain ⟨nd', hnd', hl⟩ := (buffersFit_iff _ _).1 hb a (List.getElem?_mem hi)
      rw [ha] at hnd'
      cases hnd'
      have hle := takenSum_take_le h _ i a hi
      have hta : taken h a = nd.channels.toNat := by simp [taken, ha, hz]
      have hlen : (slice data (pos + takenSum h ((root :: kids.addrs).take i))
          nd.channels.toNat).length = nd.channelData.length := by
        rw [slice_length, hl]
        omega
      simp [overwrite, hlen]

/-- C2, witness and instance: for the tree `A(3) -> B(3) -> End Site(0)` and the
buffer `[1, 2, 3, 4, 5, 6]` from cursor 0, `A` gets `[1, 2, 3]`, `B` gets
`[4, 5, 6]` and the cursor ends at 6. -/
theorem applyData_fills_nodes_with_children_witness :
    (isTree chainHeap 0 chainKids ∧ buffersFit chainHeap (0 :: chainKids.addrs) = true ∧
      0 + takenSum chainHeap (0 :: chainKids.addrs) ≤ ([1, 2, 3, 4, 5, 6] : List Int).length ∧
      2 * chainKids.size + 2 ≤ 10) ∧
    (∃ h', applyData ([1, 2, 3, 4, 5, 6] : List Int) 10 0 chainHeap 0
        = .done h' (0 + takenSum chainHeap (0 :: chainKids.addrs)) ∧
      ∀ (i a : Nat) (nd : Node Int), (0 :: chainKids.addrs)[i]? = some a →
        chainHeap[a]? = some nd →
        h'[a]? = some (if nd.numChildren = 0 then nd
          else { nd with
            channelData := slice [1, 2, 3, 4, 5, 6]
              (0 + takenSum chainHeap ((0 :: chainKids.addrs).take i)) nd.channels.toNat })) ∧
    applyData ([1, 2, 3, 4, 5, 6] : List Int) 10 0 chainHeap 0 = .done chainHeapApplied 6 :=
  ⟨⟨⟨by decide, by decide⟩, by decide, by decide, by decide⟩,
   applyData_fills_nodes_with_children [1, 2, 3, 4, 5, 6] chainHeap 0 chainKids 0 10
     ⟨by decide, by decide⟩ (by decide) (by decide) (by decide),
   by decide⟩

/-- C2, counterexample: the tree of one node `R` with 3 channels and no children,
the buffer `[1, 2, 3]` and cursor 0. The claim gives `R` the values
`[1, 2, 3]` and ends the cursor at 3; `applyData` returns at once, the node
unchanged and the cursor at 0. -/
theorem applyData_skips_leaf_with_channels :
    isTree leafHeap 0 .nil ∧ buffersFit leafHeap [0] = true ∧ channelsOf leafHeap 0 = 3 ∧
    applyData ([1, 2, 3] : List Int) 10 0 leafHeap 0 = .done leafHeap 0 :=
  ⟨⟨by decide, by decide⟩, by decide, by decide, by decide⟩

/-- C6: on a tree whose buffers fit, when `applyData` started at cursor `pos` has
returned with the heap `h1`, a second run from the same cursor `pos` returns
with the same heap `h1` (so every `channelData` is as after the first run)
and the same final cursor. -/
theorem applyData_idempotent {V : Type} (data : List V) (h h1 : Heap V) (root : Nat)
    (kids : Shape) (pos p1 fuel : Nat) (ht : isTree h root kids)
    (hb : buffersFit h (root :: kids.addrs) = true) (hf : 2 * kids.size + 2 ≤ fuel)
    (hrun : applyData data fuel root h pos = .done h1 p1) :
    applyData data fuel root h1 pos = .done h1 p1 := by
  rw [applyData_tree data h root kids pos fuel ht hb hf] at hrun
  by_cases hc : takenSum h (root :: kids.addrs) = 0 ∨
      pos + takenSum h (root :: kids.addrs) ≤ data.length
  · rw [if_pos hc] at hrun
    simp only [Applied.done.injEq] at hrun
    obtain ⟨rfl, rfl⟩ := hrun
    have hsk := applied_skeleton data (root :: kids.addrs) h pos
    have ht1 : isTree (applied data (root :: kids.addrs) h pos) root kids :=
      ⟨reprs_congr hsk _ _ _ ht.1, ht.2⟩
    have hb1 := applied_buffersFit data (root :: kids.addrs) (root :: kids.addrs) h pos hb hb
    rw [applyData_tree data _ root kids pos fuel ht1 hb1 hf, takenSum_congr hsk, if_pos hc,
      applied_idem data _ h pos ht.2 hb]
  · rw [if_neg hc] at hrun
    cases hrun

/-- C6, witness: frame `[1, 2, 3, 4, 5, 6]` applied to `chainHeap` gives
`chainHeapApplied`, and applied again from cursor 0 gives `chainHeapApplied` again. -/
theorem applyData_idempotent_witness :
    (isTree chainHeap 0 chainKids ∧ buffersFit chainHeap (0 :: chainKids.addrs) = true ∧
      2 * chainKids.size + 2 ≤ 10 ∧
      applyData ([1, 2, 3, 4, 5, 6] : List Int) 10 0 chainHeap 0 = .done chainHeapApplied 6) ∧
    applyData ([1, 2, 3, 4, 5, 6] : List Int) 10 0 chainHeapApplied 0
      = .done chainHeapApplied 6 :=
  ⟨⟨⟨by decide, by decide⟩, by decide, by decide, by decide⟩,
   applyData_idempotent [1, 2, 3, 4, 5, 6] chainHeap chainHeapApplied 0 chainKids 0 6 10
     ⟨by decide, by decide⟩ (by decide) (by decide) (by decide)⟩

/-- C7, as the code has it: `applyData` makes no range check. On a tree whose
buffers fit and that has values to copy, when the buffer ends before the
cursor plus the number of values the walk copies, the walk does not return:
it stops at the read of `data[dataPos]` at the first cursor at or past the
end of the buffer. By then every node with children met so far has had the
first entries of its `channelData` overwritten by the part of its slice the
buffer holds (`fillNode`); only when the start cursor itself is at or past
the end of the buffer is no node changed. -/
theorem applyData_overruns_without_check {V : Type} (data : List V) (h : Heap V)
    (root : Nat) (kids : Shape) (pos fuel : Nat) (ht : isTree h root kids)
    (hb : buffersFit h (root :: kids.addrs) = true) (hf : 2 * kids.size + 2 ≤ fuel)
    (hT : 0 < takenSum h (root :: kids.addrs))
    (hd : data.length < pos + takenSum h (root :: kids.addrs)) :
    ∃ h', applyData data fuel root h pos = .overrun h' (max pos data.length) ∧
      (∀ (i a : Nat) (nd : Node V), (root :: kids.addrs)[i]? = some a → h[a]? = some nd →
        h'[a]? = some (fillNode data nd (pos + takenSum h ((root :: kids.addrs).take i)))) ∧
      (data.length ≤ pos → h' = h) := by
  refine ⟨applied data (root :: kids.addrs) h pos, ?_, ?_, ?_⟩
  · rw [applyData_tree data h root kids pos fuel ht hb hf, if_neg (by omega)]
  · intro i a nd hi ha
    exact applied_getElem? data _ h pos i a nd ht.2 hi ha
  · intro hp
    exact applied_of_le data _ h pos hp

/-- C7, witness: the buffer `[1, 2, 3, 4]` is too short for `chainHeap`, which
takes 6 values. -/
theorem applyData_overruns_without_check_witness :
    (isTree chainHeap 0 chainKids ∧ buffersFit chainHeap (0 :: chainKids.addrs) = true ∧
      2 * chainKids.size + 2 ≤ 10 ∧ 0 < takenSum chainHeap (0 :: chainKids.addrs) ∧
      ([1, 2, 3, 4] : List Int).length < 0 + takenSum chainHeap (0 :: chainKids.addrs)) ∧
    ∃ h', applyData ([1, 2, 3, 4] : List Int) 10 0 chainHeap 0
        = .overrun h' (max 0 ([1, 2, 3, 4] : List Int).length) ∧
      (∀ (i a : Nat) (nd : Node Int), (0 :: chainKids.addrs)[i]? = some a →
        chainHeap[a]? = some nd →
        h'[a]? = some (fillNode [1, 2, 3, 4] nd
          (0 + takenSum chainHeap ((0 :: chainKids.addrs).take i)))) ∧
      (([1, 2, 3, 4] : List Int).length ≤ 0 → h' = chainHeap) :=
  ⟨⟨⟨by decide, by decide⟩, by decide, by decide, by decide, by decide⟩,
   applyData_overruns_without_check [1, 2, 3, 4] chainHeap 0 chainKids 0 10
     ⟨by decide, by decide⟩ (by decide) (by decide) (by decide) (by decide)⟩

/-- C7, counterexample: for `chainHeap` (6 values a frame) and the buffer
`[1, 2, 3, 4]` from cursor 0 the range does not fit; `applyData` stops at the read
of `data[4]` with `A` overwritten by `[1, 2, 3]` and the first entry of `B` by
`4`: the nodes are not left unchanged. -/
theorem applyData_writes_before_overrun :
    isTree chainHeap 0 chainKids ∧
    ([1, 2, 3, 4] : List Int).length < 0 + (channelsOf chainHeap 0 + channelsOf chainHeap 1
      + channelsOf chainHeap 2) ∧
    applyData ([1, 2, 3, 4] : List Int) 10 0 chainHeap 0 = .overrun chainHeapPartly 4 ∧
    chainHeapPartly ≠ chainHeap :=
  ⟨⟨by decide, by decide⟩, by decide, by decide, by decide⟩

theorem snoc_addrs (k : Shape) (n : Nat) : (k.snoc n).addrs = k.addrs ++ [n] := by
  induction k with
  | nil => simp [Shape.snoc, Shape.addrs]
  | node a k s _ ihs => simp [Shape.snoc, Shape.addrs, ihs]

theorem snoc_roots (k : Shape) (n : Nat) : (k.snoc n).roots = k.roots ++ [n] := by
  induction k with
  | nil => simp [Shape.snoc, Shape.roots]
  | node a k s _ ihs => simp [Shape.snoc, Shape.roots, ihs]

theorem snoc_size (k : Shape) (n : Nat) : (k.snoc n).size = k.size + 1 := by
  induction k with
  | nil => simp [Shape.snoc, Shape.size]
  | node a k s _ ihs => simp [Shape.snoc, Shape.size, ihs]; omega

theorem spine_subset_addrs (t : Shape) : ∀ x ∈ t.spine, x ∈ t.addrs := by
  induction t with
  | nil => simp [Shape.spine]
  | node a k s ihk ihs =>
    cases s with
    | nil =>
      intro x hx
      simp only [Shape.spine, List.mem_cons] at hx
      simp only [Shape.addrs, List.mem_cons, List.mem_append]
      rcases hx with rfl | hx
      · exact Or.inl rfl
      · exact Or.inr (Or.inl (ihk x hx))
    | node b kb sb =>
      intro x hx
      simp only [Shape.spine] at hx
      simp only [Shape.addrs, List.mem_cons, List.mem_append]
      have := ihs x hx
      simp only [Shape.addrs, List.mem_cons, List.mem_append] at this
      exact Or.inr (Or.inr this)

theorem addLeaf_addrs (p n : Nat) (t : Shape) (hp : p ∈ t.spine) :
    (t.addLeaf p n).addrs = t.addrs ++ [n] := by
  induction t with
  | nil => simp [Shape.spine] at hp
  | node a k s ihk ihs =>
    cases s with
    | nil =>
      simp only [Shape.addLeaf]
      by_cases hap : a = p
      · simp [hap, Shape.addrs, snoc_addrs]
      · simp only [hap, if_false, Shape.addrs, List.append_nil, List.cons_append]
        simp only [Shape.spine, List.mem_cons] at hp
        rcases hp with rfl | hp
        · exact absurd rfl hap
        · rw [ihk hp]
    | node b kb sb =>
      simp only [Shape.spine] at hp
      simp only [Shape.addLeaf, Shape.addrs] at ihs ⊢
      rw [ihs hp]
      simp

theorem addLeaf_spine (p n : Nat) (t : Shape) (hp : p ∈ t.spine) :
    p ∈ (t.addLeaf p n).spine ∧ n ∈ (t.addLeaf p n).spine := by
  induction t with
  | nil => simp [Shape.spine] at hp
  | node a k s ihk ihs =>
    cases s with
    | nil =>
      simp only [Shape.addLeaf]
      by_cases hap : a = p
      · simp only [hap, if_true, Shape.spine, List.mem_cons, true_or, true_and]
        right
        clear ihk ihs hp hap
        induction k with
        | nil => simp [Shape.snoc, Shape.spine]
        | node b kb sb _ ihsb =>
          cases sb with
          | nil => simp [Shape.snoc, Shape.spine]
          | node c kc sc =>
            simp only [Shape.snoc, Shape.spine] at ihsb ⊢
            exact ihsb
      · simp only [hap, if_false, Shape.spine, List.mem_cons]
        simp only [Shape.spine, List.mem_cons] at hp
        rcases hp with rfl | hp
        · exact absurd rfl hap
        · exact ⟨Or.inr (ihk hp).1, Or.inr (ihk hp).2⟩
    | node b kb sb =>
      simp only [Shape.spine] at hp
      have := ihs hp
      cases hsb : sb with
      | nil =>
        subst hsb
        simp only [Shape.addLeaf] at this ⊢
        by_cases hbp : b = p
        · simp only [hbp, if_true, Shape.spine] at this ⊢
          exact this
        · simp only [hbp, if_false, Shape.spine] at this ⊢
          exact this
      | node c kc sc =>
        subst hsb
        simp only [Shape.addLeaf, Shape.spine] at this ⊢
        exact this

theorem roots_subset_addrs (t : Shape) : ∀ x ∈ t.roots, x ∈ t.addrs := by
  induction t with
  | nil => simp [Shape.roots]
  | node a k s _ ihs =>
    intro x hx
    simp only [Shape.roots, List.mem_cons] at hx
    simp only [Shape.addrs, List.mem_cons, List.mem_append]
    rcases hx with rfl | hx
    · exact Or.inl rfl
    · exact Or.inr (Or.inr (ihs x hx))

theorem reprs_allocated {V : Type} (h : Heap V) (t : Shape) (par ptr : Option Nat)
    (hr : reprs h par ptr t = true) : ∀ x ∈ t.addrs, ∃ nd, h[x]? = some nd := by
  induction t generalizing par ptr with
  | nil => simp [Shape.addrs]
  | node a k s ihk ihs =>
    obtain ⟨nd, hnd, _, _, _, hk, hs⟩ := (reprs_node _ _ _ _ _ _).1 hr
    intro x hx
    simp only [Shape.addrs, List.mem_cons, List.mem_append] at hx
    rcases hx with rfl | hx | hx
    · exact ⟨nd, hnd⟩
    · exact ihk _ _ hk x hx
    · exact ihs _ _ hs x hx

theorem reprs_siblings {V : Type} (h : Heap V) (t : Shape) (par ptr : Option Nat)
    (hr : reprs h par ptr t = true) : siblings h ptr t.roots = true := by
  induction t generalizing ptr with
  | nil => simpa [reprs, siblings, Shape.roots] using hr
  | node a k s _ ihs =>
    obtain ⟨nd, hnd, hp, _, _, _, hs⟩ := (reprs_node _ _ _ _ _ _).1 hr
    simp only [Shape.roots]
    exact (siblings_cons _ _ _ _).2 ⟨hp, nd, hnd, ihs _ hs⟩

theorem reprs_agree {V : Type} (h h' : Heap V) (t : Shape) (par ptr : Option Nat)
    (hag : ∀ x ∈ t.addrs, ∀ nd, h[x]? = some nd →
      ∃ nd', h'[x]? = some nd' ∧ nd'.parent = nd.parent ∧ nd'.numChildren = nd.numChildren ∧
        nd'.children = nd.children ∧ nd'.next = nd.next)
    (hr : reprs h par ptr t = true) : reprs h' par ptr t = true := by
  induction t generalizing par ptr with
  | nil => simpa [reprs] using hr
  | node a k s ihk ihs =>
    obtain ⟨nd, hnd, hp, hpar, hnum, hk, hs⟩ := (reprs_node _ _ _ _ _ _).1 hr
    obtain ⟨nd', hnd', h1, h2, h3, h4⟩ := hag a (by simp [Shape.addrs]) nd hnd
    refine (reprs_node _ _ _ _ _ _).2 ⟨nd', hnd', hp, by rw [h1, hpar], by rw [h2, hnum], ?_, ?_⟩
    · rw [h3]
      exact ihk _ _ (fun x hx => hag x (by simp [Shape.addrs, hx])) hk
    · rw [h4]
      exact ihs _ _ (fun x hx => hag x (by simp [Shape.addrs, hx])) hs

theorem kids_subset_addrs {V : Type} (h : Heap V) (t : Shape) (par ptr : Option Nat)
    (hr : reprs h par ptr t = true) (p : Nat) (pn : Node V) (L : List Nat)
    (hp : p ∈ t.addrs) (hpn : h[p]? = some pn) (hL : siblings h pn.children L = true) :
    ∀ x ∈ L, x ∈ t.addrs := by
  induction t generalizing par ptr with
  | nil => simp [Shape.addrs] at hp
  | node a k s ihk ihs =>
    obtain ⟨nd, hnd, _, _, _, hk, hs⟩ := (reprs_node _ _ _ _ _ _).1 hr
    intro x hx
    simp only [Shape.addrs, List.mem_cons, List.mem_append] at hp ⊢
    rcases hp with rfl | hp | hp
    · rw [hnd] at hpn
      cases hpn
      have := siblings_functional h _ _ _ hL (reprs_siblings h k _ _ hk)
      subst this
      exact Or.inr (Or.inl (roots_subset_addrs k x hx))
    · exact Or.inr (Or.inl (ihk _ _ hk hp x hx))
    · exact Or.inr (Or.inr (ihs _ _ hs hp x hx))

theorem relink_other {V : Type} (p n : Nat) (L : List Nat) (x : Nat) (nd : Node V)
    (hxp : x ≠ p) (hxl : L.getLast? ≠ some x) : relink p n L x nd = nd := by
  simp [relink, hxp, hxl]

theorem relink_frame {V : Type} (h h' : Heap V) (p n : Nat) (L : List Nat) (t : Shape)
    (par ptr : Option Nat)
    (hrel : ∀ x ∈ t.addrs, ∀ nd, h[x]? = some nd → h'[x]? = some (relink p n L x nd))
    (hp : p ∉ t.addrs) (hL : ∀ x ∈ t.addrs, L.getLast? ≠ some x)
    (hr : reprs h par ptr t = true) : reprs h' par ptr t = true := by
  refine reprs_agree h h' t par ptr ?_ hr
  intro x hx nd hnd
  have hxp : x ≠ p := fun e => hp (e ▸ hx)
  refine ⟨nd, ?_, rfl, rfl, rfl, rfl⟩
  rw [hrel x hx nd hnd, relink_other p n L x nd hxp (hL x hx)]

theorem addLeaf_roots (p n : Nat) (t : Shape) : (t.addLeaf p n).roots = t.roots := by
  induction t with
  | nil => rfl
  | node a k s _ ihs =>
    cases s with
    | nil =>
      simp only [Shape.addLeaf]
      by_cases hap : a = p
      · simp [hap, Shape.roots]
      · simp [hap, Shape.roots]
    | node b kb sb =>
      simp only [Shape.addLeaf, Shape.roots] at ihs ⊢
      rw [ihs]

theorem reprs_fresh {V : Type} (h' : Heap V) (p n : Nat) (fn : Node V)
    (hfn : h'[n]? = some fn) (hfp : fn.parent = some p) (hfc : fn.numChildren = 0)
    (hfk : fn.children = none) (hfx : fn.next = none) :
    reprs h' (some p) (some n) (.node n .nil .nil) = true := by
  refine (reprs_node _ _ _ _ _ _).2 ⟨fn, hfn, rfl, hfp, by simp [hfc, Shape.roots], ?_, ?_⟩
  · rw [hfk]; simp [reprs]
  · rw [hfx]; simp [reprs]

theorem reprs_snoc {V : Type} (h h' : Heap V) (p n : Nat) (L : List Nat) (fn : Node V)
    (hfn : h'[n]? = some fn) (hfp : fn.parent = some p) (hfc : fn.numChildren = 0)
    (hfk : fn.children = none) (hfx : fn.next = none) :
    ∀ (k : Shape) (ptr : Option Nat), reprs h (some p) ptr k = true → k.addrs.Nodup →
      p ∉ k.addrs →
      (∀ x ∈ k.addrs, ∀ nd, h[x]? = some nd → h'[x]? = some (relink p n L x nd)) →
      (k ≠ .nil → L.getLast? = k.roots.getLast?) →
      reprs h' (some p) (if k = .nil then some n else ptr) (k.snoc n) = true := by
  intro k
  induction k with
  | nil =>
    intro ptr _ _ _ _ _
    simp only [if_true, Shape.snoc]
    exact reprs_fresh h' p n fn hfn hfp hfc hfk hfx
  | node b kb sb _ ihsb =>
    intro ptr hr hnd hp hrel hL
    obtain ⟨nd, hb, hptr, hpar, hnum, hkb, hsb⟩ := (reprs_node _ _ _ _ _ _).1 hr
    simp only [Shape.addrs, List.nodup_cons, List.mem_append, not_or, List.nodup_append] at hnd
    obtain ⟨⟨hbkb, hbsb⟩, hkbn, hsbn, hdisj⟩ := hnd
    simp only [Shape.addrs, List.mem_cons, List.mem_append, not_or] at hp
    obtain ⟨hpb, hpkb, hpsb⟩ := hp
    have hbp : b ≠ p := fun e => hpb e.symm
    have hL' := hL (by simp)
    have hb' := hrel b (by simp [Shape.addrs]) nd hb
    simp only [Shape.snoc, reduceCtorEq, if_false]
    have hkb' : reprs h' (some b) nd.children kb = true := by
      refine relink_frame h h' p n L kb _ _
        (fun x hx => hrel x (by simp [Shape.addrs, hx])) hpkb ?_ hkb
      intro x hx e
      rw [hL'] at e
      have hmem := List.mem_of_getLast?_eq_some e
      simp only [Shape.roots, List.mem_cons] at hmem
      rcases hmem with rfl | hmem
      · exact hbkb hx
      · exact hdisj hx (roots_subset_addrs sb x hmem)
    cases hsbc : sb with
    | nil =>
      subst hsbc
      have hlast : L.getLast? = some b := by simpa [Shape.roots] using hL'
      refine (reprs_node _ _ _ _ _ _).2 ⟨relink p n L b nd, hb', hptr, by simpa [relink] using hpar,
        by simpa [relink, hbp] using hnum, by simpa [relink, hbp] using hkb', ?_⟩
      simp only [relink, hlast, if_true, Shape.snoc]
      exact reprs_fresh h' p n fn hfn hfp hfc hfk hfx
    | node c kc sc =>
      subst hsbc
      have hlast : L.getLast? ≠ some b := by
        intro e
        rw [hL'] at e
        simp only [Shape.roots, List.getLast?_cons_cons] at e
        have hmem := List.mem_of_getLast?_eq_some e
        exact hbsb (roots_subset_addrs (.node c kc sc) b (by simpa [Shape.roots] using hmem))
      have ih := ihsb nd.next hsb hsbn hpsb
        (fun x hx => hrel x (List.mem_cons_of_mem _ (List.mem_append_right _ hx)))
        (fun _ => by rw [hL']; simp [Shape.roots, List.getLast?_cons_cons])
      simp only [reduceCtorEq, if_false] at ih
      refine (reprs_node _ _ _ _ _ _).2 ⟨relink p n L b nd, hb', hptr, by simpa [relink] using hpar,
        by simpa [relink, hbp] using hnum, by simpa [relink, hbp] using hkb', ?_⟩
      simpa [relink, hlast] using ih

theorem roots_eq_nil_iff (k : Shape) : k.roots = [] ↔ k = .nil := by
  cases k with
  | nil => simp [Shape.roots]
  | node a k s => simp [Shape.roots]

theorem reprs_addLeaf {V : Type} (h h' : Heap V) (p n : Nat) (L : List Nat) (pn fn : Node V)
    (hpn : h[p]? = some pn) (hL : siblings h pn.children L = true)
    (hfn : h'[n]? = some fn) (hfp : fn.parent = some p) (hfc : fn.numChildren = 0)
    (hfk : fn.children = none) (hfx : fn.next = none) :
    ∀ (t : Shape) (par ptr : Option Nat), reprs h par ptr t = true → t.addrs.Nodup →
      p ∈ t.spine →
      (∀ x ∈ t.addrs, ∀ nd, h[x]? = some nd → h'[x]? = some (relink p n L x nd)) →
      reprs h' par ptr (t.addLeaf p n) = true := by
  intro t
  induction t with
  | nil => intro par ptr _ _ hp; simp [Shape.spine] at hp
  | node a k s ihk ihs =>
    intro par ptr hr hnd hp hrel
    obtain ⟨nd, ha, hptr, hpar, hnum, hk, hs⟩ := (reprs_node _ _ _ _ _ _).1 hr
    simp only [Shape.addrs, List.nodup_cons, List.mem_append, not_or, List.nodup_append] at hnd
    obtain ⟨⟨hak, has⟩, hkn, hsn, hdisj⟩ := hnd
    have ha' := hrel a (by simp [Shape.addrs]) nd ha
    cases hsc : s with
    | nil =>
      subst hsc
      have hnext : nd.next = none := by simpa [reprs] using hs
      simp only [Shape.addLeaf]
      by_cases hap : a = p
      · subst hap
        rw [ha] at hpn
        have e : nd = pn := Option.some.inj hpn
        subst e
        have hLk : L = k.roots := siblings_functional h _ _ _ hL (reprs_siblings h k _ _ hk)
        subst hLk
        have hpl : k.roots.getLast? ≠ some a := fun e =>
          hak (roots_subset_addrs k a (List.mem_of_getLast?_eq_some e))
        have hsn := reprs_snoc h h' a n k.roots fn hfn hfp hfc hfk hfx k nd.children hk hkn hak
          (fun x hx => hrel x (by simp [Shape.addrs, hx])) (fun _ => rfl)
        simp only [if_true]
        refine (reprs_node _ _ _ _ _ _).2 ⟨relink a n k.roots a nd, ha', hptr,
          by simpa [relink] using hpar, ?_, ?_, ?_⟩
        · simp only [relink, if_true, snoc_roots, hnum]
          simp
        · have e : (relink a n k.roots a nd).children
              = if k = .nil then some n else nd.children := by
            simp [relink, roots_eq_nil_iff]
          rw [e]
          exact hsn
        · simp [relink, hpl, hnext, reprs]
      · simp only [hap, if_false]
        simp only [Shape.spine, List.mem_cons] at hp
        have hpk : p ∈ k.spine := by
          rcases hp with rfl | hp
          · exact absurd rfl hap
          · exact hp
        have hLsub := kids_subset_addrs h k _ _ hk p pn L (spine_subset_addrs k p hpk) hpn hL
        have hal : L.getLast? ≠ some a := fun e =>
          hak (hLsub a (List.mem_of_getLast?_eq_some e))
        rw [relink_other p n L a nd hap hal] at ha'
        refine (reprs_node _ _ _ _ _ _).2 ⟨nd, ha', hptr, hpar, ?_, ?_, ?_⟩
        · rw [addLeaf_roots]; exact hnum
        · exact ihk _ _ hk hkn hpk (fun x hx => hrel x (by simp [Shape.addrs, hx]))
        · rw [hnext]; simp [reprs]
    | node b kb sb =>
      subst hsc
      simp only [Shape.spine] at hp
      have hps := spine_subset_addrs _ p hp
      have hap : a ≠ p := fun e => has (e ▸ hps)
      have hLsub := kids_subset_addrs h _ _ _ hs p pn L hps hpn hL
      have hal : L.getLast? ≠ some a := fun e =>
        has (hLsub a (List.mem_of_getLast?_eq_some e))
      rw [relink_other p n L a nd hap hal] at ha'
      simp only [Shape.addLeaf]
      refine (reprs_node _ _ _ _ _ _).2 ⟨nd, ha', hptr, hpar, hnum, ?_, ?_⟩
      · refine relink_frame h h' p n L k _ _
          (fun x hx => hrel x (by simp [Shape.addrs, hx])) (fun e => hdisj e hps) ?_ hk
        intro x hx e
        exact hdisj hx (hLsub x (List.mem_of_getLast?_eq_some e))
      · exact ihs _ _ hs hsn hp
          (fun x hx => hrel x (List.mem_cons_of_mem _ (List.mem_append_right _ hx)))

theorem parentsKept_refl {V : Type} (h : Heap V) : parentsKept h h :=
  fun _ nd ha => ⟨nd, ha, rfl⟩

theorem parentsKept_trans {V : Type} {h1 h2 h3 : Heap V} (h12 : parentsKept h1 h2)
    (h23 : parentsKept h2 h3) : parentsKept h1 h3 := by
  intro a nd ha
  obtain ⟨nd2, ha2, hp2⟩ := h12 a nd ha
  obtain ⟨nd3, ha3, hp3⟩ := h23 a nd2 ha2
  exact ⟨nd3, ha3, hp3.trans hp2⟩

theorem spine_parent {V : Type} (h : Heap V) (t : Shape) (par ptr : Option Nat)
    (hr : reprs h par ptr t = true) (c : Nat) (nd : Node V) (hc : c ∈ t.spine)
    (hnd : h[c]? = some nd) :
    nd.parent = par ∨ ∃ q, nd.parent = some q ∧ q ∈ t.spine := by
  induction t generalizing par ptr with
  | nil => simp [Shape.spine] at hc
  | node a k s ihk ihs =>
    obtain ⟨nda, ha, _, hpar, _, hk, hs⟩ := (reprs_node _ _ _ _ _ _).1 hr
    cases hsc : s with
    | nil =>
      subst hsc
      simp only [Shape.spine, List.mem_cons] at hc ⊢
      rcases hc with rfl | hc
      · rw [ha] at hnd
        cases hnd
        exact Or.inl hpar
      · right
        rcases ihk _ _ hk hc with h1 | ⟨q, hq, hqs⟩
        · exact ⟨a, h1, Or.inl rfl⟩
        · exact ⟨q, hq, Or.inr hqs⟩
    | node b kb sb =>
      subst hsc
      simp only [Shape.spine] at hc ⊢
      exact ihs _ _ hs hc

theorem reprs_kids_list {V : Type} (h : Heap V) (t : Shape) (par ptr : Option Nat)
    (hr : reprs h par ptr t = true) (p : Nat) (hp : p ∈ t.addrs) :
    ∃ pn L, h[p]? = some pn ∧ siblings h pn.children L = true := by
  induction t generalizing par ptr with
  | nil => simp [Shape.addrs] at hp
  | node a k s ihk ihs =>
    obtain ⟨nd, hnd, _, _, _, hk, hs⟩ := (reprs_node _ _ _ _ _ _).1 hr
    simp only [Shape.addrs, List.mem_cons, List.mem_append] at hp
    rcases hp with rfl | hp | hp
    · exact ⟨nd, k.roots, hnd, reprs_siblings h k _ _ hk⟩
    · exact ihk _ _ hk hp
    · exact ihs _ _ hs hp

theorem parsed_put {V : Type} (h : Heap V) (kids : Shape) (p : Nat) (pn nd' : Node V)
    (hp : h[p]? = some pn) (h1 : nd'.parent = pn.parent)
    (h2 : nd'.numChildren = pn.numChildren) (h3 : nd'.children = pn.children)
    (h4 : nd'.next = pn.next) (hpar : parsed h kids) :
    parsed (h.put p nd') kids ∧ parentsKept h (h.put p nd') := by
  have hag : ∀ (x : Nat) (nd : Node V), h[x]? = some nd →
      ∃ nd2, (h.put p nd')[x]? = some nd2 ∧ nd2.parent = nd.parent ∧
        nd2.numChildren = nd.numChildren ∧ nd2.children = nd.children ∧ nd2.next = nd.next := by
    intro x nd hx
    rw [put_getElem?]
    by_cases hpx : p = x
    · subst hpx
      rw [hp] at hx
      cases hx
      exact ⟨nd', by simp [hp], h1, h2, h3, h4⟩
    · exact ⟨nd, by simp [hpx, hx], rfl, rfl, rfl, rfl⟩
  refine ⟨⟨reprs_agree h _ _ _ _ (fun x _ nd hx => hag x nd hx) hpar.1, ?_⟩, ?_⟩
  · rw [put_length]; exact hpar.2
  · intro a nd ha
    obtain ⟨nd2, e1, e2, _⟩ := hag a nd ha
    exact ⟨nd2, e1, e2⟩

theorem createNode_tree {V : Type} [Zero V] (name : List Char) (nc : Int) (ofx ofy ofz : V)
    (h h1 : Heap V) (kids : Shape) (p c : Nat) (hpar : parsed h kids)
    (hp : p ∈ (Shape.node 0 kids .nil).spine)
    (hc : createNode name (some p) nc ofx ofy ofz h = .ret (c, h1)) :
    c = h.length ∧ h1[c]? = some (freshNode name (some p) nc ofx ofy ofz) ∧
    parentsKept h h1 ∧
    ∃ kids1, parsed h1 kids1 ∧ p ∈ (Shape.node 0 kids1 .nil).spine ∧
      c ∈ (Shape.node 0 kids1 .nil).spine := by
  have hnodup : (Shape.node 0 kids .nil).addrs.Nodup := by
    have : (Shape.node 0 kids .nil).addrs = List.range h.length := by
      simpa [Shape.addrs] using hpar.2
    rw [this]
    exact List.nodup_range _
  have hpa := spine_subset_addrs _ p hp
  obtain ⟨pn, L, hpn, hL⟩ := reprs_kids_list h _ _ _ hpar.1 p hpa
  by_cases hname : name.length < MAX_NAME_LENGTH
  · obtain ⟨h', hc', hlen, hnew, hrel⟩ := createNode_spec name nc ofx ofy ofz h p pn L hname hpn hL
    rw [hc'] at hc
    simp only [Run.ret.injEq, Prod.mk.injEq] at hc
    obtain ⟨rfl, rfl⟩ := hc
    have hr := reprs_addLeaf h h' p h.length L pn _ hpn hL hnew rfl rfl rfl rfl _ _ _
      hpar.1 hnodup hp (fun x _ nd hx => hrel x nd hx)
    have haddrs := addLeaf_addrs p h.length _ hp
    have hsp := addLeaf_spine p h.length _ hp
    refine ⟨rfl, hnew, ?_, ?_⟩
    · intro a nd ha
      exact ⟨_, hrel a nd ha, by simp [relink]⟩
    · by_cases h0 : 0 = p
      · simp only [Shape.addLeaf, h0, if_true] at hr haddrs hsp
        refine ⟨kids.snoc h.length, ⟨?_, ?_⟩, ?_, ?_⟩
        · rw [← h0] at hr; exact hr
        · have e := hpar.2
          simp only [Shape.addrs, List.append_nil] at haddrs
          rw [hlen, List.range_succ, ← e]
          rw [← h0] at haddrs
          simpa [Shape.addrs] using haddrs
        · rw [← h0] at hsp ⊢; exact hsp.1
        · rw [← h0] at hsp; exact hsp.2
      · simp only [Shape.addLeaf, h0, if_false] at hr haddrs hsp
        refine ⟨kids.addLeaf p h.length, ⟨hr, ?_⟩, hsp.1, hsp.2⟩
        have e := hpar.2
        simp only [Shape.addrs, List.append_nil] at haddrs
        rw [hlen, List.range_succ, ← e]
        simpa [Shape.addrs] using haddrs
  · simp [createNode, Nat.le_of_not_lt hname] at hc

theorem parseBodyLoop_inv {V : Type} [Zero V] (scanF : List Char → Option (V × List Char)) :
    ∀ (fuel p : Nat) (lvl : Int) (h : Heap V) (file : List Char) (r : Option Nat)
      (h' : Heap V) (file' : List Char) (kids : Shape),
      parsed h kids → p ∈ (Shape.node 0 kids .nil).spine →
      parseBodyLoop scanF fuel p lvl h file = .ret (r, h', file') →
      ∃ kids', parsed h' kids' ∧ p ∈ (Shape.node 0 kids' .nil).spine ∧ parentsKept h h' := by
  intro fuel
  induction fuel with
  | zero =>
    intro p lvl h file r h' file' kids _ _ hrun
    simp [parseBodyLoop] at hrun
  | succ fuel ih =>
    intro p lvl h file r h' file' kids hpar hp hrun
    unfold parseBodyLoop at hrun
    split at hrun
    · simp only [Run.ret.injEq, Prod.mk.injEq] at hrun
      obtain ⟨_, rfl, _⟩ := hrun
      exact ⟨kids, hpar, hp, parentsKept_refl _⟩
    · lift_lets at hrun
      extract_lets line level1 level2 at hrun
      clear_value level2
      split at hrun
      · exact ih _ _ _ _ _ _ _ _ hpar hp hrun
      · split at hrun
        · simp only [Run.ret.injEq, Prod.mk.injEq] at hrun
          obtain ⟨_, rfl, _⟩ := hrun
          exact ⟨kids, hpar, hp, parentsKept_refl _⟩
        · split at hrun
          · exact ih _ _ _ _ _ _ _ _ hpar hp hrun
          · split at hrun
            · -- OFFSET
              split at hrun
              · simp only [Run.ret.injEq, Prod.mk.injEq] at hrun
                obtain ⟨_, rfl, _⟩ := hrun
                exact ⟨kids, hpar, hp, parentsKept_refl _⟩
              · rename_i off hoff
                split at hrun
                · cases hrun
                · rename_i pn hpn
                  obtain ⟨hpar1, hk1⟩ := parsed_put h kids p pn { pn with offset := off } hpn
                    rfl rfl rfl rfl hpar
                  obtain ⟨kids', h1, h2, h3⟩ := ih _ _ _ _ _ _ _ _ hpar1 hp hrun
                  exact ⟨kids', h1, h2, parentsKept_trans hk1 h3⟩
            · split at hrun
              · -- CHANNELS
                split at hrun
                · simp only [Run.ret.injEq, Prod.mk.injEq] at hrun
                  obtain ⟨_, rfl, _⟩ := hrun
                  exact ⟨kids, hpar, hp, parentsKept_refl _⟩
                · rename_i nch hnch
                  split at hrun
                  · cases hrun
                  · rename_i pn hpn
                    obtain ⟨hpar1, hk1⟩ := parsed_put h kids p pn
                      { pn with channels := nch, channelData := List.replicate nch.toNat 0 } hpn
                      rfl rfl rfl rfl hpar
                    obtain ⟨kids', h1, h2, h3⟩ := ih _ _ _ _ _ _ _ _ hpar1 hp hrun
                    exact ⟨kids', h1, h2, parentsKept_trans hk1 h3⟩
              · split at hrun
                · -- JOINT
                  split at hrun
                  · simp only [Run.ret.injEq, Prod.mk.injEq] at hrun
                    obtain ⟨_, rfl, _⟩ := hrun
                    exact ⟨kids, hpar, hp, parentsKept_refl _⟩
                  · split at hrun
                    · cases hrun
                    · cases hrun
                    · rename_i child h1 hcn
                      obtain ⟨_, hfresh, hk1, kids1, hpar1, hp1, hc1⟩ :=
                        createNode_tree _ _ _ _ _ h h1 kids p child hpar hp hcn
                      split at hrun
                      · cases hrun
                      · cases hrun
                      · rename_i h2 rest2 hin
                        simp only [Run.ret.injEq, Prod.mk.injEq] at hrun
                        obtain ⟨_, rfl, _⟩ := hrun
                        obtain ⟨kids2, hpar2, hc2, hk2⟩ := ih _ _ _ _ _ _ _ _ hpar1 hc1 hin
                        obtain ⟨nd2, hnd2, hpp⟩ := hk2 child _ hfresh
                        refine ⟨kids2, hpar2, ?_, parentsKept_trans hk1 hk2⟩
                        rcases spine_parent _ _ _ _ hpar2.1 child nd2 hc2 hnd2 with e | ⟨q, hq, hqs⟩
                        · rw [hpp] at e
                          simp [freshNode] at e
                        · rw [hpp] at hq
                          simp only [freshNode, Option.some.injEq] at hq
                          rw [hq]
                          exact hqs
                      · rename_i v h2 rest2 hin
                        obtain ⟨kids2, hpar2, hc2, hk2⟩ := ih _ _ _ _ _ _ _ _ hpar1 hc1 hin
                        obtain ⟨nd2, hnd2, hpp⟩ := hk2 child _ hfresh
                        have hp2 : p ∈ (Shape.node 0 kids2 .nil).spine := by
                          rcases spine_parent _ _ _ _ hpar2.1 child nd2 hc2 hnd2 with e | ⟨q, hq, hqs⟩
                          · rw [hpp] at e
                            simp [freshNode] at e
                          · rw [hpp] at hq
                            simp only [freshNode, Option.some.injEq] at hq
                            rw [hq]
                            exact hqs
                        obtain ⟨kids3, hpar3, hp3, hk3⟩ := ih _ _ _ _ _ _ _ _ hpar2 hp2 hrun
                        exact ⟨kids3, hpar3, hp3, parentsKept_trans hk1 (parentsKept_trans hk2 hk3)⟩
                · split at hrun
                  · -- End Site
                    split at hrun
                    · simp only [Run.ret.injEq, Prod.mk.injEq] at hrun
                      obtain ⟨_, rfl, _⟩ := hrun
                      exact ⟨kids, hpar, hp, parentsKept_refl _⟩
                    · split at hrun
                      · simp only [Run.ret.injEq, Prod.mk.injEq] at hrun
                        obtain ⟨_, rfl, _⟩ := hrun
                        exact ⟨kids, hpar, hp, parentsKept_refl _⟩
                      · split at hrun
                        · simp only [Run.ret.injEq, Prod.mk.injEq] at hrun
                          obtain ⟨_, rfl, _⟩ := hrun
                          exact ⟨kids, hpar, hp, parentsKept_refl _⟩
                        · split at hrun
                          · cases hrun
                          · cases hrun
                          · rename_i endSite h1 hcn
                            simp only [Run.ret.injEq, Prod.mk.injEq] at hrun
                            obtain ⟨_, rfl, _⟩ := hrun
                            obtain ⟨_, _, hk1, kids1, hpar1, hp1, _⟩ :=
                              createNode_tree _ _ _ _ _ h h1 kids p endSite hpar hp hcn
                            exact ⟨kids1, hpar1, hp1, hk1⟩
                  · exact ih _ _ _ _ _ _ _ _ hpar hp hrun

theorem visitsChildren_eq {V : Type} (s : Shape) :
    ∀ (h : Heap V) (par ptr : Option Nat) (fuel : Nat),
      reprs h par ptr s = true → 2 * s.size + 1 ≤ fuel →
      visitsChildren fuel ptr h = some s.addrs := by
  induction s with
  | nil =>
    intro h par ptr fuel hr hf
    rw [reprs_nil] at hr
    subst hr
    cases fuel with
    | zero => omega
    | succ f => simp [visitsChildren, Shape.addrs]
  | node a k sib ihk ihs =>
    intro h par ptr fuel hr hf
    obtain ⟨nd, hnd, hp, hpar, hnum, hk, hsib⟩ := (reprs_node _ _ _ _ _ _).1 hr
    subst hp
    simp only [Shape.size] at hf
    obtain ⟨F, rfl⟩ : ∃ F, fuel = F + 1 := ⟨fuel - 1, by omega⟩
    obtain ⟨F', rfl⟩ : ∃ F', F = F' + 1 := ⟨F - 1, by omega⟩
    simp only [visitsChildren, visits, hnd, Shape.addrs]
    rw [ihs h par nd.next (F' + 1) hsib (by omega)]
    by_cases hz : nd.numChildren = 0
    · have hknil : k = .nil := roots_length_eq_zero k (by rw [← hnum, hz])
      subst hknil
      simp [hz, Shape.addrs]
    · simp only [hz, if_false]
      rw [ihk h (some a) nd.children F' hk (by omega)]
      simp

theorem visits_eq {V : Type} (h : Heap V) (root : Nat) (kids : Shape) (fuel : Nat)
    (hr : reprs h none (some root) (.node root kids .nil) = true)
    (hf : 2 * kids.size + 2 ≤ fuel) :
    visits fuel root h = some (root :: kids.addrs) := by
  obtain ⟨nd, hnd, _, hpar, hnum, hk, hsib⟩ := (reprs_node _ _ _ _ _ _).1 hr
  obtain ⟨F, rfl⟩ : ∃ F, fuel = F + 1 := ⟨fuel - 1, by omega⟩
  simp only [visits, hnd]
  by_cases hz : nd.numChildren = 0
  · have hknil : kids = .nil := roots_length_eq_zero kids (by rw [← hnum, hz])
    subst hknil
    simp [hz, Shape.addrs]
  · simp only [hz, if_false]
    rw [visitsChildren_eq kids h (some root) nd.children F hk (by omega)]

theorem parseRoot_parsed {V : Type} [Zero V] (file rest : List Char) (root : Nat) (h : Heap V)
    (hr : parseRoot ([] : Heap V) file = .ret (some root, h, rest)) :
    root = 0 ∧ parsed h .nil := by
  unfold parseRoot at hr
  split at hr
  · simp at hr
  · lift_lets at hr
    extract_lets line at hr
    split at hr
    · simp at hr
    · split at hr
      · simp at hr
      · rename_i name hname
        split at hr
        · rename_i r0 h1 hc
          simp only [Run.ret.injEq, Prod.mk.injEq, Option.some.injEq] at hr
          obtain ⟨rfl, rfl, _⟩ := hr
          by_cases hn : name.length < MAX_NAME_LENGTH
          · rw [createNode_null name 6 0 0 0 [] hn] at hc
            simp only [Run.ret.injEq, Prod.mk.injEq, List.length_nil, List.nil_append] at hc
            obtain ⟨rfl, rfl⟩ := hc
            refine ⟨rfl, ?_, ?_⟩
            · simp [reprs, freshNode, Shape.roots]
            · simp [Shape.addrs, List.range_succ]
          · simp [createNode, Nat.le_of_not_lt hn] at hc
        · cases hr
        · cases hr

/-! ## The order of creation and the order of the walk (C3) -/

/-- C3: `createNode` gives each node it makes the next free address, so the
addresses 0, 1, 2, ... of the heap are the nodes in the order of the
`createNode` calls of `parseRoot` and `parseBody`. Whenever `parseHierarchy` returns a
tree, the root is node 0, the heap holds a tree whose pre-order (a node, then
its children from first to last along `children` / `next`) lists the
addresses in exactly that order, the calls of `applyData` on the root visit
the nodes in that order, and `applyData` itself is the loop over the nodes
in creation order. -/
theorem parse_order_is_apply_order {V : Type} [Zero V]
    (scanF : List Char → Option (V × List Char)) (file : List Char) (root : Nat) (h : Heap V)
    (hp : parseHierarchy scanF file = .ret (some (root, h))) :
    root = 0 ∧ ∃ kids, isTree h root kids ∧ root :: kids.addrs = List.range h.length ∧
      ∀ fuel, 2 * kids.size + 2 ≤ fuel →
        visits fuel root h = some (List.range h.length) ∧
        ∀ (data : List V) (pos : Nat),
          applyData data fuel root h pos = walk data (List.range h.length) h pos := by
  unfold parseHierarchy at hp
  split at hp
  · cases hp
  · split at hp
    · cases hp
    · split at hp
      · cases hp
      · cases hp
      · cases hp
      · rename_i root0 h0 rest1 hroot
        obtain ⟨rfl, hpar0⟩ := parseRoot_parsed _ _ _ _ hroot
        split at hp
        · cases hp
        · cases hp
        · cases hp
        · rename_i v h2 rest2 hbody
          simp only [Run.ret.injEq, Option.some.injEq, Prod.mk.injEq] at hp
          obtain ⟨rfl, rfl⟩ := hp
          obtain ⟨kids, hpar, _, _⟩ := parseBodyLoop_inv scanF _ 0 1 h0 rest1 _ _ _ .nil hpar0
            (by simp [Shape.spine]) hbody
          have hnd : (0 :: kids.addrs).Nodup := by
            rw [hpar.2]; exact List.nodup_range _
          refine ⟨rfl, kids, ⟨hpar.1, hnd⟩, hpar.2, ?_⟩
          intro fuel hf
          refine ⟨?_, ?_⟩
          · rw [← hpar.2]
            exact visits_eq h2 0 kids fuel hpar.1 hf
          · intro data pos
            rw [← hpar.2]
            exact applyData_eq_walk data h2 0 kids pos fuel hpar.1 hf

/-- C3, witness: the seven nodes made from `twoChainsFile` (R, A, C, End Site, B, D,
End Site) are visited in the order 0, 1, ..., 6. -/
theorem parse_order_is_apply_order_witness :
    parseHierarchy (V := Int) scanInt twoChainsFile = .ret (some (0, twoChainsHeap)) ∧
    (0 = 0 ∧ ∃ kids, isTree twoChainsHeap 0 kids ∧
      0 :: kids.addrs = List.range twoChainsHeap.length ∧
      ∀ fuel, 2 * kids.size + 2 ≤ fuel →
        visits fuel 0 twoChainsHeap = some (List.range twoChainsHeap.length) ∧
        ∀ (data : List Int) (pos : Nat),
          applyData data fuel 0 twoChainsHeap pos
            = walk data (List.range twoChainsHeap.length) twoChainsHeap pos) :=
  ⟨by decide, parse_order_is_apply_order scanInt twoChainsFile 0 twoChainsHeap (by decide)⟩

theorem fgetsAux_line (l rest : List Char) (n : Nat) (hl : ∀ c ∈ l, c ≠ '\n')
    (hn : l.length < n) : fgetsAux n (l ++ '\n' :: rest) = (l ++ ['\n'], rest) := by
  induction l generalizing n with
  | nil =>
    cases n with
    | zero => simp at hn
    | succ n => simp [fgetsAux]
  | cons c l ih =>
    cases n with
    | zero => simp at hn
    | succ n =>
      have hc : c ≠ '\n' := hl c (by simp)
      have := ih n (fun d hd => hl d (by simp [hd])) (by simpa using hn)
      simp [fgetsAux, hc, this]

theorem fgets_line (l rest : List Char) (hl : ∀ c ∈ l, c ≠ '\n')
    (hn : l.length + 1 < MAX_LINE_LENGTH) :
    fgets MAX_LINE_LENGTH (l ++ '\n' :: rest) = some (l ++ ['\n'], rest) := by
  have h := fgetsAux_line l rest (MAX_LINE_LENGTH - 1) hl (by omega)
  cases l with
  | nil => simpa [fgets] using h
  | cons c l => simpa [fgets] using h

theorem cstr_line (l : List Char) (hl : ∀ c ∈ l, c ≠ Char.ofNat 0) :
    cstr (l ++ ['\n']) = l ++ ['\n'] := by
  unfold cstr
  rw [List.takeWhile_eq_self_iff]
  intro c hc
  simp only [List.mem_append, List.mem_singleton] at hc
  rcases hc with hc | rfl
  · simpa using hl c hc
  · decide

theorem dropWhile_append_all (p : Char → Bool) (a b : List Char) (ha : ∀ c ∈ a, p c = true) :
    (a ++ b).dropWhile p = b.dropWhile p := by
  induction a with
  | nil => rfl
  | cons c a ih =>
    have hc := ha c (by simp)
    simp only [List.cons_append, List.dropWhile_cons, hc, if_true]
    exact ih (fun d hd => ha d (by simp [hd]))

theorem blank_isspace (c : Char) (h : blankChar c = true) : isspace c = true := by
  simp only [blankChar, Bool.or_eq_true, decide_eq_true_eq] at h
  rcases h with rfl | rfl <;> decide

theorem blank_lineChar (c : Char) (h : blankChar c = true) : lineChar c = true := by
  simp only [blankChar, Bool.or_eq_true, decide_eq_true_eq] at h
  rcases h with rfl | rfl <;> decide

theorem blank_plainChar (c : Char) (h : blankChar c = true) : plainChar c = true := by
  simp only [blankChar, Bool.or_eq_true, decide_eq_true_eq] at h
  rcases h with rfl | rfl <;> decide

theorem trim_indent (ind body : List Char) (hi : ind.all blankChar = true) :
    trim_prefix (ind ++ body) = trim_prefix body := by
  unfold trim_prefix
  exact dropWhile_append_all isspace ind body
    (fun c hc => blank_isspace c (List.all_eq_true.1 hi c hc))

theorem takeWhile_word (w t : List Char) (c : Char) (hw : ∀ d ∈ w, isspace d = false)
    (hc : isspace c = true) :
    (w ++ c :: t).takeWhile (fun d => !isspace d) = w := by
  induction w with
  | nil => simp [hc]
  | cons d w ih =>
    have hd := hw d (by simp)
    simp only [List.cons_append, List.takeWhile_cons, hd, Bool.not_false, if_true]
    rw [ih (fun e he => hw e (by simp [he]))]

theorem scanStr_word (w t : List Char) (c : Char) (hne : w ≠ [])
    (hw : ∀ d ∈ w, isspace d = false) (hc : isspace c = true) :
    scanStr none (w ++ c :: t) = some w := by
  unfold scanStr
  have hdrop : (w ++ c :: t).dropWhile isspace = w ++ c :: t := by
    cases w with
    | nil => exact absurd rfl hne
    | cons d w =>
      have hd := hw d (by simp)
      simp [hd]
  rw [hdrop, takeWhile_word w t c hw hc]
  simp [hne]

theorem read_line (ind body rest : List Char) (hi : ind.all blankChar = true)
    (hb : body.all lineChar = true) (hn : (ind ++ body).length + 1 < MAX_LINE_LENGTH) :
    fgets MAX_LINE_LENGTH ((ind ++ body) ++ '\n' :: rest) = some ((ind ++ body) ++ ['\n'], rest) ∧
    trim_prefix (cstr ((ind ++ body) ++ ['\n'])) = trim_prefix (body ++ ['\n']) := by
  have hall : ∀ c ∈ ind ++ body, lineChar c = true := by
    intro c hc
    rcases List.mem_append.1 hc with h1 | h1
    · exact blank_lineChar c (List.all_eq_true.1 hi c h1)
    · exact List.all_eq_true.1 hb c h1
  constructor
  · refine fgets_line _ rest ?_ hn
    intro c hc e
    have := hall c hc
    rw [e] at this
    revert this
    decide
  · rw [cstr_line]
    · rw [List.append_assoc, trim_indent ind _ hi]
    · intro c hc e
      have := hall c hc
      rw [e] at this
      revert this
      decide

theorem trim_word (w t : List Char) (hw : (w.head?.all (fun c => !isspace c)) = true)
    (hne : w ≠ []) : trim_prefix (w ++ t) = w ++ t := by
  cases w with
  | nil => exact absurd rfl hne
  | cons c w =>
    simp only [List.head?_cons, Option.all_some, Bool.not_eq_true'] at hw
    simp [ trim_prefix, hw]

theorem loop_eof {V : Type} [Zero V] (scanF : List Char → Option (V × List Char))
    (fuel p : Nat) (lvl : Int) (h : Heap V) :
    parseBodyLoop scanF (fuel + 1) p lvl h [] = .ret (some p, h, []) := by
  rw [parseBodyLoop]
  simp [fgets]

theorem loop_blank {V : Type} [Zero V] (scanF : List Char → Option (V × List Char))
    (fuel p : Nat) (lvl : Int) (h : Heap V) (file buf rest : List Char)
    (hfg : fgets MAX_LINE_LENGTH file = some (buf, rest))
    (hhead : trim_prefix (cstr buf) = []) :
    parseBodyLoop scanF (fuel + 1) p lvl h file = parseBodyLoop scanF fuel p lvl h rest := by
  rw [parseBodyLoop]
  simp only [hfg, hhead]
  simp

theorem loop_close {V : Type} [Zero V] (scanF : List Char → Option (V × List Char))
    (fuel p : Nat) (lvl : Int) (h : Heap V) (file buf rest line : List Char)
    (hfg : fgets MAX_LINE_LENGTH file = some (buf, rest))
    (hline : trim_prefix (cstr buf) = line)
    (hhead : ¬ (line.head? = none ∨ line.head? = some '\n'))
    (hl : levelAfter lvl line = 0) :
    parseBodyLoop scanF (fuel + 1) p lvl h file = .ret (some p, h, rest) := by
  rw [parseBodyLoop]
  simp only [hfg, hline]
  rw [if_neg hhead]
  have hlev : (if strchr line (Char.ofNat 125) = true then
      (if strchr line (Char.ofNat 123) = true then lvl + 1 else lvl) - 1
      else if strchr line (Char.ofNat 123) = true then lvl + 1 else lvl)
      = levelAfter lvl line := rfl
  simp only [hlev]
  rw [if_pos hl]

theorem loop_other {V : Type} [Zero V] (scanF : List Char → Option (V × List Char))
    (fuel p : Nat) (lvl : Int) (h : Heap V) (file buf rest line kw : List Char)
    (hfg : fgets MAX_LINE_LENGTH file = some (buf, rest))
    (hline : trim_prefix (cstr buf) = line)
    (hhead : ¬ (line.head? = none ∨ line.head? = some '\n'))
    (hl : levelAfter lvl line ≠ 0) (hkw : scanStr none line = some kw)
    (h1 : kw ≠ "OFFSET".toList) (h2 : kw ≠ "CHANNELS".toList) (h3 : kw ≠ "JOINT".toList)
    (h4 : kw ≠ "End".toList) :
    parseBodyLoop scanF (fuel + 1) p lvl h file
      = parseBodyLoop scanF fuel p (levelAfter lvl line) h rest := by
  rw [parseBodyLoop]
  simp only [hfg, hline]
  rw [if_neg hhead]
  have hlev : (if strchr line (Char.ofNat 125) = true then
      (if strchr line (Char.ofNat 123) = true then lvl + 1 else lvl) - 1
      else if strchr line (Char.ofNat 123) = true then lvl + 1 else lvl)
      = levelAfter lvl line := rfl
  simp only [hlev]
  rw [if_neg hl]
  simp only [hkw]
  rw [if_neg h1, if_neg h2, if_neg h3, if_neg h4]

theorem loop_offset {V : Type} [Zero V] (scanF : List Char → Option (V × List Char))
    (fuel p : Nat) (lvl : Int) (h : Heap V) (file buf rest line : List Char)
    (off : V × V × V) (pn : Node V)
    (hfg : fgets MAX_LINE_LENGTH file = some (buf, rest))
    (hline : trim_prefix (cstr buf) = line)
    (hhead : ¬ (line.head? = none ∨ line.head? = some '\n'))
    (hl : levelAfter lvl line ≠ 0) (hkw : scanStr none line = some "OFFSET".toList)
    (hoff : sscanfOffset scanF line = some off) (hp : h[p]? = some pn) :
    parseBodyLoop scanF (fuel + 1) p lvl h file
      = parseBodyLoop scanF fuel p (levelAfter lvl line)
          (h.put p { pn with offset := off }) rest := by
  rw [parseBodyLoop]
  simp only [hfg, hline]
  rw [if_neg hhead]
  have hlev : (if strchr line (Char.ofNat 125) = true then
      (if strchr line (Char.ofNat 123) = true then lvl + 1 else lvl) - 1
      else if strchr line (Char.ofNat 123) = true then lvl + 1 else lvl)
      = levelAfter lvl line := rfl
  simp only [hlev]
  rw [if_neg hl]
  simp only [hkw, hoff, hp, if_true]

theorem loop_channels {V : Type} [Zero V] (scanF : List Char → Option (V × List Char))
    (fuel p : Nat) (lvl : Int) (h : Heap V) (file buf rest line : List Char)
    (n : Int) (pn : Node V)
    (hfg : fgets MAX_LINE_LENGTH file = some (buf, rest))
    (hline : trim_prefix (cstr buf) = line)
    (hhead : ¬ (line.head? = none ∨ line.head? = some '\n'))
    (hl : levelAfter lvl line ≠ 0) (hkw : scanStr none line = some "CHANNELS".toList)
    (hch : sscanfChannels line = some n) (hp : h[p]? = some pn) :
    parseBodyLoop scanF (fuel + 1) p lvl h file
      = parseBodyLoop scanF fuel p (levelAfter lvl line)
          (h.put p { pn with channels := n, channelData := List.replicate n.toNat 0 }) rest := by
  rw [parseBodyLoop]
  simp only [hfg, hline]
  rw [if_neg hhead]
  have hlev : (if strchr line (Char.ofNat 125) = true then
      (if strchr line (Char.ofNat 123) = true then lvl + 1 else lvl) - 1
      else if strchr line (Char.ofNat 123) = true then lvl + 1 else lvl)
      = levelAfter lvl line := rfl
  simp only [hlev]
  rw [if_neg hl]
  have hne : ¬ ("CHANNELS".toList = "OFFSET".toList) := by decide
  simp only [hkw, hch, hp, if_true]
  rw [if_neg hne]

theorem loop_end {V : Type} [Zero V] (scanF : List Char → Option (V × List Char))
    (fuel p : Nat) (lvl : Int) (h : Heap V) (file buf rest line b1 rest1 b2 rest2 : List Char)
    (off : V × V × V)
    (hfg : fgets MAX_LINE_LENGTH file = some (buf, rest))
    (hline : trim_prefix (cstr buf) = line)
    (hhead : ¬ (line.head? = none ∨ line.head? = some '\n'))
    (hl : levelAfter lvl line ≠ 0) (hkw : scanStr none line = some "End".toList)
    (hf1 : fgets MAX_LINE_LENGTH rest = some (b1, rest1))
    (hf2 : fgets MAX_LINE_LENGTH rest1 = some (b2, rest2))
    (hoff : sscanfEndOffset scanF (cstr b2) = some off) :
    parseBodyLoop scanF (fuel + 1) p lvl h file
      = match createNode "End Site".toList (some p) 0 off.1 off.2.1 off.2.2 h with
        | .undef => .undef
        | .timeout => .timeout
        | .ret (endSite, h1) => .ret (some endSite, h1, rest2) := by
  obtain ⟨ofx, ofy, ofz⟩ := off
  rw [parseBodyLoop]
  simp only [hfg, hline]
  rw [if_neg hhead]
  have hlev : (if strchr line (Char.ofNat 125) = true then
      (if strchr line (Char.ofNat 123) = true then lvl + 1 else lvl) - 1
      else if strchr line (Char.ofNat 123) = true then lvl + 1 else lvl)
      = levelAfter lvl line := rfl
  simp only [hlev]
  rw [if_neg hl]
  have hne1 : ¬ ("End".toList = "OFFSET".toList) := by decide
  have hne2 : ¬ ("End".toList = "CHANNELS".toList) := by decide
  have hne3 : ¬ ("End".toList = "JOINT".toList) := by decide
  simp only [hkw, hf1, hf2, hoff]
  rw [if_neg hne1, if_neg hne2, if_neg hne3, if_pos trivial]

theorem strchr_false (l : List Char) (x : Char) (h : ∀ c ∈ l, c ≠ x) : strchr l x = false := by
  unfold strchr
  cases hc : l.contains x with
  | false => rfl
  | true =>
    have := List.contains_iff_exists_mem_beq.1 hc
    obtain ⟨c, hcm, hb⟩ := this
    have : x = c := by simpa using hb
    exact absurd this.symm (h c hcm)

theorem levelAfter_plain (lvl : Int) (l : List Char) (hl : l.all plainChar = true) :
    levelAfter lvl (l ++ ['\n']) = lvl := by
  have hne : ∀ x, (x = Char.ofNat 123 ∨ x = Char.ofNat 125) → ∀ c ∈ l ++ ['\n'], c ≠ x := by
    intro x hx c hc e
    simp only [List.mem_append, List.mem_singleton] at hc
    rcases hc with hc | rfl
    · have := List.all_eq_true.1 hl c hc
      rw [e] at this
      rcases hx with rfl | rfl <;> revert this <;> decide
    · rcases hx with h | h <;> revert h <;> rw [← e] <;> decide
  unfold levelAfter
  rw [strchr_false _ _ (hne _ (Or.inr rfl)), strchr_false _ _ (hne _ (Or.inl rfl))]
  simp

theorem scanF3_space {V : Type} (scanF : List Char → Option (V × List Char)) (s : List Char) :
    scanF3 scanF (' ' :: s) = scanF3 scanF s := by
  have : (' ' :: s).dropWhile isspace = s.dropWhile isspace := by
    rw [List.dropWhile_cons]
    simp [show isspace ' ' = true from rfl]
  unfold scanF3
  rw [this]

theorem sscanfOffset_line {V : Type} (scanF : List Char → Option (V × List Char))
    (t : List Char) :
    sscanfOffset scanF (("OFFSET ".toList ++ t) ++ ['\n']) = scanF3 scanF (t ++ ['\n']) := by
  have e : ("OFFSET ".toList ++ t) ++ ['\n']
      = 'O' :: 'F' :: 'F' :: 'S' :: 'E' :: 'T' :: ' ' :: (t ++ ['\n']) := rfl
  have hm : matchLit "OFFSET".toList ('O' :: 'F' :: 'F' :: 'S' :: 'E' :: 'T' :: ' ' :: (t ++ ['\n']))
      = some (' ' :: (t ++ ['\n'])) := by
    simp [matchLit]
  rw [e]
  unfold sscanfOffset
  rw [hm]
  exact scanF3_space scanF _

theorem sscanfChannels_six (t : List Char) (ht : (t.head?.all (fun c => !c.isDigit)) = true) :
    sscanfChannels (("CHANNELS 6".toList ++ t) ++ ['\n']) = some 6 := by
  have e : ("CHANNELS 6".toList ++ t) ++ ['\n']
      = 'C' :: 'H' :: 'A' :: 'N' :: 'N' :: 'E' :: 'L' :: 'S' :: ' ' :: '6' :: (t ++ ['\n']) := rfl
  have hm : matchLit "CHANNELS".toList
      ('C' :: 'H' :: 'A' :: 'N' :: 'N' :: 'E' :: 'L' :: 'S' :: ' ' :: '6' :: (t ++ ['\n']))
      = some (' ' :: '6' :: (t ++ ['\n'])) := by
    simp [matchLit]
  have hd : (' ' :: '6' :: (t ++ ['\n'])).dropWhile isspace = '6' :: (t ++ ['\n']) := by
    rw [List.dropWhile_cons, if_pos (by decide), List.dropWhile_cons, if_neg (by decide)]
  have htw : (t ++ ['\n']).takeWhile Char.isDigit = [] := by
    cases t with
    | nil => decide
    | cons c t =>
      simp only [List.head?_cons, Option.all_some, Bool.not_eq_true'] at ht
      simp [ht]
  have hs : scanInt ('6' :: (t ++ ['\n'])) = some (6, t ++ ['\n']) := by
    unfold scanInt
    have h6 : ('6' :: (t ++ ['\n'])).takeWhile Char.isDigit = ['6'] := by
      rw [List.takeWhile_cons, if_pos (by decide), htw]
    simp only [h6]
    simp [digitsVal, htw]
  rw [e]
  unfold sscanfChannels
  rw [hm]
  simp only [hd, hs]

theorem sscanfName_root (name : List Char) (hne : name ≠ [])
    (hlen : name.length < MAX_NAME_LENGTH)
    (hsp : ∀ c ∈ name, isspace c = false) :
    sscanfName "ROOT".toList 19 (("ROOT ".toList ++ name) ++ ['\n']) = some name := by
  have e : ("ROOT ".toList ++ name) ++ ['\n']
      = 'R' :: 'O' :: 'O' :: 'T' :: ' ' :: (name ++ '\n' :: []) := rfl
  have hm : matchLit "ROOT".toList ('R' :: 'O' :: 'O' :: 'T' :: ' ' :: (name ++ '\n' :: []))
      = some (' ' :: (name ++ '\n' :: [])) := by
    simp [matchLit]
  have hd : (' ' :: (name ++ '\n' :: [])).dropWhile isspace = name ++ '\n' :: [] := by
    rw [List.dropWhile_cons, if_pos (by decide)]
    cases name with
    | nil => exact absurd rfl hne
    | cons c t =>
      have := hsp c (by simp)
      simp [this]
  have ht : name.take 19 = name := List.take_of_length_le (by unfold MAX_NAME_LENGTH at hlen; omega)
  have htw := takeWhile_word name [] '\n' hsp (by decide)
  rw [e]
  simp only [sscanfName, hm, scanStr, hd, htw, ht]
  simp [hne]

theorem all_lineChar_append (a b : List Char) (ha : a.all lineChar = true)
    (hb : b.all lineChar = true) : (a ++ b).all lineChar = true := by
  rw [List.all_append, ha, hb]
  rfl

theorem plain_all_lineChar (l : List Char) (h : l.all plainChar = true) :
    l.all lineChar = true := by
  rw [List.all_eq_true] at h ⊢
  intro c hc
  have := h c hc
  simp only [plainChar, Bool.and_eq_true] at this
  exact this.1.1

theorem parseRoot_line {V : Type} [Zero V] (ind name rest : List Char)
    (hi : ind.all blankChar = true) (hne : name ≠ []) (hlen : name.length < MAX_NAME_LENGTH)
    (hname : name.all (fun c => !isspace c && lineChar c) = true)
    (hn : (ind ++ ("ROOT ".toList ++ name)).length + 1 < MAX_LINE_LENGTH) :
    parseRoot ([] : Heap V) ((ind ++ ("ROOT ".toList ++ name)) ++ '\n' :: rest)
      = .ret (some 0, [freshNode name none 6 0 0 0], rest) := by
  have hsp : ∀ c ∈ name, isspace c = false := by
    intro c hc
    have := List.all_eq_true.1 hname c hc
    simp only [Bool.and_eq_true, Bool.not_eq_true'] at this
    exact this.1
  have hlc : name.all lineChar = true := by
    rw [List.all_eq_true]
    intro c hc
    have := List.all_eq_true.1 hname c hc
    simp only [Bool.and_eq_true] at this
    exact this.2
  obtain ⟨hfg, htrim⟩ := read_line _ ("ROOT ".toList ++ name) rest hi
    (all_lineChar_append _ _ (by decide) hlc) hn
  have htw : trim_prefix (("ROOT ".toList ++ name) ++ ['\n'])
      = ("ROOT ".toList ++ name) ++ ['\n'] := by
    rw [List.append_assoc]
    exact trim_word "ROOT ".toList _ (by decide) (by decide)
  rw [htw] at htrim
  unfold parseRoot
  simp only [hfg, htrim]
  have ht4 : (("ROOT ".toList ++ name) ++ ['\n']).take 4 = "ROOT".toList := rfl
  rw [if_neg (by rw [ht4]; simp)]
  simp only [sscanfName_root name hne hlen hsp]
  rw [createNode_null name 6 0 0 0 [] hlen]
  rfl

theorem parseBody_minimal {V : Type} [Zero V] (scanF : List Char → Option (V × List Char))
    (m : MinimalFile) (roff eoff : V × V × V) (fuel : Nat) (hv : m.valid = true)
    (hro : scanF3 scanF (m.rootOffset ++ ['\n']) = some roff)
    (heo : scanF3 scanF (m.endOffset ++ ['\n']) = some eoff) :
    parseBodyLoop scanF (fuel + 4) 0 1 [freshNode m.name none 6 0 0 0] m.body
    = .ret (some 1,
        [{ name := m.name, offset := roff, channels := 6, channelData := List.replicate 6 0,
           numChildren := 1, parent := none, children := some 1, next := none },
         { name := "End Site".toList, offset := eoff, channels := 0, channelData := [],
           numChildren := 0, parent := some 0, children := none, next := none }],
        m.rest) := by
  unfold MinimalFile.body
  simp only [MinimalFile.valid, Bool.and_eq_true, decide_eq_true_eq] at hv
  obtain ⟨⟨⟨⟨⟨⟨⟨⟨⟨⟨⟨⟨⟨⟨⟨⟨⟨⟨⟨⟨hi1, hi2⟩, hi3⟩, hi4⟩, hi5⟩, hi6⟩, hi7⟩, hne⟩, hlen⟩, hname⟩,
    hrp⟩, hcp⟩, hel⟩, hdig⟩, hn1⟩, hn2⟩, hn3⟩, hn4⟩, hn5⟩, hn6⟩, hn7⟩ := hv
  -- the line of the opening brace
  obtain ⟨hfg2, htr2⟩ := read_line _ ([Char.ofNat 123]) (_ : List Char) hi2 (by decide) hn2
  have hl2 : trim_prefix ([Char.ofNat 123] ++ ['\n']) = [Char.ofNat 123, '\n'] := by decide
  rw [hl2] at htr2
  rw [loop_other scanF (fuel + 3) 0 1 _ _ _ _ _ [Char.ofNat 123] hfg2 htr2 (by decide) (by decide)
    (by decide) (by decide) (by decide) (by decide) (by decide)]
  have hlev2 : levelAfter 1 [Char.ofNat 123, '\n'] = 2 := by decide
  rw [hlev2]
  -- the OFFSET line
  obtain ⟨hfg3, htr3⟩ := read_line _ ("OFFSET ".toList ++ m.rootOffset) (_ : List Char) hi3
    (all_lineChar_append _ _ (by decide) (plain_all_lineChar _ hrp)) hn3
  have hw3 : trim_prefix (("OFFSET ".toList ++ m.rootOffset) ++ ['\n'])
      = ("OFFSET ".toList ++ m.rootOffset) ++ ['\n'] := by
    rw [List.append_assoc]
    exact trim_word "OFFSET ".toList _ (by decide) (by decide)
  rw [hw3] at htr3
  have hp3 : ("OFFSET ".toList ++ m.rootOffset).all plainChar = true := by
    rw [List.all_append, hrp]; decide
  have hlev3 := levelAfter_plain 2 _ hp3
  have hkw3 : scanStr none (("OFFSET ".toList ++ m.rootOffset) ++ ['\n'])
      = some "OFFSET".toList :=
    scanStr_word "OFFSET".toList (m.rootOffset ++ ['\n']) ' ' (by decide) (by decide) (by decide)
  rw [loop_offset scanF (fuel + 2) 0 2 _ _ _ _ _ roff (freshNode m.name none 6 0 0 0) hfg3 htr3
    (by simp) (by rw [hlev3]; decide) hkw3 (by rw [sscanfOffset_line]; exact hro) rfl]
  rw [hlev3]
  -- the CHANNELS line
  obtain ⟨hfg4, htr4⟩ := read_line _ ("CHANNELS 6".toList ++ m.channelNames)
    (_ : List Char) hi4 (all_lineChar_append _ _ (by decide) (plain_all_lineChar _ hcp)) hn4
  have hw4 : trim_prefix (("CHANNELS 6".toList ++ m.channelNames) ++ ['\n'])
      = ("CHANNELS 6".toList ++ m.channelNames) ++ ['\n'] := by
    rw [List.append_assoc]
    exact trim_word "CHANNELS 6".toList _ (by decide) (by decide)
  rw [hw4] at htr4
  have hp4 : ("CHANNELS 6".toList ++ m.channelNames).all plainChar = true := by
    rw [List.all_append, hcp]; decide
  have hlev4 := levelAfter_plain 2 _ hp4
  have hkw4 : scanStr none (("CHANNELS 6".toList ++ m.channelNames) ++ ['\n'])
      = some "CHANNELS".toList :=
    scanStr_word "CHANNELS".toList ('6' :: (m.channelNames ++ ['\n'])) ' '
      (by decide) (by decide) (by decide)
  rw [loop_channels scanF (fuel + 1) 0 2 _ _ _ _ _ 6
    { freshNode m.name none 6 (0 : V) 0 0 with offset := roff } hfg4 htr4
    (by simp) (by rw [hlev4]; decide) hkw4 (sscanfChannels_six _ hdig) rfl]
  rw [hlev4]
  -- the End Site block
  obtain ⟨hfg5, htr5⟩ := read_line _ ("End Site".toList) (_ : List Char) hi5 (by decide) hn5
  have hl5 : trim_prefix ("End Site".toList ++ ['\n']) = "End Site\n".toList := by decide
  rw [hl5] at htr5
  obtain ⟨hfg6, _⟩ := read_line _ ([Char.ofNat 123]) (_ : List Char) hi6 (by decide) hn6
  obtain ⟨hfg7, htr7⟩ := read_line _ ("OFFSET ".toList ++ m.endOffset) m.rest hi7
    (all_lineChar_append _ _ (by decide) hel) hn7
  have hw7 : trim_prefix (("OFFSET ".toList ++ m.endOffset) ++ ['\n'])
      = ("OFFSET ".toList ++ m.endOffset) ++ ['\n'] := by
    rw [List.append_assoc]
    exact trim_word "OFFSET ".toList _ (by decide) (by decide)
  rw [hw7] at htr7
  have hoff7 : sscanfEndOffset scanF
      (cstr ((m.indentEndOffset ++ ("OFFSET ".toList ++ m.endOffset)) ++ ['\n'])) = some eoff := by
    have : sscanfEndOffset scanF
        (cstr ((m.indentEndOffset ++ ("OFFSET ".toList ++ m.endOffset)) ++ ['\n']))
        = sscanfOffset scanF
          ( trim_prefix (cstr ((m.indentEndOffset ++ ("OFFSET ".toList ++ m.endOffset)) ++ ['\n']))) := rfl
    rw [this, htr7, sscanfOffset_line]
    exact heo
  rw [loop_end scanF fuel 0 2 _ _ _ _ _ _ _ _ _ eoff hfg5 htr5 (by decide) (by decide) (by decide)
    hfg6 hfg7 hoff7]
  simp [createNode, MAX_NAME_LENGTH, freshNode, Heap.put]

/-! ## Minimal files (C4) -/

/-- C4: for every minimal file (a `ROOT` line with a name of at most 19
characters, `{`, an OFFSET line, a `CHANNELS 6` line and one End Site block,
each line indented at will, followed by any text) whose two OFFSET lines hold
three numbers, `parseHierarchy` returns a tree of exactly two nodes: the root at
address 0 with the declared name, 6 channels and the End Site as its only
child, and the node `End Site` with 0 channels, no children and the offset
read from the OFFSET line of the End Site block. -/
theorem parseHierarchy_minimal {V : Type} [Zero V]
    (scanF : List Char → Option (V × List Char)) (m : MinimalFile) (roff eoff : V × V × V)
    (hv : m.valid = true)
    (hro : scanF3 scanF (m.rootOffset ++ ['\n']) = some roff)
    (heo : scanF3 scanF (m.endOffset ++ ['\n']) = some eoff) :
    parseHierarchy scanF m.text = .ret (some (0,
      [{ name := m.name, offset := roff, channels := 6, channelData := List.replicate 6 0,
         numChildren := 1, parent := none, children := some 1, next := none },
       { name := "End Site".toList, offset := eoff, channels := 0, channelData := [],
         numChildren := 0, parent := some 0, children := none, next := none }])) := by
  have hv' := hv
  simp only [MinimalFile.valid, Bool.and_eq_true, decide_eq_true_eq] at hv'
  obtain ⟨⟨⟨⟨⟨⟨⟨⟨⟨⟨⟨⟨⟨⟨⟨⟨⟨⟨⟨⟨hi1, _⟩, _⟩, _⟩, _⟩, _⟩, _⟩, hne⟩, hlen⟩, hname⟩,
    _⟩, _⟩, _⟩, _⟩, hn1⟩, _⟩, _⟩, _⟩, _⟩, _⟩, _⟩ := hv'
  have hhead : headerOk m.text = true := (headerOk_iff _).2 rfl
  have hfg0 : fgets MAX_LINE_LENGTH m.text = some ("HIERARCHY".toList ++ ['\n'],
      (m.indentRoot ++ ("ROOT ".toList ++ m.name)) ++ '\n' :: m.body) :=
    fgets_line "HIERARCHY".toList _ (by decide) (by decide)
  obtain ⟨f, hf⟩ : ∃ f, m.body.length + 1 = f + 4 := by
    refine ⟨m.body.length - 3, ?_⟩
    have : 3 ≤ m.body.length := by
      simp only [MinimalFile.body, List.length_append, List.length_cons]
      omega
    omega
  unfold parseHierarchy
  rw [hhead]
  simp only [hfg0, parseRoot_line m.indentRoot m.name _ hi1 hne hlen hname hn1, parseBody]
  rw [hf, parseBody_minimal scanF m roff eoff f hv hro heo]
  simp

/-- C4, witness: the file `sampleMinimal` (root `Hips`, indented lines, closing
braces and a motion section after the End Site) gives the root `Hips` with 6
channels and the End Site with offset `(4, 5, 6)`. -/
theorem parseHierarchy_minimal_witness :
    (sampleMinimal.valid = true ∧
      scanF3 scanInt (sampleMinimal.rootOffset ++ ['\n']) = some (0, 0, 0) ∧
      scanF3 scanInt (sampleMinimal.endOffset ++ ['\n']) = some (4, 5, 6)) ∧
    parseHierarchy (V := Int) scanInt sampleMinimal.text = .ret (some (0,
      [{ name := sampleMinimal.name, offset := (0, 0, 0), channels := 6,
         channelData := List.replicate 6 0,
         numChildren := 1, parent := none, children := some 1, next := none },
       { name := "End Site".toList, offset := (4, 5, 6), channels := 0, channelData := [],
         numChildren := 0, parent := some 0, children := none, next := none }])) :=
  ⟨⟨by decide, by decide, by decide⟩,
   parseHierarchy_minimal scanInt sampleMinimal (0, 0, 0) (4, 5, 6)
     (by decide) (by decide) (by decide)⟩

theorem fgets_shorter (file buf rest : List Char)
    (hfg : fgets MAX_LINE_LENGTH file = some (buf, rest)) : rest.length < file.length := by
  cases file with
  | nil => simp [fgets] at hfg
  | cons c s =>
    simp only [fgets, Option.some.injEq] at hfg
    have happ := fgetsAux_append (MAX_LINE_LENGTH - 1) (c :: s)
    rw [hfg] at happ
    simp only at happ
    have hbuf : buf ≠ [] := by
      have h1 : (fgetsAux (MAX_LINE_LENGTH - 1) (c :: s)).1 = buf := by rw [hfg]
      rw [← h1]
      simp only [MAX_LINE_LENGTH, fgetsAux]
      by_cases hc : c = '\n'
      · simp [hc]
      · simp [hc]
    have hlen := congrArg List.length happ
    simp only [List.length_append] at hlen
    have : 0 < buf.length := List.length_pos.2 hbuf
    omega

theorem createNode_no_timeout {V : Type} [Zero V] (name : List Char) (nc : Int)
    (ofx ofy ofz : V) (h : Heap V) (kids : Shape) (p : Nat) (hpar : parsed h kids)
    (hp : p ∈ (Shape.node 0 kids .nil).spine) :
    createNode name (some p) nc ofx ofy ofz h ≠ .timeout := by
  have hpa := spine_subset_addrs _ p hp
  obtain ⟨pn, L, hpn, hL⟩ := reprs_kids_list h _ _ _ hpar.1 p hpa
  by_cases hname : name.length < MAX_NAME_LENGTH
  · obtain ⟨h', hc', _⟩ := createNode_spec name nc ofx ofy ofz h p pn L hname hpn hL
    rw [hc']
    simp
  · simp [createNode, Nat.le_of_not_lt hname]

theorem parseBodyLoop_consumes {V : Type} [Zero V]
    (scanF : List Char → Option (V × List Char)) :
    ∀ (fuel p : Nat) (lvl : Int) (h : Heap V) (file : List Char) (r : Option Nat)
      (h' : Heap V) (file' : List Char),
      parseBodyLoop scanF fuel p lvl h file = .ret (r, h', file') →
      file'.length ≤ file.length := by
  intro fuel
  induction fuel with
  | zero =>
    intro p lvl h file r h' file' hrun
    simp [parseBodyLoop] at hrun
  | succ fuel ih =>
    intro p lvl h file r h' file' hrun
    unfold parseBodyLoop at hrun
    split at hrun
    · simp only [Run.ret.injEq, Prod.mk.injEq] at hrun
      obtain ⟨_, _, rfl⟩ := hrun
      exact Nat.le_refl _
    · rename_i buf rest hfg
      have hsh := fgets_shorter _ _ _ hfg
      lift_lets at hrun
      extract_lets line level1 level2 at hrun
      clear_value level2
      have hsame : ∀ (x : Option Nat) (g : Heap V),
          (Run.ret (x, g, rest) : Run (Option Nat × Heap V × List Char)) = .ret (r, h', file') →
          file'.length ≤ file.length := by
        intro x g e
        simp only [Run.ret.injEq, Prod.mk.injEq] at e
        obtain ⟨_, _, rfl⟩ := e
        omega
      have hloop : ∀ (q : Nat) (l : Int) (g : Heap V),
          parseBodyLoop scanF fuel q l g rest = .ret (r, h', file') →
          file'.length ≤ file.length := by
        intro q l g e
        have := ih _ _ _ _ _ _ _ e
        omega
      split at hrun
      · exact hloop _ _ _ hrun
      · split at hrun
        · exact hsame _ _ hrun
        · split at hrun
          · exact hloop _ _ _ hrun
          · split at hrun
            · split at hrun
              · exact hsame _ _ hrun
              · split at hrun
                · cases hrun
                · exact hloop _ _ _ hrun
            · split at hrun
              · split at hrun
                · exact hsame _ _ hrun
                · split at hrun
                  · cases hrun
                  · exact hloop _ _ _ hrun
              · split at hrun
                · split at hrun
                  · exact hsame _ _ hrun
                  · split at hrun
                    · cases hrun
                    · cases hrun
                    · split at hrun
                      · cases hrun
                      · cases hrun
                      · rename_i h2 rest2 hin
                        simp only [Run.ret.injEq, Prod.mk.injEq] at hrun
                        obtain ⟨_, _, rfl⟩ := hrun
                        have := ih _ _ _ _ _ _ _ hin
                        omega
                      · rename_i v h2 rest2 hin
                        have h1 := ih _ _ _ _ _ _ _ hin
                        have h2 := ih _ _ _ _ _ _ _ hrun
                        omega
                · split at hrun
                  · split at hrun
                    · exact hsame _ _ hrun
                    · rename_i b1 rest1 hf1
                      have hs1 := fgets_shorter _ _ _ hf1
                      split at hrun
                      · simp only [Run.ret.injEq, Prod.mk.injEq] at hrun
                        obtain ⟨_, _, rfl⟩ := hrun
                        omega
                      · rename_i b2 rest2 hf2
                        have hs2 := fgets_shorter _ _ _ hf2
                        split at hrun
                        · simp only [Run.ret.injEq, Prod.mk.injEq] at hrun
                          obtain ⟨_, _, rfl⟩ := hrun
                          omega
                        · split at hrun
                          · cases hrun
                          · cases hrun
                          · simp only [Run.ret.injEq, Prod.mk.injEq] at hrun
                            obtain ⟨_, _, rfl⟩ := hrun
                            omega
                  · exact hloop _ _ _ hrun

theorem spine_of_child {V : Type} (h1 h2 : Heap V) (kids2 : Shape) (p child : Nat)
    (name : List Char) (nc : Int) (ofx ofy ofz : V) [Zero V]
    (hfresh : h1[child]? = some (freshNode name (some p) nc ofx ofy ofz))
    (hk : parentsKept h1 h2) (hpar2 : parsed h2 kids2)
    (hc2 : child ∈ (Shape.node 0 kids2 .nil).spine) :
    p ∈ (Shape.node 0 kids2 .nil).spine := by
  obtain ⟨nd2, hnd2, hpp⟩ := hk child _ hfresh
  rcases spine_parent _ _ _ _ hpar2.1 child nd2 hc2 hnd2 with e | ⟨q, hq, hqs⟩
  · rw [hpp] at e
    simp [freshNode] at e
  · rw [hpp] at hq
    simp only [freshNode, Option.some.injEq] at hq
    rw [hq]
    exact hqs

theorem parseBodyLoop_no_timeout {V : Type} [Zero V]
    (scanF : List Char → Option (V × List Char)) :
    ∀ (fuel p : Nat) (lvl : Int) (h : Heap V) (file : List Char) (kids : Shape),
      parsed h kids → p ∈ (Shape.node 0 kids .nil).spine → file.length < fuel →
      parseBodyLoop scanF fuel p lvl h file ≠ .timeout := by
  intro fuel
  induction fuel with
  | zero =>
    intro p lvl h file kids _ _ hf
    omega
  | succ fuel ih =>
    intro p lvl h file kids hpar hp hf hrun
    unfold parseBodyLoop at hrun
    split at hrun
    · cases hrun
    · rename_i buf rest hfg
      have hsh := fgets_shorter _ _ _ hfg
      lift_lets at hrun
      extract_lets line level1 level2 at hrun
      clear_value level2
      have hloop : ∀ (l : Int), parseBodyLoop scanF fuel p l h rest ≠ .timeout :=
        fun l => ih p l h rest kids hpar hp (by omega)
      split at hrun
      · exact hloop _ hrun
      · split at hrun
        · cases hrun
        · split at hrun
          · exact hloop _ hrun
          · split at hrun
            · split at hrun
              · cases hrun
              · rename_i off hoff
                split at hrun
                · cases hrun
                · rename_i pn hpn
                  obtain ⟨hpar1, _⟩ := parsed_put h kids p pn { pn with offset := off } hpn
                    rfl rfl rfl rfl hpar
                  exact ih _ _ _ _ _ hpar1 hp (by omega) hrun
            · split at hrun
              · split at hrun
                · cases hrun
                · rename_i nch hnch
                  split at hrun
                  · cases hrun
                  · rename_i pn hpn
                    obtain ⟨hpar1, _⟩ := parsed_put h kids p pn
                      { pn with channels := nch, channelData := List.replicate nch.toNat 0 } hpn
                      rfl rfl rfl rfl hpar
                    exact ih _ _ _ _ _ hpar1 hp (by omega) hrun
              · split at hrun
                · split at hrun
                  · cases hrun
                  · split at hrun
                    · cases hrun
                    · rename_i hcn
                      exact createNode_no_timeout _ _ _ _ _ h kids p hpar hp hcn
                    · rename_i child h1 hcn
                      obtain ⟨_, hfresh, hk1, kids1, hpar1, hp1, hc1⟩ :=
                        createNode_tree _ _ _ _ _ h h1 kids p child hpar hp hcn
                      split at hrun
                      · cases hrun
                      · rename_i hin
                        exact ih _ _ _ _ _ hpar1 hc1 (by omega) hin
                      · cases hrun
                      · rename_i v h2 rest2 hin
                        obtain ⟨kids2, hpar2, hc2, hk2⟩ :=
                          parseBodyLoop_inv scanF _ _ _ _ _ _ _ _ _ hpar1 hc1 hin
                        have hp2 := spine_of_child h1 h2 kids2 p child _ _ _ _ _ hfresh hk2 hpar2 hc2
                        have hlen := parseBodyLoop_consumes scanF _ _ _ _ _ _ _ _ hin
                        exact ih _ _ _ _ _ hpar2 hp2 (by omega) hrun
                · split at hrun
                  · split at hrun
                    · cases hrun
                    · split at hrun
                      · cases hrun
                      · split at hrun
                        · cases hrun
                        · split at hrun
                          · cases hrun
                          · rename_i hcn
                            exact createNode_no_timeout _ _ _ _ _ h kids p hpar hp hcn
                          · cases hrun
                  · exact hloop _ hrun

/-- Fuel: `parseHierarchy` never runs out of the fuel it gives `parseBody`; whatever the
input, it returns or runs into undefined behaviour of C. -/
theorem parseHierarchy_no_timeout {V : Type} [Zero V]
    (scanF : List Char → Option (V × List Char)) (file : List Char) :
    parseHierarchy scanF file ≠ .timeout := by
  intro hp
  unfold parseHierarchy at hp
  split at hp
  · cases hp
  · split at hp
    · cases hp
    · split at hp
      · cases hp
      · rename_i hroot
        unfold parseRoot at hroot
        split at hroot
        · cases hroot
        · lift_lets at hroot
          extract_lets line at hroot
          split at hroot
          · cases hroot
          · split at hroot
            · cases hroot
            · split at hroot
              · cases hroot
              · cases hroot
              · rename_i nm _ _ hc
                by_cases hn : nm.length < MAX_NAME_LENGTH
                · rw [createNode_null nm 6 0 0 0 [] hn] at hc
                  cases hc
                · simp [createNode, Nat.le_of_not_lt hn] at hc
      · cases hp
      · rename_i root0 h0 rest1 hroot
        obtain ⟨rfl, hpar0⟩ := parseRoot_parsed _ _ _ _ hroot
        split at hp
        · cases hp
        · rename_i hbody
          exact parseBodyLoop_no_timeout scanF _ 0 1 h0 rest1 .nil hpar0
            (by simp [Shape.spine]) (by omega) hbody
        · cases hp
        · cases hp

/-! ## The walk leaves the links alone (C16) -/

theorem apply_skeleton {V : Type} (data : List V) : ∀ (fuel : Nat),
    (∀ (n : Nat) (h : Heap V) (pos : Nat) (h1 : Heap V) (p1 : Nat),
      (applyData data fuel n h pos = .done h1 p1 ∨ applyData data fuel n h pos = .overrun h1 p1) →
      h1.map skeleton = h.map skeleton) ∧
    (∀ (ptr : Option Nat) (h : Heap V) (pos : Nat) (h1 : Heap V) (p1 : Nat),
      (applyChildren data fuel ptr h pos = .done h1 p1 ∨
        applyChildren data fuel ptr h pos = .overrun h1 p1) →
      h1.map skeleton = h.map skeleton) := by
  intro fuel
  induction fuel with
  | zero =>
    constructor
    · intro n h pos h1 p1 hrun
      simp [applyData] at hrun
    · intro ptr h pos h1 p1 hrun
      simp [applyChildren] at hrun
  | succ f ih =>
    constructor
    · intro n h pos h1 p1 hrun
      simp only [applyData] at hrun
      cases hnd : h[n]? with
      | none => rw [hnd] at hrun; simp at hrun
      | some nd =>
        rw [hnd] at hrun
        simp only at hrun
        by_cases hz : nd.numChildren = 0
        · simp only [hz, if_true, Applied.done.injEq] at hrun
          rcases hrun with hrun | hrun
          · rw [hrun.1]
          · cases hrun
        · simp only [hz, if_false] at hrun
          cases hcc : copyChannels data nd.channels.toNat 0 nd.channelData pos with
          | undef => rw [hcc] at hrun; simp at hrun
          | overrun cd p =>
            rw [hcc] at hrun
            simp only [Applied.overrun.injEq] at hrun
            rcases hrun with hrun | hrun
            · cases hrun
            · rw [← hrun.1]
              exact skel_put h n nd cd hnd
          | ok cd p =>
            rw [hcc] at hrun
            exact (ih.2 _ _ _ _ _ hrun).trans (skel_put h n nd cd hnd)
    · intro ptr h pos h1 p1 hrun
      cases ptr with
      | none =>
        simp only [applyChildren, Applied.done.injEq] at hrun
        rcases hrun with hrun | hrun
        · rw [hrun.1]
        · cases hrun
      | some q =>
        simp only [applyChildren] at hrun
        cases hq : applyData data f q h pos with
        | undef => rw [hq] at hrun; simp at hrun
        | timeout => rw [hq] at hrun; simp at hrun
        | overrun h2 p2 =>
          rw [hq] at hrun
          simp only [Applied.overrun.injEq] at hrun
          rcases hrun with hrun | hrun
          · cases hrun
          · rw [← hrun.1]
            exact ih.1 _ _ _ _ _ (Or.inr hq)
        | done h2 p2 =>
          rw [hq] at hrun
          simp only at hrun
          cases hpd : h2[q]? with
          | none => rw [hpd] at hrun; simp at hrun
          | some pd =>
            rw [hpd] at hrun
            exact (ih.2 _ _ _ _ _ hrun).trans (ih.1 _ _ _ _ _ (Or.inl hq))

/-- C16: `applyData` never restructures the heap. Whenever a call of `applyData`, on any
heap, buffer and cursor, has returned (or has stopped at a read past the end
of the buffer), the heap has the same addresses; every node has the same
name, offset, channel count, `numChildren`, parent, `children` and `next` as
before, so only `channelData` can differ; every list of children reads as
before in the same order, and the heap holds the same shapes: a tree before
is the same tree after. -/
theorem applyData_keeps_structure {V : Type} (data : List V) (fuel root : Nat)
    (h h1 : Heap V) (pos p1 : Nat)
    (hrun : applyData data fuel root h pos = .done h1 p1 ∨
      applyData data fuel root h pos = .overrun h1 p1) :
    h1.length = h.length ∧
    (∀ (a : Nat) (nd : Node V), h[a]? = some nd →
      ∃ nd1, h1[a]? = some nd1 ∧ nd1.name = nd.name ∧ nd1.offset = nd.offset ∧
        nd1.channels = nd.channels ∧ nd1.numChildren = nd.numChildren ∧
        nd1.parent = nd.parent ∧ nd1.children = nd.children ∧ nd1.next = nd.next) ∧
    (∀ (ptr : Option Nat) (l : List Nat), siblings h ptr l = true → siblings h1 ptr l = true) ∧
    (∀ (kids : Shape), isTree h root kids → isTree h1 root kids) := by
  have hsk := (apply_skeleton data fuel).1 root h pos h1 p1 hrun
  refine ⟨?_, ?_, ?_, ?_⟩
  · have := congrArg List.length hsk
    simpa using this
  · intro a nd ha
    obtain ⟨nd1, h1a, hs⟩ := skel_some hsk ha
    exact ⟨nd1, h1a, skeleton_fields hs⟩
  · intro ptr l hl
    refine siblings_congr h h1 ptr l ?_ hl
    intro a _
    have := skel_getElem? hsk a
    cases h1a : h1[a]? with
    | none =>
      cases ha : h[a]? with
      | none => rfl
      | some nd => rw [h1a, ha] at this; simp at this
    | some nd1 =>
      cases ha : h[a]? with
      | none => rw [h1a, ha] at this; simp at this
      | some nd =>
        rw [h1a, ha] at this
        simp only [Option.map_some', Option.some.injEq] at this
        simp only [Option.map_some', Option.some.injEq]
        exact (skeleton_fields this).2.2.2.2.2.2
  · intro kids ht
    exact ⟨reprs_congr hsk _ _ _ ht.1, ht.2⟩

/-- C16, witness: frame `[1, 2, 3, 4, 5, 6]` applied to `chainHeap` gives `chainHeapApplied`,
which has the same links and fields apart from `channelData`. -/
theorem applyData_keeps_structure_witness :
    (applyData ([1, 2, 3, 4, 5, 6] : List Int) 10 0 chainHeap 0 = .done chainHeapApplied 6 ∨
      applyData ([1, 2, 3, 4, 5, 6] : List Int) 10 0 chainHeap 0 = .overrun chainHeapApplied 6) ∧
    (chainHeapApplied.length = chainHeap.length ∧
    (∀ (a : Nat) (nd : Node Int), chainHeap[a]? = some nd →
      ∃ nd1, chainHeapApplied[a]? = some nd1 ∧ nd1.name = nd.name ∧ nd1.offset = nd.offset ∧
        nd1.channels = nd.channels ∧ nd1.numChildren = nd.numChildren ∧
        nd1.parent = nd.parent ∧ nd1.children = nd.children ∧ nd1.next = nd.next) ∧
    (∀ (ptr : Option Nat) (l : List Nat),
      siblings chainHeap ptr l = true → siblings chainHeapApplied ptr l = true) ∧
    (∀ (kids : Shape), isTree chainHeap 0 kids → isTree chainHeapApplied 0 kids)) :=
  ⟨Or.inl (by decide),
   applyData_keeps_structure [1, 2, 3, 4, 5, 6] 10 0 chainHeap chainHeapApplied 0 6
     (Or.inl (by decide))⟩

/-! ## Slices of the frame buffer (C19) -/

theorem taken_of_leavesBare {V : Type} (h : Heap V) (as : List Nat)
    (hl : leavesBare h as = true) (a : Nat) (ha : a ∈ as) : taken h a = channelsOf h a := by
  simp only [leavesBare, List.all_eq_true] at hl
  have := hl a ha
  unfold taken channelsOf
  cases hnd : h[a]? with
  | none => rfl
  | some nd =>
    rw [hnd] at this
    simp only [decide_eq_true_eq] at this
    by_cases hz : nd.numChildren = 0
    · simp [hz, this hz]
    · simp [hz]

theorem takenSum_of_leavesBare {V : Type} (h : Heap V) (as l : List Nat)
    (hl : leavesBare h as = true) (hsub : ∀ a ∈ l, a ∈ as) : takenSum h l = channelSum h l := by
  unfold takenSum channelSum
  congr 1
  exact List.map_congr_left (fun a ha => taken_of_leavesBare h as hl a (hsub a ha))

/-- C19: on a tree whose buffers fit and in which every node without children has
channel count 0, with a buffer holding at least `pos + S` values, `S` the sum
of the channel counts of all nodes, `applyData` started at cursor `pos` returns
with the cursor at `pos + S`, and the `i`-th node of the pre-order has as its
`channelData` the slice of the buffer that starts at `pos` plus the channel
counts of the nodes before it and has the length of its channel count; its
other fields are as before. -/
theorem applyData_assigns_slices {V : Type} (data : List V) (h : Heap V)
    (root : Nat) (kids : Shape) (pos fuel : Nat) (ht : isTree h root kids)
    (hb : buffersFit h (root :: kids.addrs) = true)
    (hl : leavesBare h (root :: kids.addrs) = true)
    (hd : pos + channelSum h (root :: kids.addrs) ≤ data.length)
    (hf : 2 * kids.size + 2 ≤ fuel) :
    ∃ h', applyData data fuel root h pos
        = .done h' (pos + channelSum h (root :: kids.addrs)) ∧
      ∀ (i a : Nat) (nd : Node V), (root :: kids.addrs)[i]? = some a → h[a]? = some nd →
        h'[a]? = some { nd with
          channelData := slice data (pos + channelSum h ((root :: kids.addrs).take i))
            nd.channels.toNat } := by
  have hT := takenSum_of_leavesBare h _ _ hl (fun a ha => ha)
  refine ⟨applied data (root :: kids.addrs) h pos, ?_, ?_⟩
  · rw [applyData_tree data h root kids pos fuel ht hb hf, hT, if_pos (Or.inr hd)]
  · intro i a nd hi ha
    rw [applied_getElem? data _ h pos i a nd ht.2 hi ha]
    have hTi := takenSum_of_leavesBare h _ ((root :: kids.addrs).take i) hl
      (fun x hx => List.mem_of_mem_take hx)
    obtain ⟨nd', hnd', hlen⟩ := (buffersFit_iff _ _).1 hb a (List.getElem?_mem hi)
    rw [ha] at hnd'
    cases hnd'
    rw [hTi]
    by_cases hz : nd.numChildren = 0
    · have hc : nd.channels = 0 := by
        simp only [leavesBare, List.all_eq_true] at hl
        have h2 := hl a (List.getElem?_mem hi)
        rw [ha] at h2
        simp only [decide_eq_true_eq] at h2
        exact h2 hz
      have hcd : nd.channelData = [] := by
        apply List.eq_nil_of_length_eq_zero
        rw [hlen, hc]
        rfl
      cases nd
      simp only at hcd hc hz
      subst hcd hc hz
      simp [fillNode, slice_zero]
    · simp only [fillNode, hz, if_false]
      have hle := takenSum_take_le h _ i a hi
      have hta : taken h a = nd.channels.toNat := by simp [taken, ha, hz]
      rw [hT, hTi] at hle
      have hslen : (slice data (pos + channelSum h ((root :: kids.addrs).take i))
          nd.channels.toNat).length = nd.channelData.length := by
        rw [slice_length, hlen]
        omega
      simp [overwrite, hslen]

/-- C19, witness: the tree `A(3) -> B(3) -> End Site(0)` and the buffer `[9, 1, 2, 3, 4, 5, 6]`
from cursor 1: `A` is given the slice at 1, `B` the slice at 4, the End
Site the empty slice at 7, and the cursor ends at 7. -/
theorem applyData_assigns_slices_witness :
    (isTree chainHeap 0 chainKids ∧ buffersFit chainHeap (0 :: chainKids.addrs) = true ∧
      leavesBare chainHeap (0 :: chainKids.addrs) = true ∧
      1 + channelSum chainHeap (0 :: chainKids.addrs) ≤ ([9, 1, 2, 3, 4, 5, 6] : List Int).length ∧
      2 * chainKids.size + 2 ≤ 10) ∧
    (∃ h', applyData ([9, 1, 2, 3, 4, 5, 6] : List Int) 10 0 chainHeap 1
        = .done h' (1 + channelSum chainHeap (0 :: chainKids.addrs)) ∧
      ∀ (i a : Nat) (nd : Node Int), (0 :: chainKids.addrs)[i]? = some a →
        chainHeap[a]? = some nd →
        h'[a]? = some { nd with
          channelData := slice [9, 1, 2, 3, 4, 5, 6]
            (1 + channelSum chainHeap ((0 :: chainKids.addrs).take i)) nd.channels.toNat }) ∧
    applyData ([9, 1, 2, 3, 4, 5, 6] : List Int) 10 0 chainHeap 1 = .done chainHeapApplied 7 :=
  ⟨⟨⟨by decide, by decide⟩, by decide, by decide, by decide, by decide⟩,
   applyData_assigns_slices [9, 1, 2, 3, 4, 5, 6] chainHeap 0 chainKids 1 10
     ⟨by decide, by decide⟩ (by decide) (by decide) (by decide) (by decide),
   by decide⟩

/-! ## The loop of `parseBody`, one line at a time -/

theorem parseBodyLoop_step {V : Type} [Zero V] (scanF : List Char → Option (V × List Char))
    (fuel p : Nat) (lvl : Int) (h : Heap V) (file : List Char) :
    parseBodyLoop scanF (fuel + 1) p lvl h file =
      match fgets MAX_LINE_LENGTH file with
      | none => .ret (some p, h, file)
      | some (buf, rest) =>
        match lineAct scanF h[p]? lvl ( trim_prefix (cstr buf)) rest with
        | .skip l => parseBodyLoop scanF fuel p l h rest
        | .close => .ret (some p, h, rest)
        | .fail r => .ret (none, h, r)
        | .update l nd => parseBodyLoop scanF fuel p l (h.put p nd) rest
        | .joint l childName =>
          match createNode childName (some p) 0 0 0 0 h with
          | .undef => .undef
          | .timeout => .timeout
          | .ret (child, h1) =>
            match parseBodyLoop scanF fuel child 1 h1 rest with
            | .undef => .undef
            | .timeout => .timeout
            | .ret (none, h2, rest2) => .ret (none, h2, rest2)
            | .ret (some _, h2, rest2) => parseBodyLoop scanF fuel p l h2 rest2
        | .endSite off rest2 =>
          match createNode "End Site".toList (some p) 0 off.1 off.2.1 off.2.2 h with
          | .undef => .undef
          | .timeout => .timeout
          | .ret (endSite, h1) => .ret (some endSite, h1, rest2)
        | .undef => .undef := by
  rw [parseBodyLoop]
  cases hfg : fgets MAX_LINE_LENGTH file with
  | none => simp only
  | some br =>
    obtain ⟨buf, rest⟩ := br
    simp only [lineAct]
    by_cases hb : ( trim_prefix (cstr buf)).head? = none ∨ ( trim_prefix (cstr buf)).head? = some '\n'
    · simp only [hb, if_true]
    · simp only [hb, if_false]
      generalize (if strchr ( trim_prefix (cstr buf)) (Char.ofNat 125) = true then
          (if strchr ( trim_prefix (cstr buf)) (Char.ofNat 123) = true then lvl + 1 else lvl) - 1
        else if strchr ( trim_prefix (cstr buf)) (Char.ofNat 123) = true then lvl + 1 else lvl) = L
      by_cases hL : L = 0
      · simp only [hL, if_true]
      · simp only [hL, if_false]
        cases scanStr none ( trim_prefix (cstr buf)) with
        | none => simp only
        | some keyword =>
          simp only
          by_cases h1 : keyword = "OFFSET".toList
          · simp only [h1, if_true]
            cases sscanfOffset scanF ( trim_prefix (cstr buf)) with
            | none => simp only
            | some off =>
              simp only
              cases h[p]? with
              | none => simp only
              | some pn => simp only
          · simp only [h1, if_false]
            by_cases h2 : keyword = "CHANNELS".toList
            · simp only [h2, if_true]
              cases sscanfChannels ( trim_prefix (cstr buf)) with
              | none => simp only
              | some n =>
                simp only
                cases h[p]? with
                | none => simp only
                | some pn => simp only
            · simp only [h2, if_false]
              by_cases h3 : keyword = "JOINT".toList
              · simp only [h3, if_true]
                cases sscanfName "JOINT".toList 63 ( trim_prefix (cstr buf)) with
                | none => simp only
                | some childName =>
                  simp only
              · simp only [h3, if_false]
                by_cases h4 : keyword = "End".toList
                · simp only [h4, if_true]
                  cases fgets MAX_LINE_LENGTH rest with
                  | none => simp only
                  | some br1 =>
                    obtain ⟨b1, rest1⟩ := br1
                    simp only
                    cases fgets MAX_LINE_LENGTH rest1 with
                    | none => simp only
                    | some br2 =>
                      obtain ⟨buf2, rest2⟩ := br2
                      simp only
                      cases sscanfEndOffset scanF (cstr buf2) with
                      | none => simp only
                      | some off =>
                        obtain ⟨x, y, z⟩ := off
                        simp only
                · simp only [h4, if_false]

/-! ## What `createNode` keeps of the nodes -/

theorem fieldsKept_refl {V : Type} (p : Nat) (h : Heap V) : fieldsKept p h h := by
  intro b nd hb
  exact ⟨nd, hb, rfl, rfl, rfl, rfl, rfl, fun _ => ⟨rfl, rfl⟩⟩

theorem fieldsKept_trans {V : Type} (p : Nat) (h1 h2 h3 : Heap V)
    (h12 : fieldsKept p h1 h2) (h23 : fieldsKept p h2 h3) : fieldsKept p h1 h3 := by
  intro b nd hb
  obtain ⟨nd2, hb2, e1, e2, e3, e4, e5, e6⟩ := h12 b nd hb
  obtain ⟨nd3, hb3, f1, f2, f3, f4, f5, f6⟩ := h23 b nd2 hb2
  refine ⟨nd3, hb3, f1.trans e1, f2.trans e2, f3.trans e3, f4.trans e4, f5.trans e5, ?_⟩
  intro hne
  exact ⟨(f6 hne).1.trans (e6 hne).1, (f6 hne).2.trans (e6 hne).2⟩

theorem fieldsKept_append {V : Type} (p : Nat) (h l : Heap V) : fieldsKept p h (h ++ l) := by
  intro b nd hb
  refine ⟨nd, ?_, rfl, rfl, rfl, rfl, rfl, fun _ => ⟨rfl, rfl⟩⟩
  have hlt : b < h.length := by
    by_contra hge
    rw [List.getElem?_eq_none (Nat.le_of_not_lt hge)] at hb
    cases hb
  rw [List.getElem?_append_left hlt]
  exact hb

theorem fieldsKept_put {V : Type} (p a : Nat) (h : Heap V) (nd nd' : Node V)
    (ha : h[a]? = some nd) (e1 : nd'.name = nd.name) (e2 : nd'.offset = nd.offset)
    (e3 : nd'.channels = nd.channels) (e4 : nd'.channelData = nd.channelData)
    (e5 : nd'.parent = nd.parent)
    (e6 : a ≠ p → nd'.children = nd.children ∧ nd'.numChildren = nd.numChildren) :
    fieldsKept p h (h.put a nd') := by
  intro b nb hb
  rw [put_getElem?]
  by_cases hab : a = b
  · subst hab
    rw [ha] at hb
    cases hb
    rw [if_pos rfl, ha]
    exact ⟨nd', rfl, e1, e2, e3, e4, e5, e6⟩
  · rw [if_neg hab]
    exact ⟨nb, hb, rfl, rfl, rfl, rfl, rfl, fun _ => ⟨rfl, rfl⟩⟩

theorem createNode_frame {V : Type} [Zero V] (name : List Char) (nc : Int) (ofx ofy ofz : V)
    (h h' : Heap V) (p a : Nat) (hp : p < h.length)
    (hc : createNode name (some p) nc ofx ofy ofz h = .ret (a, h')) :
    a = h.length ∧ h'.length = h.length + 1 ∧ name.length < MAX_NAME_LENGTH ∧
    (∃ nn, h'[a]? = some nn ∧ nn.name = name ∧ nn.offset = (ofx, ofy, ofz) ∧
      nn.channels = nc ∧ nn.channelData = List.replicate nc.toNat 0 ∧ nn.numChildren = 0 ∧
      nn.parent = some p ∧ nn.children = none) ∧
    fieldsKept p h h' := by
  unfold createNode at hc
  split at hc
  · cases hc
  · rename_i hname
    simp only at hc
    have hfresh : (h ++ [freshNode name (some p) nc ofx ofy ofz])[h.length]?
        = some (freshNode name (some p) nc ofx ofy ofz) := by
      simp
    have hk1 := fieldsKept_append p h [freshNode name (some p) nc ofx ofy ofz]
    have hne : p ≠ h.length := Nat.ne_of_lt hp
    split at hc
    · cases hc
    · rename_i pn hpn
      split at hc
      · simp only [Run.ret.injEq, Prod.mk.injEq] at hc
        obtain ⟨rfl, rfl⟩ := hc
        refine ⟨rfl, by simp [put_length], Nat.lt_of_not_le hname, ?_, ?_⟩
        · refine ⟨freshNode name (some p) nc ofx ofy ofz, ?_, rfl, rfl, rfl, rfl, rfl, rfl, rfl⟩
          rw [put_getElem?, if_neg hne, hfresh]
        · exact fieldsKept_trans p _ _ _ hk1
            (fieldsKept_put p p _ pn _ hpn rfl rfl rfl rfl rfl (fun hpp => absurd rfl hpp))
      · split at hc
        · cases hc
        · cases hc
        · rename_i last hlast
          split at hc
          · cases hc
          · rename_i ln hln
            split at hc
            · cases hc
            · rename_i pn2 hpn2
              simp only [Run.ret.injEq, Prod.mk.injEq] at hc
              obtain ⟨rfl, rfl⟩ := hc
              have hk2 := fieldsKept_put p last _ ln { ln with next := some h.length } hln
                rfl rfl rfl rfl rfl (fun _ => ⟨rfl, rfl⟩)
              have hk3 := fieldsKept_put p p _ pn2
                { pn2 with numChildren := pn2.numChildren + 1 } hpn2
                rfl rfl rfl rfl rfl (fun hpp => absurd rfl hpp)
              refine ⟨rfl, by simp [put_length], Nat.lt_of_not_le hname, ?_,
                fieldsKept_trans p _ _ _ hk1 (fieldsKept_trans p _ _ _ hk2 hk3)⟩
              obtain ⟨n2, hn2, e1, e2, e3, e4, e5, e6⟩ :=
                fieldsKept_trans p _ _ _ hk2 hk3 h.length _ hfresh
              exact ⟨n2, hn2, e1, e2, e3, e4, (e6 (Ne.symm hne)).2, e5, (e6 (Ne.symm hne)).1⟩
theorem lineAct_inv {V : Type} [Zero V] (scanF : List Char → Option (V × List Char))
    (pn : Option (Node V)) (lvl : Int) (line rest : List Char) :
    match lineAct scanF pn lvl line rest with
    | .skip l => l = lvl ∨ (l = levelAfter lvl line ∧ l ≠ 0)
    | .close => True
    | .fail r => r <:+ rest
    | .update l nd => (l = levelAfter lvl line ∧ l ≠ 0) ∧ ∃ p0, pn = some p0 ∧
        ((∃ off, nd = { p0 with offset := off }) ∨
         (∃ n : Int, nd = { p0 with channels := n, channelData := List.replicate n.toNat 0 }))
    | .joint l childName => (l = levelAfter lvl line ∧ l ≠ 0) ∧
        sscanfName "JOINT".toList 63 line = some childName
    | .endSite off rest2 => scanStr none line = some "End".toList ∧
        ∃ buf1 rest1 buf2, fgets MAX_LINE_LENGTH rest = some (buf1, rest1) ∧
          fgets MAX_LINE_LENGTH rest1 = some (buf2, rest2) ∧
          sscanfEndOffset scanF (cstr buf2) = some off
    | .undef => pn = none := by
  simp only [lineAct]
  by_cases hb : line.head? = none ∨ line.head? = some '\n'
  · simp only [hb, if_true, true_or]
  · simp only [hb, if_false]
    have hlev : (if strchr line (Char.ofNat 125) = true then
          (if strchr line (Char.ofNat 123) = true then lvl + 1 else lvl) - 1
        else if strchr line (Char.ofNat 123) = true then lvl + 1 else lvl) = levelAfter lvl line := rfl
    rw [hlev]
    generalize levelAfter lvl line = L
    by_cases hL : L = 0
    · simp only [hL, if_true]
    · simp only [hL, if_false]
      cases hkw : scanStr none line with
      | none => simp [hL]
      | some keyword =>
        simp only
        by_cases h1 : keyword = "OFFSET".toList
        · simp only [h1, if_true]
          cases sscanfOffset scanF line with
          | none => simp
          | some off =>
            simp only
            cases pn with
            | none => simp only
            | some p0 => exact ⟨⟨rfl, hL⟩, p0, rfl, Or.inl ⟨off, rfl⟩⟩
        · simp only [h1, if_false]
          by_cases h2 : keyword = "CHANNELS".toList
          · simp only [h2, if_true]
            cases sscanfChannels line with
            | none => simp
            | some n =>
              simp only
              cases pn with
              | none => simp only
              | some p0 => exact ⟨⟨rfl, hL⟩, p0, rfl, Or.inr ⟨n, rfl⟩⟩
          · simp only [h2, if_false]
            by_cases h3 : keyword = "JOINT".toList
            · simp only [h3, if_true]
              cases hn : sscanfName "JOINT".toList 63 line with
              | none => simp
              | some childName => exact ⟨⟨rfl, hL⟩, rfl⟩
            · simp only [h3, if_false]
              by_cases h4 : keyword = "End".toList
              · simp only [h4, if_true]
                cases hf1 : fgets MAX_LINE_LENGTH rest with
                | none => simp
                | some br1 =>
                  obtain ⟨b1, rest1⟩ := br1
                  simp only
                  have hs1 : rest1 <:+ rest := by
                    have := fgetsAux_append (MAX_LINE_LENGTH - 1) rest
                    cases rest with
                    | nil => simp [fgets] at hf1
                    | cons c t =>
                      simp only [fgets, Option.some.injEq] at hf1
                      rw [hf1] at this
                      exact ⟨b1, this⟩
                  cases hf2 : fgets MAX_LINE_LENGTH rest1 with
                  | none => exact hs1
                  | some br2 =>
                    obtain ⟨buf2, rest2⟩ := br2
                    simp only
                    have hs2 : rest2 <:+ rest1 := by
                      have := fgetsAux_append (MAX_LINE_LENGTH - 1) rest1
                      cases rest1 with
                      | nil => simp [fgets] at hf2
                      | cons c t =>
                        simp only [fgets, Option.some.injEq] at hf2
                        rw [hf2] at this
                        exact ⟨buf2, this⟩
                    cases he : sscanfEndOffset scanF (cstr buf2) with
                    | none => exact hs2.trans hs1
                    | some off =>
                      refine ⟨trivial, b1, rest1, buf2, ?_, hf2, he⟩
                      rfl
              · simp only [h4, if_false]
                exact Or.inr ⟨trivial, hL⟩

/-! ## The nodes the parser makes (C14, C15) -/

theorem fgets_suffix (n : Nat) (s buf rest : List Char) (hfg : fgets n s = some (buf, rest)) :
    buf ++ rest = s ∧ rest <:+ s := by
  cases s with
  | nil => simp [fgets] at hfg
  | cons c t =>
    simp only [fgets, Option.some.injEq] at hfg
    have := fgetsAux_append (n - 1) (c :: t)
    rw [hfg] at this
    exact ⟨this, buf, this⟩

theorem scanStr_nospace (width : Option Nat) (s tok : List Char)
    (hs : scanStr width s = some tok) : ∀ c ∈ tok, isspace c = false := by
  unfold scanStr at hs
  simp only at hs
  split at hs
  · cases hs
  · simp only [Option.some.injEq] at hs
    subst hs
    intro c hc
    have hc2 : c ∈ (s.dropWhile isspace).takeWhile (fun c => !isspace c) := by
      cases width with
      | none => exact hc
      | some w => exact List.mem_of_mem_take hc
    have := List.mem_takeWhile_imp hc2
    simpa using this

theorem sscanfName_ne_endSite (word : List Char) (width : Nat) (line name : List Char)
    (hs : sscanfName word width line = some name) : name ≠ "End Site".toList := by
  unfold sscanfName at hs
  split at hs
  · cases hs
  · intro hname
    have := scanStr_nospace _ _ _ hs ' ' (by rw [hname]; decide)
    revert this
    decide

theorem namesKept_of_fieldsKept {V : Type} (p : Nat) (h h' : Heap V)
    (hk : fieldsKept p h h') : namesKept h h' := by
  intro a nd ha
  obtain ⟨nd', ha', e1, _⟩ := hk a nd ha
  exact ⟨nd', ha', e1⟩

theorem namesKept_trans {V : Type} (h1 h2 h3 : Heap V)
    (h12 : namesKept h1 h2) (h23 : namesKept h2 h3) : namesKept h1 h3 := by
  intro a nd ha
  obtain ⟨nd2, ha2, e2⟩ := h12 a nd ha
  obtain ⟨nd3, ha3, e3⟩ := h23 a nd2 ha2
  exact ⟨nd3, ha3, e3.trans e2⟩

theorem parseBodyLoop_nodes {V : Type} [Zero V] (scanF : List Char → Option (V × List Char))
    (file0 : List Char) :
    ∀ (fuel p : Nat) (lvl : Int) (h : Heap V) (s : List Char) (r : Option Nat)
      (h' : Heap V) (s' : List Char),
      s <:+ file0 → (∃ pn, h[p]? = some pn ∧ pn.name ≠ "End Site".toList) →
      endSitesOk scanF file0 h → buffersOk h →
      parseBodyLoop scanF fuel p lvl h s = .ret (r, h', s') →
      s' <:+ file0 ∧ endSitesOk scanF file0 h' ∧ buffersOk h' ∧ namesKept h h' := by
  intro fuel
  induction fuel with
  | zero =>
    intro p lvl h s r h' s' _ _ _ _ hrun
    simp [parseBodyLoop] at hrun
  | succ fuel ih =>
    intro p lvl h s r h' s' hs hp he hb hrun
    obtain ⟨pn, hpn, hpname⟩ := hp
    have hplt : p < h.length := by
      by_contra hge
      rw [List.getElem?_eq_none (Nat.le_of_not_lt hge)] at hpn
      cases hpn
    rw [parseBodyLoop_step] at hrun
    cases hfg : fgets MAX_LINE_LENGTH s with
    | none =>
      rw [hfg] at hrun
      simp only [Run.ret.injEq, Prod.mk.injEq] at hrun
      obtain ⟨_, rfl, rfl⟩ := hrun
      exact ⟨hs, he, hb, fun a nd ha => ⟨nd, ha, rfl⟩⟩
    | some br =>
      obtain ⟨buf, rest⟩ := br
      rw [hfg] at hrun
      simp only at hrun
      have hrs : rest <:+ file0 := (fgets_suffix _ _ _ _ hfg).2.trans hs
      have hinv := lineAct_inv scanF h[p]? lvl ( trim_prefix (cstr buf)) rest
      cases hact : lineAct scanF h[p]? lvl ( trim_prefix (cstr buf)) rest with
      | skip l =>
        rw [hact] at hrun
        exact ih _ _ _ _ _ _ _ hrs ⟨pn, hpn, hpname⟩ he hb hrun
      | close =>
        rw [hact] at hrun
        simp only [Run.ret.injEq, Prod.mk.injEq] at hrun
        obtain ⟨_, rfl, rfl⟩ := hrun
        exact ⟨hrs, he, hb, fun a nd ha => ⟨nd, ha, rfl⟩⟩
      | fail r0 =>
        rw [hact] at hrun hinv
        simp only [Run.ret.injEq, Prod.mk.injEq] at hrun
        obtain ⟨_, rfl, rfl⟩ := hrun
        exact ⟨hinv.trans hrs, he, hb, fun a nd ha => ⟨nd, ha, rfl⟩⟩
      | undef =>
        rw [hact] at hrun
        cases hrun
      | update l nd =>
        rw [hact] at hrun hinv
        simp only at hrun hinv
        obtain ⟨_, p0, hp0, hform⟩ := hinv
        rw [hpn] at hp0
        cases hp0
        have hname : nd.name = pn.name := by
          rcases hform with ⟨off, rfl⟩ | ⟨n, rfl⟩ <;> rfl
        have hlinks : nd.children = pn.children ∧ nd.numChildren = pn.numChildren := by
          rcases hform with ⟨off, rfl⟩ | ⟨n, rfl⟩ <;> exact ⟨rfl, rfl⟩
        have hput : (h.put p nd)[p]? = some nd := by
          rw [put_getElem?, if_pos rfl, hpn]
          rfl
        have he1 : endSitesOk scanF file0 (h.put p nd) := by
          intro a na ha hn
          by_cases hap : p = a
          · subst hap
            rw [hput] at ha
            cases ha
            exact absurd (hname ▸ hn) hpname
          · rw [put_getElem?, if_neg hap] at ha
            exact he a na ha hn
        have hb1 : buffersOk (h.put p nd) := by
          intro a na ha
          by_cases hap : p = a
          · subst hap
            rw [hput] at ha
            cases ha
            rcases hform with ⟨off, rfl⟩ | ⟨n, rfl⟩
            · exact hb p pn hpn
            · simp
          · rw [put_getElem?, if_neg hap] at ha
            exact hb a na ha
        have hn1 : namesKept h (h.put p nd) := by
          intro a na ha
          by_cases hap : p = a
          · subst hap
            rw [hpn] at ha
            cases ha
            exact ⟨nd, hput, hname⟩
          · exact ⟨na, by rw [put_getElem?, if_neg hap]; exact ha, rfl⟩
        obtain ⟨r1, r2, r3, r4⟩ := ih _ _ _ _ _ _ _ hrs ⟨nd, hput, hname ▸ hpname⟩ he1 hb1 hrun
        exact ⟨r1, r2, r3, namesKept_trans _ _ _ hn1 r4⟩
      | joint l childName =>
        rw [hact] at hrun hinv
        simp only at hrun hinv
        have hcn := sscanfName_ne_endSite _ _ _ _ hinv.2
        cases hc : createNode childName (some p) 0 0 0 0 h with
        | undef => rw [hc] at hrun; cases hrun
        | timeout => rw [hc] at hrun; cases hrun
        | ret ch =>
          obtain ⟨child, h1⟩ := ch
          rw [hc] at hrun
          simp only at hrun
          obtain ⟨rfl, hlen1, _, ⟨nn, hnn, n1, n2, n3, n4, n5, n6, n7⟩, hk⟩ :=
            createNode_frame _ _ _ _ _ _ _ _ _ hplt hc
          have he1 : endSitesOk scanF file0 h1 := by
            intro a na ha hn
            by_cases hal : a < h.length
            · obtain ⟨na', ha', e1, e2, e3, e4, _, e6⟩ := hk a _ (List.getElem?_eq_getElem hal)
              rw [ha] at ha'
              cases ha'
              have hap : a ≠ p := by
                rintro rfl
                rw [List.getElem?_eq_getElem hal] at hpn
                cases hpn
                exact hpname (e1 ▸ hn)
              obtain ⟨c1, c2, c3, c4, c5⟩ :=
                he a _ (List.getElem?_eq_getElem hal) (e1 ▸ hn)
              exact ⟨e3.trans c1, e4.trans c2, (e6 hap).2.trans c3, (e6 hap).1.trans c4,
                e2 ▸ c5⟩
            · have hah : a = h.length := by
                have : a < h1.length := by
                  by_contra hge
                  rw [List.getElem?_eq_none (Nat.le_of_not_lt hge)] at ha
                  cases ha
                omega
              subst hah
              rw [hnn] at ha
              cases ha
              exact absurd (n1 ▸ hn) hcn
          have hb1 : buffersOk h1 := by
            intro a na ha
            by_cases hal : a < h.length
            · obtain ⟨na', ha', _, _, e3, e4, _, _⟩ := hk a _ (List.getElem?_eq_getElem hal)
              rw [ha] at ha'
              cases ha'
              rw [e3, e4]
              exact hb a _ (List.getElem?_eq_getElem hal)
            · have hah : a = h.length := by
                have : a < h1.length := by
                  by_contra hge
                  rw [List.getElem?_eq_none (Nat.le_of_not_lt hge)] at ha
                  cases ha
                omega
              subst hah
              rw [hnn] at ha
              cases ha
              rw [n3, n4]
              simp
          have hn1 := namesKept_of_fieldsKept p h h1 hk
          cases hin : parseBodyLoop scanF fuel h.length 1 h1 rest with
          | undef => rw [hin] at hrun; cases hrun
          | timeout => rw [hin] at hrun; cases hrun
          | ret x =>
            obtain ⟨r2, h2, rest2⟩ := x
            rw [hin] at hrun
            obtain ⟨q1, q2, q3, q4⟩ := ih _ _ _ _ _ _ _ hrs ⟨nn, hnn, n1 ▸ hcn⟩ he1 hb1 hin
            have hn2 := namesKept_trans _ _ _ hn1 q4
            cases r2 with
            | none =>
              simp only [Run.ret.injEq, Prod.mk.injEq] at hrun
              obtain ⟨_, rfl, rfl⟩ := hrun
              exact ⟨q1, q2, q3, hn2⟩
            | some v =>
              simp only at hrun
              obtain ⟨pn2, hpn2, e2⟩ := hn2 p pn hpn
              obtain ⟨t1, t2, t3, t4⟩ :=
                ih _ _ _ _ _ _ _ q1 ⟨pn2, hpn2, e2 ▸ hpname⟩ q2 q3 hrun
              exact ⟨t1, t2, t3, namesKept_trans _ _ _ hn2 t4⟩
      | endSite off rest2 =>
        rw [hact] at hrun hinv
        simp only at hrun hinv
        obtain ⟨hkw, buf1, rest1, buf2, hf1, hf2, hoff⟩ := hinv
        cases hc : createNode "End Site".toList (some p) 0 off.1 off.2.1 off.2.2 h with
        | undef => rw [hc] at hrun; cases hrun
        | timeout => rw [hc] at hrun; cases hrun
        | ret ch =>
          obtain ⟨e, h1⟩ := ch
          rw [hc] at hrun
          simp only [Run.ret.injEq, Prod.mk.injEq] at hrun
          obtain ⟨_, rfl, rfl⟩ := hrun
          obtain ⟨rfl, hlen1, _, ⟨nn, hnn, n1, n2, n3, n4, n5, n6, n7⟩, hk⟩ :=
            createNode_frame _ _ _ _ _ _ _ _ _ hplt hc
          have hr2 : rest2 <:+ file0 :=
            ((fgets_suffix _ _ _ _ hf2).2.trans (fgets_suffix _ _ _ _ hf1).2).trans hrs
          refine ⟨hr2, ?_, ?_, namesKept_of_fieldsKept p h _ hk⟩
          · intro a na ha hn
            by_cases hal : a < h.length
            · obtain ⟨na', ha', e1, e2, e3, e4, _, e6⟩ := hk a _ (List.getElem?_eq_getElem hal)
              rw [ha] at ha'
              cases ha'
              have hap : a ≠ p := by
                rintro rfl
                rw [List.getElem?_eq_getElem hal] at hpn
                cases hpn
                exact hpname (e1 ▸ hn)
              obtain ⟨c1, c2, c3, c4, c5⟩ :=
                he a _ (List.getElem?_eq_getElem hal) (e1 ▸ hn)
              exact ⟨e3.trans c1, e4.trans c2, (e6 hap).2.trans c3, (e6 hap).1.trans c4,
                e2 ▸ c5⟩
            · have hah : a = h.length := by
                have : a < h1.length := by
                  by_contra hge
                  rw [List.getElem?_eq_none (Nat.le_of_not_lt hge)] at ha
                  cases ha
                omega
              subst hah
              rw [hnn] at ha
              cases ha
              refine ⟨n3, by rw [n4]; rfl, n5, n7, ?_⟩
              rw [n2]
              exact ⟨s, buf, rest, buf1, rest1, buf2, rest2, hs, hfg, hkw, hf1, hf2, hoff⟩
          · intro a na ha
            by_cases hal : a < h.length
            · obtain ⟨na', ha', _, _, e3, e4, _, _⟩ := hk a _ (List.getElem?_eq_getElem hal)
              rw [ha] at ha'
              cases ha'
              rw [e3, e4]
              exact hb a _ (List.getElem?_eq_getElem hal)
            · have hah : a = h.length := by
                have : a < h1.length := by
                  by_contra hge
                  rw [List.getElem?_eq_none (Nat.le_of_not_lt hge)] at ha
                  cases ha
                omega
              subst hah
              rw [hnn] at ha
              cases ha
              rw [n3, n4]
              simp

theorem parseHierarchy_ret {V : Type} [Zero V] (scanF : List Char → Option (V × List Char))
    (file : List Char) (root : Nat) (h : Heap V)
    (hp : parseHierarchy scanF file = .ret (some (root, h))) :
    ∃ buf rest h0 rest1 v rest2, fgets MAX_LINE_LENGTH file = some (buf, rest) ∧
      parseRoot ([] : Heap V) rest = .ret (some root, h0, rest1) ∧
      parseBodyLoop scanF (rest1.length + 1) root 1 h0 rest1 = .ret (some v, h, rest2) := by
  unfold parseHierarchy at hp
  split at hp
  · cases hp
  · split at hp
    · cases hp
    · rename_i buf rest hfg
      split at hp
      · cases hp
      · cases hp
      · cases hp
      · rename_i root0 h0 rest1 hroot
        split at hp
        · cases hp
        · cases hp
        · cases hp
        · rename_i v h2 rest2 hbody
          simp only [Run.ret.injEq, Option.some.injEq, Prod.mk.injEq] at hp
          obtain ⟨rfl, rfl⟩ := hp
          exact ⟨buf, rest, h0, rest1, v, rest2, hfg, hroot, hbody⟩

theorem parseRoot_ret {V : Type} [Zero V] (file rest : List Char) (root : Nat) (h : Heap V)
    (hr : parseRoot ([] : Heap V) file = .ret (some root, h, rest)) :
    rest <:+ file ∧ root = 0 ∧ ∃ line name, sscanfName "ROOT".toList 19 line = some name ∧
      name.length < MAX_NAME_LENGTH ∧ h = [freshNode name none 6 0 0 0] := by
  unfold parseRoot at hr
  split at hr
  · simp at hr
  · rename_i buf rest0 hfg
    lift_lets at hr
    extract_lets line at hr
    split at hr
    · simp at hr
    · split at hr
      · simp at hr
      · rename_i name hname
        split at hr
        · rename_i r0 h1 hc
          simp only [Run.ret.injEq, Prod.mk.injEq, Option.some.injEq] at hr
          obtain ⟨rfl, rfl, rfl⟩ := hr
          by_cases hn : name.length < MAX_NAME_LENGTH
          · rw [createNode_null name 6 0 0 0 [] hn] at hc
            simp only [Run.ret.injEq, Prod.mk.injEq, List.length_nil, List.nil_append] at hc
            obtain ⟨rfl, rfl⟩ := hc
            exact ⟨(fgets_suffix _ _ _ _ hfg).2, rfl, line, name, hname, hn, rfl⟩
          · simp [createNode, Nat.le_of_not_lt hn] at hc
        · cases hr
        · cases hr

theorem parseHierarchy_nodes {V : Type} [Zero V] (scanF : List Char → Option (V × List Char))
    (file : List Char) (root : Nat) (h : Heap V)
    (hp : parseHierarchy scanF file = .ret (some (root, h))) :
    endSitesOk scanF file h ∧ buffersOk h := by
  obtain ⟨buf, rest, h0, rest1, v, rest2, hfg, hroot, hbody⟩ := parseHierarchy_ret _ _ _ _ hp
  obtain ⟨hs1, rfl, line, name, hname, _, rfl⟩ := parseRoot_ret _ _ _ _ hroot
  have hne := sscanfName_ne_endSite _ _ _ _ hname
  have hs : rest1 <:+ file := hs1.trans (fgets_suffix _ _ _ _ hfg).2
  have he0 : endSitesOk scanF file [freshNode name none 6 (0 : V) 0 0] := by
    intro a nd ha hn
    cases a with
    | zero =>
      simp only [List.getElem?_cons_zero, Option.some.injEq] at ha
      subst ha
      exact absurd hn hne
    | succ a => simp at ha
  have hb0 : buffersOk [freshNode name none 6 (0 : V) 0 0] := by
    intro a nd ha
    cases a with
    | zero =>
      simp only [List.getElem?_cons_zero, Option.some.injEq] at ha
      subst ha
      simp [freshNode]
    | succ a => simp at ha
  obtain ⟨_, r2, r3, _⟩ := parseBodyLoop_nodes scanF file _ 0 1 _ rest1 _ _ _ hs
    ⟨_, rfl, hne⟩ he0 hb0 hbody
  exact ⟨r2, r3⟩

/-- C14: in every tree `parseHierarchy` returns, every node named `End Site` has channel
count 0, an empty `channelData`, `numChildren` 0 and no `children`, and its offset is
the one `sscanf(line, " OFFSET %f %f %f", ...)` stores from the third line of an End
Site block of the file (the line with first word `End`, the next line, then
the OFFSET line). And no name stored by `sscanf(line, "ROOT %19s", ...)` or by
`sscanf(line, "JOINT %63s", ...)`, the names of the nodes made for ROOT and JOINT, is `End Site`:
the conversion `%s` stops at white space. -/
theorem endSite_is_bare_leaf {V : Type} [Zero V] (scanF : List Char → Option (V × List Char))
    (file : List Char) (root : Nat) (h : Heap V)
    (hp : parseHierarchy scanF file = .ret (some (root, h))) :
    (∀ (a : Nat) (nd : Node V), h[a]? = some nd → nd.name = "End Site".toList →
      nd.channels = 0 ∧ nd.channelData = [] ∧ nd.numChildren = 0 ∧ nd.children = none ∧
      endOffsetIn scanF file nd.offset) ∧
    (∀ (line name : List Char),
      sscanfName "ROOT".toList 19 line = some name ∨
        sscanfName "JOINT".toList 63 line = some name →
      name ≠ "End Site".toList) := by
  refine ⟨(parseHierarchy_nodes scanF file root h hp).1, ?_⟩
  intro line name hn
  rcases hn with hn | hn
  · exact sscanfName_ne_endSite _ _ _ _ hn
  · exact sscanfName_ne_endSite _ _ _ _ hn

/-- C14, witness: the tree of `twoChainsFile` has its two End Sites at the addresses 3 and
6, leaves without channels with the offsets `4 5 6` and `1 1 1` of their
blocks. -/
theorem endSite_is_bare_leaf_witness :
    parseHierarchy (V := Int) scanInt twoChainsFile = .ret (some (0, twoChainsHeap)) ∧
    ((∀ (a : Nat) (nd : Node Int), twoChainsHeap[a]? = some nd →
      nd.name = "End Site".toList →
      nd.channels = 0 ∧ nd.channelData = [] ∧ nd.numChildren = 0 ∧ nd.children = none ∧
      endOffsetIn scanInt twoChainsFile nd.offset) ∧
    (∀ (line name : List Char),
      sscanfName "ROOT".toList 19 line = some name ∨
        sscanfName "JOINT".toList 63 line = some name →
      name ≠ "End Site".toList)) :=
  ⟨by decide, endSite_is_bare_leaf scanInt twoChainsFile 0 twoChainsHeap (by decide)⟩

/-- C15, as the code has it: in every tree `parseHierarchy` returns, the `channelData` of each
node has as many entries as its channel count when that count is not
negative, and no entry when it is negative (`calloc` of a negative count gives
no buffer). The CHANNELS line sets this up for every integer `n` that
`sscanf(line, "CHANNELS %d", ...)` stores, negative ones included: on such a line, in a
joint body whose brace counter stays above 0, the loop of `parseBody` overwrites
the current joint with channel count `n` and a zeroed buffer of `n` entries
(none for `n < 0`). -/
theorem channelData_fits_channel_count {V : Type} [Zero V]
    (scanF : List Char → Option (V × List Char))
    (file : List Char) (root : Nat) (h : Heap V)
    (hp : parseHierarchy scanF file = .ret (some (root, h))) :
    (∀ (a : Nat) (nd : Node V), h[a]? = some nd →
      nd.channelData.length = nd.channels.toNat ∧
      (0 ≤ nd.channels → (nd.channelData.length : Int) = nd.channels) ∧
      (nd.channels < 0 → nd.channelData = [])) ∧
    (∀ (pn : Node V) (lvl n : Int) (line rest : List Char),
      ¬ (line.head? = none ∨ line.head? = some '\n') → levelAfter lvl line ≠ 0 →
      scanStr none line = some "CHANNELS".toList → sscanfChannels line = some n →
      lineAct scanF (some pn) lvl line rest
        = .update (levelAfter lvl line)
            { pn with channels := n, channelData := List.replicate n.toNat 0 }) := by
  refine ⟨?_, ?_⟩
  · intro a nd ha
    have hl := (parseHierarchy_nodes scanF file root h hp).2 a nd ha
    refine ⟨hl, ?_, ?_⟩
    · intro h0
      rw [hl]
      exact Int.toNat_of_nonneg h0
    · intro hneg
      apply List.eq_nil_of_length_eq_zero
      rw [hl]
      exact Int.toNat_eq_zero.2 (le_of_lt hneg)
  · intro pn lvl n line rest hblank hlev hkw hch
    have hlev2 : ¬ ((if strchr line (Char.ofNat 125) = true then
          (if strchr line (Char.ofNat 123) = true then lvl + 1 else lvl) - 1
        else if strchr line (Char.ofNat 123) = true then lvl + 1 else lvl) = 0) := hlev
    simp only [lineAct, hblank, if_false, hlev2, hkw, hch]
    simp only [show ¬ ("CHANNELS".toList = "OFFSET".toList) by decide, if_false, if_true]
    rfl

/-- C15, witness: the nodes of the tree of `twoChainsFile` have buffers of 6, 3 and 0
entries for the counts 6, 3 and 0. -/
theorem channelData_fits_channel_count_witness :
    parseHierarchy (V := Int) scanInt twoChainsFile = .ret (some (0, twoChainsHeap)) ∧
    ((∀ (a : Nat) (nd : Node Int), twoChainsHeap[a]? = some nd →
      nd.channelData.length = nd.channels.toNat ∧
      (0 ≤ nd.channels → (nd.channelData.length : Int) = nd.channels) ∧
      (nd.channels < 0 → nd.channelData = [])) ∧
    (∀ (pn : Node Int) (lvl n : Int) (line rest : List Char),
      ¬ (line.head? = none ∨ line.head? = some '\n') → levelAfter lvl line ≠ 0 →
      scanStr none line = some "CHANNELS".toList → sscanfChannels line = some n →
      lineAct scanInt (some pn) lvl line rest
        = .update (levelAfter lvl line)
            { pn with channels := n, channelData := List.replicate n.toNat 0 })) :=
  ⟨by decide, channelData_fits_channel_count scanInt twoChainsFile 0 twoChainsHeap (by decide)⟩

/-- C15, counterexample: the line `CHANNELS -3 X Y Z` is accepted. `parseHierarchy` returns the
tree, whose root has channel count -3 and a `channelData` of 0 entries: not "exactly
as many entries as its channel count". -/
theorem negative_channel_count_accepted :
    parseHierarchy (V := Int) scanInt negativeChannelsFile
      = .ret (some (0, negativeChannelsHeap)) ∧
    negativeChannelsHeap[0]?.map (fun nd => nd.channels) = some (-3) ∧
    negativeChannelsHeap[0]?.map (fun nd => nd.channelData.length) = some 0 ∧
    sscanfChannels "CHANNELS -3 X Y Z\n".toList = some (-3) :=
  ⟨by decide, by decide, by decide, by decide⟩

/-! ## Where `parseBody` stops reading (C18) -/

/-- C18, the code at the failing input: the file `sampleMinimal` (root `Hips` with one End
Site, then the two closing braces and the motion section). After the ROOT
line, `parseBody` called on the root returns the End Site node as soon as it has
read the OFFSET line of the End Site block (`return endSite`): the next unread
line is the closing brace of the End Site, the closing brace of the root
after it is unread too, and the first line after the closing brace of the
root, `MOTION`, is only the third unread line. -/
theorem parseBody_returns_before_closing_brace :
    parseRoot ([] : Heap Int) ("ROOT Hips\n".toList ++ sampleMinimal.body)
      = .ret (some 0, [freshNode "Hips".toList none 6 0 0 0], sampleMinimal.body) ∧
    parseBody scanInt (sampleMinimal.body.length + 1) 0
        [freshNode "Hips".toList none 6 (0 : Int) 0 0] sampleMinimal.body
      = .ret (some 1,
          [{ name := "Hips".toList, offset := (0, 0, 0), channels := 6,
             channelData := List.replicate 6 0,
             numChildren := 1, parent := none, children := some 1, next := none },
           { name := "End Site".toList, offset := (4, 5, 6), channels := 0, channelData := [],
             numChildren := 0, parent := some 0, children := none, next := none }],
          "  \x7d\n\x7d\nMOTION\nFrames: 1\nFrame Time: 0.1\n1 2 3 4 5 6\n".toList) ∧
    fgets MAX_LINE_LENGTH "  \x7d\n\x7d\nMOTION\nFrames: 1\nFrame Time: 0.1\n1 2 3 4 5 6\n".toList
      = some ("  \x7d\n".toList, "\x7d\nMOTION\nFrames: 1\nFrame Time: 0.1\n1 2 3 4 5 6\n".toList) :=
  ⟨by decide, by decide, by decide⟩

/-! ## `numChildren` counts the list of children (C20) -/

theorem mem_childrenOf {V : Type} (h : Heap V) (a x : Nat) :
    x ∈ childrenOf h a ↔ ∃ nd, h[x]? = some nd ∧ nd.parent = some a := by
  simp only [childrenOf, parentOf, List.mem_filter, List.mem_range, decide_eq_true_eq]
  constructor
  · rintro ⟨hx, hpar⟩
    rw [List.getElem?_eq_getElem hx] at hpar
    exact ⟨h[x], List.getElem?_eq_getElem hx, by simpa using hpar⟩
  · rintro ⟨nd, hnd, hpar⟩
    have hx : x < h.length := by
      by_contra hge
      rw [List.getElem?_eq_none (Nat.le_of_not_lt hge)] at hnd
      cases hnd
    exact ⟨hx, by rw [hnd]; simpa using hpar⟩

theorem childrenOf_congr {V : Type} (h h' : Heap V) (a : Nat) (hlen : h'.length = h.length)
    (hpar : ∀ (b : Nat), parentOf h' b = parentOf h b) :
    childrenOf h' a = childrenOf h a := by
  unfold childrenOf
  rw [hlen]
  exact List.filter_congr (fun b _ => by rw [hpar b])

theorem childrenOf_snoc {V : Type} (h h' : Heap V) (a : Nat) (nn : Node V)
    (hlen : h'.length = h.length + 1) (hnn : h'[h.length]? = some nn)
    (hpar : ∀ (b : Nat), b < h.length → parentOf h' b = parentOf h b) :
    childrenOf h' a = childrenOf h a ++ (if nn.parent = some a then [h.length] else []) := by
  unfold childrenOf
  rw [hlen, List.range_succ, List.filter_append]
  congr 1
  · exact List.filter_congr (fun b hb => by rw [hpar b (List.mem_range.1 hb)])
  · simp only [List.filter_cons, List.filter_nil, parentOf, hnn, Option.some_bind,
      decide_eq_true_eq]

theorem siblings_none {V : Type} (h : Heap V) (l : List Nat)
    (hs : siblings h none l = true) : l = [] := by
  cases l with
  | nil => rfl
  | cons a l =>
    obtain ⟨hp, _⟩ := (siblings_cons _ _ _ _).1 hs
    cases hp

theorem siblings_some {V : Type} (h : Heap V) (x : Nat) (l : List Nat)
    (hs : siblings h (some x) l = true) : l ≠ [] := by
  rintro rfl
  simp [siblings] at hs

theorem childrenOf_fresh {V : Type} (h : Heap V) (hc : counted h) :
    childrenOf h h.length = [] := by
  apply List.eq_nil_iff_forall_not_mem.2
  intro x hx
  obtain ⟨nd, hnd, hpar⟩ := (mem_childrenOf h _ x).1 hx
  exact absurd (hc.2 x nd _ hnd hpar) (Nat.lt_irrefl _)

theorem counted_write {V : Type} (h : Heap V) (a : Nat) (nd nd' : Node V)
    (hc : counted h) (ha : h[a]? = some nd)
    (h1 : nd'.parent = nd.parent) (h2 : nd'.children = nd.children)
    (h3 : nd'.next = nd.next) (h4 : nd'.numChildren = nd.numChildren) :
    counted (h.put a nd') := by
  have hpar : ∀ (b : Nat), parentOf (h.put a nd') b = parentOf h b := by
    intro b
    unfold parentOf
    rw [put_getElem?]
    by_cases hab : a = b
    · subst hab
      rw [if_pos rfl, ha]
      simp [h1]
    · rw [if_neg hab]
  have hnext : ∀ (b : Nat), ((h.put a nd')[b]?).map (fun x => x.next)
      = (h[b]?).map (fun x => x.next) := by
    intro b
    rw [put_getElem?]
    by_cases hab : a = b
    · subst hab
      rw [if_pos rfl, ha]
      simp [h3]
    · rw [if_neg hab]
  constructor
  · intro x nx hx
    rw [childrenOf_congr h _ x (put_length h a nd') hpar]
    rw [put_getElem?] at hx
    by_cases hax : a = x
    · subst hax
      rw [if_pos rfl, ha] at hx
      simp only [Option.map_some', Option.some.injEq] at hx
      subst hx
      rw [h2, h4]
      exact ⟨siblings_congr h _ _ _ (fun b _ => hnext b) (hc.1 a nd ha).1, (hc.1 a nd ha).2⟩
    · rw [if_neg hax] at hx
      exact ⟨siblings_congr h _ _ _ (fun b _ => hnext b) (hc.1 x nx hx).1, (hc.1 x nx hx).2⟩
  · intro b nb q hb hq
    rw [put_length]
    have := hpar b
    unfold parentOf at this
    rw [hb] at this
    cases hb0 : h[b]? with
    | none => rw [hb0] at this; simp [hq] at this
    | some nb0 =>
      rw [hb0] at this
      simp only [Option.some_bind] at this
      exact hc.2 b nb0 q hb0 (this ▸ hq)

theorem counted_create {V : Type} [Zero V] (h h' : Heap V) (name : List Char)
    (parent : Option Nat) (nc : Int) (ofx ofy ofz : V) (a : Nat) (hc : counted h)
    (hp : ∀ p, parent = some p → p < h.length)
    (hcr : createNode name parent nc ofx ofy ofz h = .ret (a, h')) : counted h' := by
  have hname : name.length < MAX_NAME_LENGTH := by
    by_contra hge
    simp [createNode, Nat.le_of_not_lt hge] at hcr
  have hfr := childrenOf_fresh h hc
  cases parent with
  | none =>
    rw [createNode_null name nc ofx ofy ofz h hname] at hcr
    simp only [Run.ret.injEq, Prod.mk.injEq] at hcr
    obtain ⟨rfl, rfl⟩ := hcr
    have hlen : (h ++ [freshNode name none nc ofx ofy ofz]).length = h.length + 1 := by simp
    have hnn : (h ++ [freshNode name none nc ofx ofy ofz])[h.length]?
        = some (freshNode name none nc ofx ofy ofz) := by simp
    have hold : ∀ (b : Nat), b < h.length →
        (h ++ [freshNode name none nc ofx ofy ofz])[b]? = h[b]? :=
      fun b hb => List.getElem?_append_left hb
    have hch : ∀ x, childrenOf (h ++ [freshNode name none nc ofx ofy ofz]) x
        = childrenOf h x := by
      intro x
      rw [childrenOf_snoc h _ x _ hlen hnn (fun b hb => by unfold parentOf; rw [hold b hb])]
      simp [freshNode]
    constructor
    · intro x nx hx
      rw [hch x]
      by_cases hxl : x < h.length
      · rw [hold x hxl] at hx
        refine ⟨siblings_congr h _ _ _ ?_ (hc.1 x nx hx).1, (hc.1 x nx hx).2⟩
        intro b hb
        obtain ⟨nb, hnb, _⟩ := (mem_childrenOf h x b).1 hb
        have hbl : b < h.length := by
          by_contra hge
          rw [List.getElem?_eq_none (Nat.le_of_not_lt hge)] at hnb
          cases hnb
        rw [hold b hbl]
      · have hxe : x = h.length := by
          have : x < (h ++ [freshNode name none nc ofx ofy ofz]).length := by
            by_contra hge
            rw [List.getElem?_eq_none (Nat.le_of_not_lt hge)] at hx
            cases hx
          omega
        subst hxe
        rw [hnn] at hx
        cases hx
        rw [hfr]
        exact ⟨by simp [siblings, freshNode], by simp [freshNode]⟩
    · intro b nb q hb hq
      rw [hlen]
      by_cases hbl : b < h.length
      · rw [hold b hbl] at hb
        exact Nat.lt_succ_of_lt (hc.2 b nb q hb hq)
      · have hbe : b = h.length := by
          have : b < (h ++ [freshNode name none nc ofx ofy ofz]).length := by
            by_contra hge
            rw [List.getElem?_eq_none (Nat.le_of_not_lt hge)] at hb
            cases hb
          omega
        subst hbe
        rw [hnn] at hb
        cases hb
        simp [freshNode] at hq
  | some p =>
    have hpl := hp p rfl
    have hpn : h[p]? = some h[p] := List.getElem?_eq_getElem hpl
    obtain ⟨hsib, hnum⟩ := hc.1 p _ hpn
    obtain ⟨h2, hc2, hlen, hnn, hrel⟩ :=
      createNode_spec name nc ofx ofy ofz h p _ (childrenOf h p) hname hpn hsib
    rw [hc2] at hcr
    simp only [Run.ret.injEq, Prod.mk.injEq] at hcr
    obtain ⟨rfl, rfl⟩ := hcr
    have hallocated : ∀ (b : Nat) (hb : b < h.length),
        h2[b]? = some (relink p h.length (childrenOf h p) b h[b]) :=
      fun b hb => hrel b _ (List.getElem?_eq_getElem hb)
    have hpar : ∀ (b : Nat), b < h.length → parentOf h2 b = parentOf h b := by
      intro b hb
      unfold parentOf
      rw [hallocated b hb, List.getElem?_eq_getElem hb]
      rfl
    have hch : ∀ x, childrenOf h2 x
        = childrenOf h x ++ (if some p = some x then [h.length] else []) := by
      intro x
      rw [childrenOf_snoc h _ x _ hlen hnn hpar]
      rfl
    have hlt : ∀ (x : Nat) (nx : Node V), h2[x]? = some nx → x < h.length ∨ x = h.length := by
      intro x nx hx
      have : x < h2.length := by
        by_contra hge
        rw [List.getElem?_eq_none (Nat.le_of_not_lt hge)] at hx
        cases hx
      omega
    constructor
    · intro x nx hx
      rw [hch x]
      rcases hlt x nx hx with hxl | rfl
      · rw [hallocated x hxl] at hx
        simp only [Option.some.injEq] at hx
        subst hx
        obtain ⟨hsx, hnx⟩ := hc.1 x _ (List.getElem?_eq_getElem hxl)
        by_cases hxp : p = x
        · subst hxp
          simp only [if_true]
          constructor
          · have := siblings_snoc h h2 h.length _ (childrenOf h p) _ hsib hnn rfl (by
              intro y _ ny hy
              exact ⟨_, hrel y ny hy, rfl⟩)
            simpa [relink] using this
          · simp [relink, hnum]
        · have hne : ¬ (some p = some x) := fun e => hxp (Option.some.inj e)
          simp only [hne, if_false, List.append_nil]
          have hxp2 : x ≠ p := fun e => hxp e.symm
          constructor
          · simp only [relink, hxp2, false_and, if_false]
            refine siblings_congr h _ _ _ ?_ hsx
            intro y hy
            obtain ⟨ny, hny, hyp⟩ := (mem_childrenOf h x y).1 hy
            rw [hrel y ny hny, hny]
            simp only [Option.map_some', Option.some.injEq, relink]
            have hnl : ¬ ((childrenOf h p).getLast? = some y) := by
              intro hl
              have hmem := List.mem_of_getLast?_eq_some hl
              obtain ⟨ny2, hny2, hyp2⟩ := (mem_childrenOf h p y).1 hmem
              rw [hny] at hny2
              cases hny2
              rw [hyp] at hyp2
              exact hxp2 (Option.some.inj hyp2)
            simp [hnl]
          · simp [relink, hxp2, hnx]
      · rw [hnn] at hx
        cases hx
        have hne : ¬ (some p = some h.length) := fun e => Nat.ne_of_lt hpl (Option.some.inj e)
        simp only [hne, if_false, List.append_nil, hfr]
        exact ⟨by simp [siblings, freshNode], by simp [freshNode]⟩
    · intro b nb q hb hq
      rw [hlen]
      rcases hlt b nb hb with hbl | rfl
      · rw [hallocated b hbl] at hb
        simp only [Option.some.injEq] at hb
        subst hb
        exact Nat.lt_succ_of_lt (hc.2 b _ q (List.getElem?_eq_getElem hbl) hq)
      · rw [hnn] at hb
        cases hb
        simp only [freshNode, Option.some.injEq] at hq
        omega

theorem built_counted {V : Type} [Zero V] (h : Heap V) (hb : Built h) : counted h := by
  induction hb with
  | empty =>
    constructor
    · intro a nd ha
      simp at ha
    · intro b nd q hb
      simp at hb
  | create h h' name parent nc ofx ofy ofz a _ hp hc ih =>
    exact counted_create h h' name parent nc ofx ofy ofz a ih hp hc
  | write h a nd nd' _ ha h1 h2 h3 h4 ih =>
    exact counted_write h a nd nd' ih ha h1 h2 h3 h4

theorem parseBodyLoop_built {V : Type} [Zero V] (scanF : List Char → Option (V × List Char)) :
    ∀ (fuel p : Nat) (lvl : Int) (h : Heap V) (s : List Char) (r : Option Nat)
      (h' : Heap V) (s' : List Char),
      Built h → p < h.length →
      parseBodyLoop scanF fuel p lvl h s = .ret (r, h', s') →
      Built h' ∧ h.length ≤ h'.length := by
  intro fuel
  induction fuel with
  | zero =>
    intro p lvl h s r h' s' _ _ hrun
    simp [parseBodyLoop] at hrun
  | succ fuel ih =>
    intro p lvl h s r h' s' hb hp hrun
    rw [parseBodyLoop_step] at hrun
    cases hfg : fgets MAX_LINE_LENGTH s with
    | none =>
      rw [hfg] at hrun
      simp only [Run.ret.injEq, Prod.mk.injEq] at hrun
      obtain ⟨_, rfl, rfl⟩ := hrun
      exact ⟨hb, Nat.le_refl _⟩
    | some br =>
      obtain ⟨buf, rest⟩ := br
      rw [hfg] at hrun
      simp only at hrun
      have hinv := lineAct_inv scanF h[p]? lvl ( trim_prefix (cstr buf)) rest
      cases hact : lineAct scanF h[p]? lvl ( trim_prefix (cstr buf)) rest with
      | skip l =>
        rw [hact] at hrun
        exact ih _ _ _ _ _ _ _ hb hp hrun
      | close =>
        rw [hact] at hrun
        simp only [Run.ret.injEq, Prod.mk.injEq] at hrun
        obtain ⟨_, rfl, rfl⟩ := hrun
        exact ⟨hb, Nat.le_refl _⟩
      | fail r0 =>
        rw [hact] at hrun
        simp only [Run.ret.injEq, Prod.mk.injEq] at hrun
        obtain ⟨_, rfl, rfl⟩ := hrun
        exact ⟨hb, Nat.le_refl _⟩
      | undef =>
        rw [hact] at hrun
        cases hrun
      | update l nd =>
        rw [hact] at hrun hinv
        simp only at hrun hinv
        obtain ⟨_, p0, hp0, hform⟩ := hinv
        have hb1 : Built (h.put p nd) := by
          rcases hform with ⟨off, rfl⟩ | ⟨n, rfl⟩
          · exact Built.write h p p0 _ hb hp0 rfl rfl rfl rfl
          · exact Built.write h p p0 _ hb hp0 rfl rfl rfl rfl
        obtain ⟨r1, r2⟩ := ih _ _ _ _ _ _ _ hb1 (by rw [put_length]; exact hp) hrun
        rw [put_length] at r2
        exact ⟨r1, r2⟩
      | joint l childName =>
        rw [hact] at hrun
        simp only at hrun
        cases hc : createNode childName (some p) 0 0 0 0 h with
        | undef => rw [hc] at hrun; cases hrun
        | timeout => rw [hc] at hrun; cases hrun
        | ret ch =>
          obtain ⟨child, h1⟩ := ch
          rw [hc] at hrun
          simp only at hrun
          obtain ⟨rfl, hlen1, _, _, _⟩ := createNode_frame _ _ _ _ _ _ _ _ _ hp hc
          have hb1 : Built h1 :=
            Built.create h h1 childName (some p) 0 0 0 0 _ hb
              (fun q hq => by cases hq; exact hp) hc
          cases hin : parseBodyLoop scanF fuel h.length 1 h1 rest with
          | undef => rw [hin] at hrun; cases hrun
          | timeout => rw [hin] at hrun; cases hrun
          | ret x =>
            obtain ⟨r2, h2, rest2⟩ := x
            rw [hin] at hrun
            obtain ⟨q1, q2⟩ := ih _ _ _ _ _ _ _ hb1 (by omega) hin
            cases r2 with
            | none =>
              simp only [Run.ret.injEq, Prod.mk.injEq] at hrun
              obtain ⟨_, rfl, rfl⟩ := hrun
              exact ⟨q1, by omega⟩
            | some v =>
              simp only at hrun
              obtain ⟨t1, t2⟩ := ih _ _ _ _ _ _ _ q1 (by omega) hrun
              exact ⟨t1, by omega⟩
      | endSite off rest2 =>
        rw [hact] at hrun
        simp only at hrun
        cases hc : createNode "End Site".toList (some p) 0 off.1 off.2.1 off.2.2 h with
        | undef => rw [hc] at hrun; cases hrun
        | timeout => rw [hc] at hrun; cases hrun
        | ret ch =>
          obtain ⟨e, h1⟩ := ch
          rw [hc] at hrun
          simp only [Run.ret.injEq, Prod.mk.injEq] at hrun
          obtain ⟨_, rfl, rfl⟩ := hrun
          obtain ⟨rfl, hlen1, _, _, _⟩ := createNode_frame _ _ _ _ _ _ _ _ _ hp hc
          exact ⟨Built.create h _ _ (some p) 0 _ _ _ _ hb
            (fun q hq => by cases hq; exact hp) hc, by omega⟩

theorem parseHierarchy_built {V : Type} [Zero V] (scanF : List Char → Option (V × List Char))
    (file : List Char) (root : Nat) (h : Heap V)
    (hp : parseHierarchy scanF file = .ret (some (root, h))) : Built h := by
  obtain ⟨buf, rest, h0, rest1, v, rest2, hfg, hroot, hbody⟩ := parseHierarchy_ret _ _ _ _ hp
  obtain ⟨_, rfl, line, name, _, hlen, rfl⟩ := parseRoot_ret _ _ _ _ hroot
  have hb0 : Built [freshNode name none 6 (0 : V) 0 0] :=
    Built.create [] _ name none 6 0 0 0 0 Built.empty (fun p hp => by cases hp)
      (createNode_null name 6 0 0 0 [] hlen)
  exact (parseBodyLoop_built scanF _ 0 1 _ rest1 _ _ _ hb0 (by simp) hbody).1

/-- C20: in every heap built by calls of `createNode` (each given `NULL` or a node made
before as parent; the fields `createNode` does not link with may be written in
between), and so in every tree `parseHierarchy` returns, each node's list of children,
read from `children` along `next`, is the list `L` of the nodes that have it as
`parent`, `numChildren` is the length of `L`, and `numChildren` is 0 exactly when
`children` is `NULL`. -/
theorem numChildren_counts_children {V : Type} [Zero V] (h : Heap V)
    (hb : Built h ∨ ∃ (scanF : List Char → Option (V × List Char)) (file : List Char)
      (root : Nat), parseHierarchy scanF file = .ret (some (root, h))) :
    ∀ (a : Nat) (nd : Node V), h[a]? = some nd →
      ∃ L, siblings h nd.children L = true ∧ nd.numChildren = (L.length : Int) ∧
        (∀ x, x ∈ L ↔ ∃ nx, h[x]? = some nx ∧ nx.parent = some a) ∧
        (nd.numChildren = 0 ↔ nd.children = none) := by
  have hbuilt : Built h := by
    rcases hb with hb | ⟨scanF, file, root, hp⟩
    · exact hb
    · exact parseHierarchy_built scanF file root h hp
  have hc := built_counted h hbuilt
  intro a nd ha
  obtain ⟨hs, hn⟩ := hc.1 a nd ha
  refine ⟨childrenOf h a, hs, hn, fun x => mem_childrenOf h a x, ?_⟩
  rw [hn]
  constructor
  · intro h0
    have hnil : childrenOf h a = [] := List.eq_nil_of_length_eq_zero (by exact_mod_cast h0)
    rw [hnil] at hs
    exact (siblings_nil _ _).1 hs
  · intro hnone
    rw [hnone] at hs
    rw [siblings_none h _ hs]
    rfl

/-- C20, witness: in the tree of `twoChainsFile` the root has `numChildren` 2 and the list
of children `A`, `B`; the End Sites have `numChildren` 0 and no `children`. -/
theorem numChildren_counts_children_witness :
    (Built twoChainsHeap ∨ ∃ (scanF : List Char → Option (Int × List Char))
      (file : List Char) (root : Nat),
      parseHierarchy scanF file = .ret (some (root, twoChainsHeap))) ∧
    (∀ (a : Nat) (nd : Node Int), twoChainsHeap[a]? = some nd →
      ∃ L, siblings twoChainsHeap nd.children L = true ∧ nd.numChildren = (L.length : Int) ∧
        (∀ x, x ∈ L ↔ ∃ nx, twoChainsHeap[x]? = some nx ∧ nx.parent = some a) ∧
        (nd.numChildren = 0 ↔ nd.children = none)) :=
  ⟨Or.inr ⟨scanInt, twoChainsFile, 0, by decide⟩,
   numChildren_counts_children twoChainsHeap
     (Or.inr ⟨scanInt, twoChainsFile, 0, by decide⟩)⟩

/-! ## The motion parser (C11, C12) -/

theorem readUntil_found (stop : List Char → Bool) (line : Option (List Char))
    (pre : List (List Char)) (m : List Char) (post : List (List Char))
    (hpre : ∀ l ∈ pre, stop l = false) (hm : stop m = true) :
    readUntil stop line (pre ++ m :: post) = (some m, post, true) := by
  induction pre generalizing line with
  | nil => simp [readUntil, hm]
  | cons a pre ih =>
    have ha : stop a = false := hpre a (List.mem_cons_self _ _)
    simp only [List.cons_append, readUntil, ha, Bool.false_eq_true, if_false]
    exact ih (some a) (fun l hl => hpre l (List.mem_cons_of_mem _ hl))

theorem readUntil_end (stop : List Char → Bool) (line : Option (List Char))
    (ls : List (List Char)) (hls : ∀ l ∈ ls, stop l = false) :
    readUntil stop line ls = ((ls.getLast?).or line, [], false) := by
  induction ls generalizing line with
  | nil => simp [readUntil]
  | cons a ls ih =>
    have ha : stop a = false := hls a (List.mem_cons_self _ _)
    simp only [readUntil, ha, Bool.false_eq_true, if_false]
    rw [ih (some a) (fun l hl => hls l (List.mem_cons_of_mem _ hl))]
    cases ls with
    | nil => simp
    | cons b ls =>
      rw [List.getLast?_cons_cons, List.getLast?_eq_getLast _ (List.cons_ne_nil b ls)]
      rfl

theorem motionCapacity_some (frames : Int) (h1 : INT_MIN ≤ frames * 100)
    (h2 : frames * 100 ≤ INT_MAX) : motionCapacity frames = some (frames * 100) := by
  unfold motionCapacity
  rw [if_pos ⟨h1, h2⟩]

theorem motionCapacity_zero : motionCapacity 0 = some 0 := by
  decide

theorem motionCapacity_eq (frames max_values : Int)
    (h : motionCapacity frames = some max_values) :
    max_values = frames * 100 ∧ INT_MIN ≤ max_values ∧ max_values ≤ INT_MAX := by
  unfold motionCapacity at h
  split at h
  · rename_i hr
    simp only [Option.some.injEq] at h
    subst h
    exact ⟨rfl, hr.1, hr.2⟩
  · cases h

theorem motionCapacity_none (frames : Int) (h : motionCapacity frames = none) :
    frames * 100 < INT_MIN ∨ INT_MAX < frames * 100 := by
  unfold motionCapacity at h
  split at h
  · cases h
  · rename_i hr
    by_contra hc
    apply hr
    constructor <;> omega

/-- C11, as the code has it: `strtok(line, " ")` cuts a line at the spaces only. When the
lines `fgets` returns are: lines not beginning with `MOTION`, a line beginning with
`MOTION`, lines not beginning with `Frames:`, a line `f` beginning with `Frames:`, lines
beginning with `Frame Time`, and then the data lines `d`, `ds` (`d` not beginning
with `Frame Time`), and when the data lines hold at least one token and no more
than `frames * 100` of them, `frames` the number read from `f`, with `frames * 100` a
value of `int`, then `parseMotion` returns a
buffer that holds exactly one value per token of the data lines, in the
order of the file, a token being a maximal run of characters other than the
space (the newline that ends a line is part of its last token, or a token
of its own after a space). -/
theorem parseMotion_stores_space_tokens {V : Type} (alloc : Alloc) (atof : List Char → V)
    (file : List Char) (pre : List (List Char)) (m : List Char) (mid : List (List Char))
    (f : List Char) (fts : List (List Char)) (d : List Char) (ds : List (List Char))
    (hL : readLines 1024 file.length file = pre ++ m :: (mid ++ f :: (fts ++ d :: ds)))
    (hpre : ∀ l ∈ pre, strncmpEq l "MOTION".toList 6 = false)
    (hm : strncmpEq m "MOTION".toList 6 = true)
    (hmid : ∀ l ∈ mid, strncmpEq l "Frames:".toList 7 = false)
    (hf : strncmpEq f "Frames:".toList 7 = true)
    (hfts : ∀ l ∈ fts, strncmpEq l "Frame Time:".toList 10 = true)
    (hd : strncmpEq d "Frame Time:".toList 10 = false)
    (hpos : 0 < ((d :: ds).flatMap (fun l => (strtokAll l).map atof)).length)
    (hcap : (((d :: ds).flatMap (fun l => (strtokAll l).map atof)).length : Int)
      ≤ (sscanfFrames (cstr f)).getD 0 * 100)
    (hmax : (sscanfFrames (cstr f)).getD 0 * 100 ≤ INT_MAX) :
    parseMotion alloc atof file
      = .ret (some ((d :: ds).flatMap (fun l => (strtokAll l).map atof))) ∧
    ((d :: ds).flatMap (fun l => (strtokAll l).map atof)).length
      = ((d :: ds).map (fun l => (strtokAll l).length)).sum := by
  constructor
  · unfold parseMotion
    simp only [hL]
    rw [readUntil_found _ none pre m _ hpre hm]
    simp only
    rw [readUntil_found _ (some m) mid f _ hmid hf]
    simp only
    rw [readUntil_found _ (some f) fts d ds (by simpa using hfts) (by simpa using hd)]
    simp only
    have hmin : INT_MIN ≤ (sscanfFrames (cstr f)).getD 0 * 100 := by
      unfold INT_MIN
      omega
    rw [motionCapacity_some _ hmin hmax]
    simp only
    generalize (sscanfFrames (cstr f)).getD 0 = frames at hcap
    generalize (d :: ds).flatMap (fun l => (strtokAll l).map atof) = data at hpos hcap
    have h1 : ¬ (frames * 100 < 0) := by omega
    have h2 : ¬ (frames * 100 = 0 ∧ alloc.mallocZero = false) := by
      rintro ⟨h0, _⟩
      omega
    have h3 : ¬ ((frames * 100).toNat < data.length) := by omega
    have h4 : ¬ (data.length = 0 ∧ alloc.reallocZero = false) := by
      rintro ⟨h0, _⟩
      omega
    simp only [h1, h2, h3, h4, if_false]
  · simp [List.length_flatMap, Function.comp_def]

/-- C11, witness: two frames of three values, each number its own token. -/
theorem parseMotion_stores_space_tokens_witness :
    (readLines 1024 twoFramesMotion.length twoFramesMotion
        = [] ++ "MOTION\n".toList :: ([] ++ "Frames: 2\n".toList ::
            (["Frame Time: 0.1\n".toList] ++ "1 2 3\n".toList :: ["4 5 6\n".toList])) ∧
      (∀ l ∈ ([] : List (List Char)), strncmpEq l "MOTION".toList 6 = false) ∧
      strncmpEq "MOTION\n".toList "MOTION".toList 6 = true ∧
      (∀ l ∈ ([] : List (List Char)), strncmpEq l "Frames:".toList 7 = false) ∧
      strncmpEq "Frames: 2\n".toList "Frames:".toList 7 = true ∧
      (∀ l ∈ ["Frame Time: 0.1\n".toList], strncmpEq l "Frame Time:".toList 10 = true) ∧
      strncmpEq "1 2 3\n".toList "Frame Time:".toList 10 = false ∧
      (sscanfFrames (cstr "Frames: 2\n".toList)).getD 0 * 100 ≤ INT_MAX) ∧
    (parseMotion glibcAlloc atofInt twoFramesMotion
      = .ret (some (("1 2 3\n".toList :: ["4 5 6\n".toList]).flatMap
          (fun l => (strtokAll l).map atofInt))) ∧
    (("1 2 3\n".toList :: ["4 5 6\n".toList]).flatMap
        (fun l => (strtokAll l).map atofInt)).length
      = (("1 2 3\n".toList :: ["4 5 6\n".toList]).map (fun l => (strtokAll l).length)).sum) ∧
    parseMotion glibcAlloc atofInt twoFramesMotion = .ret (some [1, 2, 3, 4, 5, 6]) :=
  ⟨⟨by decide, by decide, by decide, by decide, by decide, by decide, by decide, by decide⟩,
   parseMotion_stores_space_tokens glibcAlloc atofInt twoFramesMotion [] "MOTION\n".toList []
     "Frames: 2\n".toList ["Frame Time: 0.1\n".toList] "1 2 3\n".toList ["4 5 6\n".toList]
     (by decide) (by decide) (by decide) (by decide) (by decide) (by decide) (by decide)
     (by decide) (by decide) (by decide),
   by decide⟩

/-- C11, counterexample: a data line that ends with a space before its newline, and
a motion section without data lines. The line `1 2 3 ` has three tokens
between white space, but `strtok` also returns the newline as a token and
`parseMotion` stores a fourth value, 0. Without data lines the claim gives a buffer
of length 0, but the loop tokenises the line still in `line`, the `Frame Time`
line, and stores three values. -/
theorem parseMotion_stores_extra_values :
    strtokAll "1 2 3 \n".toList = ["1".toList, "2".toList, "3".toList, "\n".toList] ∧
    parseMotion glibcAlloc atofInt trailingSpaceMotion = .ret (some [1, 2, 3, 0]) ∧
    parseMotion glibcAlloc atofInt noDataMotion = .ret (some [0, 0, 0]) :=
  ⟨by decide, by decide, by decide⟩

theorem parseMotion_zero_frames {V : Type} (alloc : Alloc)
    (atof : List Char → V) (file : List Char)
    (hno : (∀ l ∈ readLines 1024 file.length file, strncmpEq l "MOTION".toList 6 = false) ∨
      ∃ pre m post, readLines 1024 file.length file = pre ++ m :: post ∧
        (∀ l ∈ pre, strncmpEq l "MOTION".toList 6 = false) ∧
        strncmpEq m "MOTION".toList 6 = true ∧
        ∀ l ∈ post, strncmpEq l "Frames:".toList 7 = false) :
    parseMotion alloc atof file =
      if alloc.mallocZero = false then .ret none
      else
        match (readLines 1024 file.length file).getLast? with
        | none => .undef
        | some line =>
          if strtokAll line = [] then
            (if alloc.reallocZero = false then .ret none else .ret (some []))
          else .undef := by
  have key : ∀ (last : Option (List Char)) (lines3 : List (List Char)),
      lines3 = [] →
      (if (0 : Int) < 0 then (Run.ret none : Run (Option (List V)))
        else if (0 : Int) = 0 ∧ alloc.mallocZero = false then .ret none
        else
          match last with
          | none => .undef
          | some line =>
            if (0 : Int).toNat
                < ((line :: lines3).flatMap (fun l => (strtokAll l).map atof)).length then .undef
            else if ((line :: lines3).flatMap (fun l => (strtokAll l).map atof)).length = 0
                ∧ alloc.reallocZero = false then .ret none
            else .ret (some ((line :: lines3).flatMap (fun l => (strtokAll l).map atof)))) =
      if alloc.mallocZero = false then .ret none
      else
        match last with
        | none => .undef
        | some line =>
          if strtokAll line = [] then
            (if alloc.reallocZero = false then .ret none else .ret (some []))
          else .undef := by
    intro last lines3 h3
    subst h3
    by_cases hmz : alloc.mallocZero = false
    · simp [hmz]
    · simp only [hmz, and_false, if_false]
      cases last with
      | none => simp
      | some line =>
        simp only [List.flatMap_cons, List.flatMap_nil, List.append_nil, List.length_map]
        by_cases ht : strtokAll line = []
        · simp [ht]
        · have : 0 < (strtokAll line).length := List.length_pos.2 ht
          simp [ht, this]
  rcases hno with hno | ⟨pre, m, post, hL, hpre, hm, hpost⟩
  · unfold parseMotion
    simp only
    rw [readUntil_end _ none _ hno]
    simp only [readUntil, motionCapacity_zero]
    have := key ((readLines 1024 file.length file).getLast?.or none) [] rfl
    simpa using this
  · unfold parseMotion
    simp only [hL]
    rw [readUntil_found _ none pre m post hpre hm]
    simp only
    rw [readUntil_end _ (some m) post hpost]
    simp only [readUntil, motionCapacity_zero]
    have hlast : (pre ++ m :: post).getLast? = (post.getLast?).or (some m) := by
      rw [List.getLast?_append]
      cases post with
      | nil => simp
      | cons b post =>
        rw [List.getLast?_cons_cons, List.getLast?_eq_getLast _ (List.cons_ne_nil b post)]
        rfl
    rw [hlast]
    have := key ((post.getLast?).or (some m)) [] rfl
    simpa using this

/-- C12, as the code has it: `parseMotion` has no check for a missing `MOTION` or `Frames:` line.
When no line `fgets` returns begins with `MOTION`, or one does but no line after it
begins with `Frames:`, the loops run to the end of the input, `frames` stays 0
and a buffer of zero entries is requested. `parseMotion` then returns `NULL` only
because of that request: where `malloc(0)` returns `NULL`; or where the line read
last holds no token, nothing is stored, and `realloc(data, 0)` returns `NULL`. Where
`malloc(0)` returns a block and the line read last holds a token, its value is
stored past the end of the empty buffer, which is undefined; so is the use
of `line` when the input was empty. -/
theorem parseMotion_without_motion_or_frames {V : Type} (alloc : Alloc)
    (atof : List Char → V) (file : List Char)
    (hno : (∀ l ∈ readLines 1024 file.length file, strncmpEq l "MOTION".toList 6 = false) ∨
      ∃ pre m post, readLines 1024 file.length file = pre ++ m :: post ∧
        (∀ l ∈ pre, strncmpEq l "MOTION".toList 6 = false) ∧
        strncmpEq m "MOTION".toList 6 = true ∧
        ∀ l ∈ post, strncmpEq l "Frames:".toList 7 = false) :
    parseMotion alloc atof file =
      if alloc.mallocZero = false then .ret none
      else
        match (readLines 1024 file.length file).getLast? with
        | none => .undef
        | some line =>
          if strtokAll line = [] then
            (if alloc.reallocZero = false then .ret none else .ret (some []))
          else .undef := by
  exact parseMotion_zero_frames alloc atof file hno

/-- C12, witness: on the input `noMotionRest`, which has no `MOTION` line, with a C library
whose `malloc(0)` returns `NULL`, `parseMotion` returns `NULL`. -/
theorem parseMotion_without_motion_or_frames_witness :
    ((∀ l ∈ readLines 1024 noMotionRest.length noMotionRest,
        strncmpEq l "MOTION".toList 6 = false) ∨
      ∃ pre m post, readLines 1024 noMotionRest.length noMotionRest = pre ++ m :: post ∧
        (∀ l ∈ pre, strncmpEq l "MOTION".toList 6 = false) ∧
        strncmpEq m "MOTION".toList 6 = true ∧
        ∀ l ∈ post, strncmpEq l "Frames:".toList 7 = false) ∧
    parseMotion nullAlloc atofInt noMotionRest =
      (if nullAlloc.mallocZero = false then .ret none
      else
        match (readLines 1024 noMotionRest.length noMotionRest).getLast? with
        | none => .undef
        | some line =>
          if strtokAll line = [] then
            (if nullAlloc.reallocZero = false then .ret none else .ret (some []))
          else .undef) ∧
    parseMotion nullAlloc atofInt noMotionRest = .ret none :=
  ⟨Or.inl (by decide),
   parseMotion_without_motion_or_frames nullAlloc atofInt noMotionRest (Or.inl (by decide)),
   by decide⟩

/-- C12, counterexample: with the answers of the GNU C library, on an input without
a `MOTION` line and on an input with a `MOTION` line but no `Frames:` line, `parseMotion` does
not return `NULL`: it goes on to store the value of the first token of the line
read last into a buffer of zero entries. -/
theorem parseMotion_no_failure_path :
    (∀ l ∈ readLines 1024 noMotionRest.length noMotionRest,
      strncmpEq l "MOTION".toList 6 = false) ∧
    parseMotion glibcAlloc atofInt noMotionRest = .undef ∧
    readLines 1024 noFramesMotion.length noFramesMotion
      = ["MOTION\n".toList, "Frame Time: 0.1\n".toList, "1 2 3\n".toList] ∧
    parseMotion glibcAlloc atofInt noFramesMotion = .undef :=
  ⟨by decide, by decide, by decide, by decide⟩

/-! ## The fuel of the loop -/

theorem parseBodyLoop_fuel {V : Type} [Zero V] (scanF : List Char → Option (V × List Char)) :
    ∀ (f1 f2 p : Nat) (lvl : Int) (h : Heap V) (s : List Char),
      s.length < f1 → s.length < f2 →
      parseBodyLoop scanF f1 p lvl h s = parseBodyLoop scanF f2 p lvl h s := by
  intro f1
  induction f1 with
  | zero => intro f2 p lvl h s h1; omega
  | succ f1 ih =>
    intro f2 p lvl h s h1 h2
    obtain ⟨g, rfl⟩ : ∃ g, f2 = g + 1 := ⟨f2 - 1, by omega⟩
    rw [parseBodyLoop_step, parseBodyLoop_step]
    cases hfg : fgets MAX_LINE_LENGTH s with
    | none => rfl
    | some br =>
      obtain ⟨buf, rest⟩ := br
      simp only
      have hlt := fgets_shorter s buf rest hfg
      cases hact : lineAct scanF h[p]? lvl ( trim_prefix (cstr buf)) rest with
      | skip l => exact ih g p l h rest (by omega) (by omega)
      | close => rfl
      | fail r => rfl
      | undef => rfl
      | update l nd => exact ih g p l _ rest (by omega) (by omega)
      | endSite off rest2 => rfl
      | joint l childName =>
        simp only
        cases hc : createNode childName (some p) 0 0 0 0 h with
        | undef => rfl
        | timeout => rfl
        | ret ch =>
          obtain ⟨child, h1'⟩ := ch
          simp only
          rw [ih g child 1 h1' rest (by omega) (by omega)]
          cases hin : parseBodyLoop scanF g child 1 h1' rest with
          | undef => rfl
          | timeout => rfl
          | ret x =>
            obtain ⟨r2, h2', rest2⟩ := x
            cases r2 with
            | none => rfl
            | some v =>
              simp only
              have := parseBodyLoop_consumes scanF g child 1 h1' rest _ _ _ hin
              exact ih g p l h2' rest2 (by omega) (by omega)

/-! ## Blank lines (C17) -/

theorem lineAct_rest {V : Type} [Zero V] (scanF : List Char → Option (V × List Char))
    (pn : Option (Node V)) (lvl : Int) (line : List Char) :
    (∃ a, (∀ rest, lineAct scanF pn lvl line rest = a) ∧
      (∀ r, a ≠ .fail r) ∧ (∀ off r, a ≠ .endSite off r)) ∨
    (∀ rest, lineAct scanF pn lvl line rest = .fail rest) ∨
    (scanStr none line = some "End".toList ∧
      ∀ rest, lineAct scanF pn lvl line rest = endSiteAct scanF rest) := by
  simp only [lineAct]
  by_cases hb : line.head? = none ∨ line.head? = some '\n'
  · simp only [hb, if_true]
    exact Or.inl ⟨_, fun _ => rfl, fun r => by simp, fun off r => by simp⟩
  · simp only [hb, if_false]
    have hlev : (if strchr line (Char.ofNat 125) = true then
          (if strchr line (Char.ofNat 123) = true then lvl + 1 else lvl) - 1
        else if strchr line (Char.ofNat 123) = true then lvl + 1 else lvl) = levelAfter lvl line := rfl
    rw [hlev]
    generalize levelAfter lvl line = L
    by_cases hL : L = 0
    · simp only [hL, if_true]
      exact Or.inl ⟨_, fun _ => rfl, fun r => by simp, fun off r => by simp⟩
    · simp only [hL, if_false]
      cases hkw : scanStr none line with
      | none => exact Or.inl ⟨_, fun _ => rfl, fun r => by simp, fun off r => by simp⟩
      | some keyword =>
        simp only
        by_cases h1 : keyword = "OFFSET".toList
        · simp only [h1, if_true]
          cases sscanfOffset scanF line with
          | none => exact Or.inr (Or.inl (fun _ => rfl))
          | some off =>
            cases pn with
            | none => exact Or.inl ⟨_, fun _ => rfl, fun r => by simp, fun off r => by simp⟩
            | some p0 => exact Or.inl ⟨_, fun _ => rfl, fun r => by simp, fun off r => by simp⟩
        · simp only [h1, if_false]
          by_cases h2 : keyword = "CHANNELS".toList
          · simp only [h2, if_true]
            cases sscanfChannels line with
            | none => exact Or.inr (Or.inl (fun _ => rfl))
            | some n =>
              cases pn with
              | none => exact Or.inl ⟨_, fun _ => rfl, fun r => by simp, fun off r => by simp⟩
              | some p0 => exact Or.inl ⟨_, fun _ => rfl, fun r => by simp, fun off r => by simp⟩
          · simp only [h2, if_false]
            by_cases h3 : keyword = "JOINT".toList
            · simp only [h3, if_true]
              cases hn : sscanfName "JOINT".toList 63 line with
              | none => exact Or.inr (Or.inl (fun _ => rfl))
              | some childName =>
                exact Or.inl ⟨_, fun _ => rfl, fun r => by simp, fun off r => by simp⟩
            · simp only [h3, if_false]
              by_cases h4 : keyword = "End".toList
              · simp only [h4, if_true]
                exact Or.inr (Or.inr ⟨trivial, fun _ => rfl⟩)
              · simp only [h4, if_false]
                exact Or.inl ⟨_, fun _ => rfl, fun r => by simp, fun off r => by simp⟩

theorem blankIns_inv (k : Nat) (s t : List Char) (hk : k ≠ 0) (hb : BlankIns k s t) :
    s = t ∨ ∃ body s0 t0 k', s = body ++ '\n' :: s0 ∧ t = body ++ '\n' :: t0 ∧
      (∀ c ∈ body, c ≠ '\n') ∧ body.length + 1 < MAX_LINE_LENGTH ∧
      k' = (if isEndLine (body ++ ['\n']) then 2 else k - 1) ∧ BlankIns k' s0 t0 := by
  cases hb with
  | same => exact Or.inl rfl
  | blank ws s0 t0 hws hlen hrest => exact absurd rfl hk
  | line _ k' body s0 t0 hbody hlen hk' hrest =>
    exact Or.inr ⟨body, s0, t0, k', rfl, rfl, hbody, hlen, hk', hrest⟩

theorem actsAgree_refl {V : Type} (A : LineAct V) : actsAgree A A := by
  cases A with
  | endSite off s => exact ⟨s, 0, rfl, BlankIns.same 0 s⟩
  | fail r => exact ⟨r, rfl⟩
  | skip l => rfl
  | close => rfl
  | update l nd => rfl
  | joint l name => rfl
  | undef => rfl

theorem outcomesAgree_refl {V : Type} (X : Run (Option Nat × Heap V × List Char)) :
    outcomesAgree X X := by
  cases X with
  | undef => rfl
  | timeout => rfl
  | ret x =>
    obtain ⟨r, h, s⟩ := x
    cases r with
    | none => exact ⟨h, s, rfl⟩
    | some a => exact ⟨s, 0, rfl, BlankIns.same 0 s⟩

theorem endSiteAct_blankIns {V : Type} (scanF : List Char → Option (V × List Char))
    (s0 t0 : List Char) (hb : BlankIns 2 s0 t0) :
    actsAgree (endSiteAct scanF s0) (endSiteAct scanF t0) := by
  rcases blankIns_inv 2 s0 t0 (by decide) hb with
    rfl | ⟨body, s1, t1, k1, rfl, rfl, hbody, hlen, hk1, hb1⟩
  · exact actsAgree_refl _
  · have hk1' : k1 ≠ 0 := by
      rw [hk1]
      split <;> decide
    unfold endSiteAct
    rw [fgets_line body s1 hbody hlen, fgets_line body t1 hbody hlen]
    simp only
    rcases blankIns_inv k1 s1 t1 hk1' hb1 with
      rfl | ⟨body2, s2, t2, k2, rfl, rfl, hbody2, hlen2, hk2, hb2⟩
    · exact actsAgree_refl _
    · rw [fgets_line body2 s2 hbody2 hlen2, fgets_line body2 t2 hbody2 hlen2]
      simp only
      cases sscanfEndOffset scanF (cstr (body2 ++ ['\n'])) with
      | none => exact ⟨_, rfl⟩
      | some off => exact ⟨t2, k2, rfl, hb2⟩

theorem lineAct_blankIns {V : Type} [Zero V] (scanF : List Char → Option (V × List Char))
    (pn : Option (Node V)) (lvl : Int) (line s0 t0 : List Char) (k0 : Nat)
    (hb : BlankIns k0 s0 t0) (hk : scanStr none line = some "End".toList → k0 = 2) :
    actsAgree (lineAct scanF pn lvl line s0) (lineAct scanF pn lvl line t0) := by
  rcases lineAct_rest scanF pn lvl line with ⟨a, ha, hnf, hne⟩ | hf | ⟨hend, he⟩
  · rw [ha s0, ha t0]
    exact actsAgree_refl a
  · rw [hf s0, hf t0]
    exact ⟨t0, rfl⟩
  · rw [he s0, he t0]
    have := hk hend
    subst this
    exact endSiteAct_blankIns scanF s0 t0 hb

theorem blank_line_trim (ws : List Char) (hws : ws.all blankLineChar = true) :
    (∀ c ∈ ws, c ≠ '\n') ∧ trim_prefix (cstr (ws ++ ['\n'])) = [] := by
  have hall : ∀ c ∈ ws, isspace c = true ∧ c ≠ '\n' := by
    intro c hc
    have := List.all_eq_true.1 hws c hc
    simpa [blankLineChar] using this
  refine ⟨fun c hc => (hall c hc).2, ?_⟩
  rw [cstr_line]
  · unfold trim_prefix
    rw [dropWhile_append_all isspace ws _ (fun c hc => (hall c hc).1)]
    decide
  · intro c hc e
    have := (hall c hc).1
    rw [e] at this
    revert this
    decide

theorem parseBodyLoop_blankIns {V : Type} [Zero V]
    (scanF : List Char → Option (V × List Char)) :
    ∀ (f' f p : Nat) (lvl : Int) (h : Heap V) (s t : List Char) (k : Nat),
      BlankIns k s t → s.length < f → t.length < f' →
      outcomesAgree (parseBodyLoop scanF f p lvl h s) (parseBodyLoop scanF f' p lvl h t) := by
  intro f'
  induction f' with
  | zero => intro f p lvl h s t k _ _ ht; omega
  | succ f' ih =>
    intro f p lvl h s t k hb hs ht
    cases hb with
    | same =>
      rw [parseBodyLoop_fuel scanF f (f' + 1) p lvl h s hs ht]
      exact outcomesAgree_refl _
    | blank ws s0 t0 hws hlen hrest =>
      obtain ⟨hnl, htrim⟩ := blank_line_trim ws hws
      rw [loop_blank scanF f' p lvl h _ _ _ (fgets_line ws t0 hnl hlen) htrim]
      refine ih f p lvl h s t0 0 hrest hs ?_
      simp only [List.length_append, List.length_cons] at ht
      omega
    | line _ k' body s0 t0 hbody hlen hk hrest =>
      obtain ⟨f0, rfl⟩ : ∃ f0, f = f0 + 1 := ⟨f - 1, by omega⟩
      simp only [List.length_append, List.length_cons] at hs ht
      rw [parseBodyLoop_step, parseBodyLoop_step]
      rw [fgets_line body s0 hbody hlen, fgets_line body t0 hbody hlen]
      simp only
      have hact := lineAct_blankIns scanF h[p]? lvl ( trim_prefix (cstr (body ++ ['\n'])))
        s0 t0 k' hrest (by
          intro he
          have : isEndLine (body ++ ['\n']) = true := by
            simp only [isEndLine, decide_eq_true_eq]
            exact he
          rw [hk, this]
          rfl)
      cases hA : lineAct scanF h[p]? lvl ( trim_prefix (cstr (body ++ ['\n']))) s0 with
      | skip l =>
        rw [hA] at hact
        simp only [actsAgree] at hact
        rw [hact]
        exact ih f0 p l h s0 t0 k' hrest (by omega) (by omega)
      | close =>
        rw [hA] at hact
        simp only [actsAgree] at hact
        rw [hact]
        exact ⟨t0, k', rfl, hrest⟩
      | fail r =>
        rw [hA] at hact
        obtain ⟨r', hB⟩ := hact
        rw [hB]
        exact ⟨h, r', rfl⟩
      | undef =>
        rw [hA] at hact
        simp only [actsAgree] at hact
        rw [hact]
        rfl
      | update l nd =>
        rw [hA] at hact
        simp only [actsAgree] at hact
        rw [hact]
        exact ih f0 p l _ s0 t0 k' hrest (by omega) (by omega)
      | endSite off s2 =>
        rw [hA] at hact
        obtain ⟨t2, k2, hB, hb2⟩ := hact
        rw [hB]
        simp only
        cases createNode "End Site".toList (some p) 0 off.1 off.2.1 off.2.2 h with
        | undef => rfl
        | timeout => rfl
        | ret ch =>
          obtain ⟨e, h1⟩ := ch
          exact ⟨t2, k2, rfl, hb2⟩
      | joint l childName =>
        rw [hA] at hact
        simp only [actsAgree] at hact
        rw [hact]
        simp only
        cases createNode childName (some p) 0 0 0 0 h with
        | undef => rfl
        | timeout => rfl
        | ret ch =>
          obtain ⟨child, h1⟩ := ch
          simp only
          have hin := ih f0 child 1 h1 s0 t0 k' hrest (by omega) (by omega)
          cases hX : parseBodyLoop scanF f0 child 1 h1 s0 with
          | undef =>
            rw [hX] at hin
            simp only [outcomesAgree] at hin
            rw [hin]
            rfl
          | timeout =>
            rw [hX] at hin
            simp only [outcomesAgree] at hin
            rw [hin]
            rfl
          | ret x =>
            obtain ⟨r2, h2, s2⟩ := x
            rw [hX] at hin
            cases r2 with
            | none =>
              obtain ⟨h2', t2, hY⟩ := hin
              rw [hY]
              exact ⟨h2', t2, rfl⟩
            | some v =>
              obtain ⟨t2, k2, hY, hb2⟩ := hin
              rw [hY]
              simp only
              have c1 := parseBodyLoop_consumes scanF f0 child 1 h1 s0 _ _ _ hX
              have c2 := parseBodyLoop_consumes scanF f' child 1 h1 t0 _ _ _ hY
              exact ih f0 p l h2 s2 t2 k2 hb2 (by omega) (by omega)

theorem headerOk_line (body rest rest' : List Char) (hbody : ∀ c ∈ body, c ≠ '\n')
    (hlen : body.length + 1 < MAX_LINE_LENGTH) :
    headerOk (body ++ '\n' :: rest') = headerOk (body ++ '\n' :: rest) := by
  unfold headerOk
  rw [fgets_line body rest hbody hlen, fgets_line body rest' hbody hlen]

/-- C17, as the code has it: blank lines are skipped where the loop of `parseBody` reads
a line, not by the other reads. When `file'` is `file` with blank lines (white
space and a newline, within the line buffer) put in between lines, none
before the first two lines (the HIERARCHY line and the ROOT line, read by
`parseHierarchy` and `parseRoot`) and none before the two lines that follow a line whose
first word is `End` (read by the two `fgets` calls of the End Site branch),
then `parseHierarchy` gives the same on both: the same tree, or `NULL` for both. -/
theorem blank_lines_in_body_skipped {V : Type} [Zero V]
    (scanF : List Char → Option (V × List Char)) (file file' : List Char)
    (hb : BlankIns 2 file file') :
    parseHierarchy scanF file' = parseHierarchy scanF file := by
  rcases blankIns_inv 2 file file' (by decide) hb with
    rfl | ⟨l0, s0, t0, k1, rfl, rfl, hl0, hn0, hk1, hb1⟩
  · rfl
  · have hk1' : k1 ≠ 0 := by
      rw [hk1]
      split <;> decide
    unfold parseHierarchy
    rw [headerOk_line l0 s0 t0 hl0 hn0, fgets_line l0 s0 hl0 hn0, fgets_line l0 t0 hl0 hn0]
    simp only
    rcases blankIns_inv k1 s0 t0 hk1' hb1 with
      rfl | ⟨l1, s1, t1, k2, rfl, rfl, hl1, hn1, hk2, hb2⟩
    · rfl
    · cases hh : headerOk (l0 ++ '\n' :: (l1 ++ '\n' :: s1)) with
      | false => simp only [if_true]
      | true =>
        simp only [Bool.true_eq_false, if_false]
        unfold parseRoot
        rw [fgets_line l1 s1 hl1 hn1, fgets_line l1 t1 hl1 hn1]
        simp only
        by_cases hroot : ( trim_prefix (cstr (l1 ++ ['\n']))).take 4 ≠ "ROOT".toList
        · rw [if_pos hroot, if_pos hroot]
        · rw [if_neg hroot, if_neg hroot]
          cases sscanfName "ROOT".toList 19 ( trim_prefix (cstr (l1 ++ ['\n']))) with
          | none => rfl
          | some name =>
            simp only
            cases createNode name none 6 (0 : V) 0 0 [] with
            | undef => rfl
            | timeout => rfl
            | ret x =>
              obtain ⟨root, h1⟩ := x
              simp only
              unfold parseBody
              have hsim := parseBodyLoop_blankIns scanF (t1.length + 1) (s1.length + 1) root 1
                h1 s1 t1 k2 hb2 (by omega) (by omega)
              cases hX : parseBodyLoop scanF (s1.length + 1) root 1 h1 s1 with
              | undef =>
                rw [hX] at hsim
                simp only [outcomesAgree] at hsim
                rw [hsim]
              | timeout =>
                rw [hX] at hsim
                simp only [outcomesAgree] at hsim
                rw [hsim]
              | ret y =>
                obtain ⟨r2, h2, s2⟩ := y
                rw [hX] at hsim
                cases r2 with
                | none =>
                  obtain ⟨h2', t2, hY⟩ := hsim
                  rw [hY]
                | some v =>
                  obtain ⟨t2, k3, hY, _⟩ := hsim
                  rw [hY]

/-- C17, witness: `blankGapFile` is `plainGapFile` with an empty line after the ROOT line and a
line of a space and a tab before the CHANNELS line; both give the same tree. -/
theorem blank_lines_in_body_skipped_witness :
    BlankIns 2 plainGapFile blankGapFile ∧
    parseHierarchy (V := Int) scanInt blankGapFile = parseHierarchy scanInt plainGapFile ∧
    parseHierarchy (V := Int) scanInt plainGapFile = .ret (some (0, gapHeap)) :=
  ⟨BlankIns.line 2 1 "HIERARCHY".toList _ _ (by decide) (by decide) (by decide)
    (BlankIns.line 1 0 "ROOT R".toList _ _ (by decide) (by decide) (by decide)
      (BlankIns.blank [] _ _ (by decide) (by decide)
        (BlankIns.line 0 0 [Char.ofNat 123] _ _ (by decide) (by decide) (by decide)
          (BlankIns.line 0 0 "OFFSET 0 0 0".toList _ _ (by decide) (by decide) (by decide)
            (BlankIns.blank " \t".toList _ _ (by decide) (by decide)
              (BlankIns.same 0 gapTail)))))),
   blank_lines_in_body_skipped scanInt plainGapFile blankGapFile
    (BlankIns.line 2 1 "HIERARCHY".toList _ _ (by decide) (by decide) (by decide)
      (BlankIns.line 1 0 "ROOT R".toList _ _ (by decide) (by decide) (by decide)
        (BlankIns.blank [] _ _ (by decide) (by decide)
          (BlankIns.line 0 0 [Char.ofNat 123] _ _ (by decide) (by decide) (by decide)
            (BlankIns.line 0 0 "OFFSET 0 0 0".toList _ _ (by decide) (by decide) (by decide)
              (BlankIns.blank " \t".toList _ _ (by decide) (by decide)
                (BlankIns.same 0 gapTail))))))),
   by decide⟩

/-- C17, counterexample: `plainGapFile` gives a tree; with an empty line put in between
the HIERARCHY line and the ROOT line, and with a line of two spaces put in
between the End Site line and the opening brace of its block, `parseHierarchy` returns
`NULL`. -/
theorem blank_line_before_root_rejected :
    parseHierarchy (V := Int) scanInt plainGapFile = .ret (some (0, gapHeap)) ∧
    parseHierarchy (V := Int) scanInt blankBeforeRootFile = .ret none ∧
    parseHierarchy (V := Int) scanInt blankInEndSiteFile = .ret none :=
  ⟨by decide, by decide, by decide⟩

/-! ## The motion section does not change the tree (C13) -/

theorem fgetsAux_append_more (M : List Char) : ∀ (n : Nat) (s : List Char),
    s.getLast? = some '\n' →
    fgetsAux n (s ++ M) = ((fgetsAux n s).1, (fgetsAux n s).2 ++ M) ∧
    endsWithNewline (fgetsAux n s).2 = true := by
  intro n
  induction n with
  | zero =>
    intro s hs
    simp [fgetsAux, endsWithNewline, hs]
  | succ n ih =>
    intro s hs
    cases s with
    | nil => simp at hs
    | cons c t =>
      by_cases hc : c = '\n'
      · subst hc
        simp only [List.cons_append, fgetsAux, if_true, true_and]
        cases t with
        | nil => simp [endsWithNewline]
        | cons d t' =>
          rw [List.getLast?_cons_cons] at hs
          simp [endsWithNewline, hs]
      · have hs' : t.getLast? = some '\n' := by
          cases t with
          | nil =>
            simp only [List.getLast?_singleton, Option.some.injEq] at hs
            exact absurd hs hc
          | cons d t' =>
            rw [List.getLast?_cons_cons] at hs
            exact hs
        obtain ⟨h1, h2⟩ := ih t hs'
        simp only [List.cons_append, fgetsAux, hc, if_false]
        have h1' : fgetsAux n (t.append M) = ((fgetsAux n t).1, (fgetsAux n t).2 ++ M) := h1
        rw [h1']
        exact ⟨rfl, h2⟩

theorem fgets_append_more (M s buf rest : List Char) (hs : endsWithNewline s = true)
    (hfg : fgets MAX_LINE_LENGTH s = some (buf, rest)) :
    fgets MAX_LINE_LENGTH (s ++ M) = some (buf, rest ++ M) ∧ endsWithNewline rest = true := by
  cases s with
  | nil => simp [fgets] at hfg
  | cons c t =>
    have hlast : (c :: t).getLast? = some '\n' := by
      simpa [endsWithNewline] using hs
    obtain ⟨h1, h2⟩ := fgetsAux_append_more M (MAX_LINE_LENGTH - 1) (c :: t) hlast
    simp only [fgets, Option.some.injEq] at hfg
    rw [hfg] at h1 h2
    simp only [List.cons_append, fgets] at h1 ⊢
    rw [h1]
    exact ⟨rfl, h2⟩

theorem fgets_none (n : Nat) (s : List Char) (hfg : fgets n s = none) : s = [] := by
  cases s with
  | nil => rfl
  | cons c t => simp [fgets] at hfg

theorem readLines_fuel : ∀ (f1 f2 : Nat) (s : List Char), s.length ≤ f1 → s.length ≤ f2 →
    readLines MAX_LINE_LENGTH f1 s = readLines MAX_LINE_LENGTH f2 s := by
  intro f1
  induction f1 with
  | zero =>
    intro f2 s h1 _
    have hs : s = [] := List.eq_nil_of_length_eq_zero (by omega)
    subst hs
    cases f2 with
    | zero => rfl
    | succ f2 => simp [readLines, fgets]
  | succ f1 ih =>
    intro f2 s h1 h2
    cases hfg : fgets MAX_LINE_LENGTH s with
    | none =>
      have hs := fgets_none _ _ hfg
      subst hs
      cases f2 with
      | zero => simp [readLines, fgets]
      | succ f2 => simp [readLines, fgets]
    | some br =>
      obtain ⟨buf, rest⟩ := br
      have hlt := fgets_shorter s buf rest hfg
      obtain ⟨g, rfl⟩ : ∃ g, f2 = g + 1 := ⟨f2 - 1, by omega⟩
      simp only [readLines, hfg]
      rw [ih g rest (by omega) (by omega)]

theorem inertText_cons (M buf rest : List Char) (hM : inertText M = true)
    (hfg : fgets MAX_LINE_LENGTH M = some (buf, rest)) :
    inertLine buf = true ∧ inertText rest = true := by
  have hlt := fgets_shorter M buf rest hfg
  unfold inertText at hM ⊢
  obtain ⟨g, hg⟩ : ∃ g, M.length = g + 1 := ⟨M.length - 1, by omega⟩
  rw [hg] at hM
  simp only [readLines, hfg, List.all_cons, Bool.and_eq_true] at hM
  refine ⟨hM.1, ?_⟩
  rw [readLines_fuel rest.length g rest (Nat.le_refl _) (by omega)]
  exact hM.2

theorem lineAct_inert {V : Type} [Zero V] (scanF : List Char → Option (V × List Char))
    (pn : Option (Node V)) (lvl : Int) (buf rest : List Char) (hlvl : lvl ≠ 0)
    (hi : inertLine buf = true) :
    lineAct scanF pn lvl ( trim_prefix (cstr buf)) rest = .skip lvl := by
  simp only [inertLine, Bool.and_eq_true, Bool.or_eq_true, decide_eq_true_eq,
    Bool.not_eq_true', ne_eq] at hi
  obtain ⟨_, hi⟩ := hi
  simp only [lineAct]
  by_cases hb : ( trim_prefix (cstr buf)).head? = none ∨
      ( trim_prefix (cstr buf)).head? = some '\n'
  · simp only [hb, if_true]
  · simp only [hb, if_false]
    rcases hi with hnil | ⟨⟨⟨⟨⟨h1, h2⟩, h3⟩, h4⟩, h5⟩, h6⟩
    · rw [hnil] at hb
      simp at hb
    · simp only [h1, h2, Bool.false_eq_true, if_false, hlvl]
      cases hkw : scanStr none ( trim_prefix (cstr buf)) with
      | none => rfl
      | some keyword =>
        rw [hkw] at h3 h4 h5 h6
        simp only [Option.some.injEq] at h3 h4 h5 h6
        simp only [h3, h4, h5, h6, if_false]

theorem loop_inert {V : Type} [Zero V] (scanF : List Char → Option (V × List Char)) :
    ∀ (fuel : Nat) (M : List Char) (p : Nat) (lvl : Int) (h : Heap V),
      lvl ≠ 0 → inertText M = true → M.length < fuel →
      parseBodyLoop scanF fuel p lvl h M = .ret (some p, h, []) := by
  intro fuel
  induction fuel with
  | zero => intro M p lvl h _ _ hf; omega
  | succ fuel ih =>
    intro M p lvl h hlvl hM hf
    rw [parseBodyLoop_step]
    cases hfg : fgets MAX_LINE_LENGTH M with
    | none =>
      rw [fgets_none _ _ hfg]
    | some br =>
      obtain ⟨buf, rest⟩ := br
      obtain ⟨hi, hrest⟩ := inertText_cons M buf rest hM hfg
      have hlt := fgets_shorter M buf rest hfg
      simp only
      rw [lineAct_inert scanF h[p]? lvl buf rest hlvl hi]
      exact ih rest p lvl h hlvl hrest (by omega)

theorem sscanfEndOffset_inert {V : Type} (scanF : List Char → Option (V × List Char))
    (buf : List Char) (hi : inertLine buf = true) : sscanfEndOffset scanF (cstr buf) = none := by
  simp only [inertLine, Bool.and_eq_true, decide_eq_true_eq, ne_eq] at hi
  have h6 := hi.1
  unfold sscanfEndOffset sscanfOffset matchLit
  have : (List.dropWhile isspace (cstr buf)).take "OFFSET".toList.length ≠ "OFFSET".toList := h6
  simp only [this, if_false]

theorem endSiteAct_inert {V : Type} (scanF : List Char → Option (V × List Char))
    (M : List Char) (hM : inertText M = true) : ∃ r, endSiteAct scanF M = .fail r := by
  unfold endSiteAct
  cases hf1 : fgets MAX_LINE_LENGTH M with
  | none => exact ⟨_, rfl⟩
  | some br1 =>
    obtain ⟨b1, M1⟩ := br1
    obtain ⟨_, hM1⟩ := inertText_cons M b1 M1 hM hf1
    simp only
    cases hf2 : fgets MAX_LINE_LENGTH M1 with
    | none => exact ⟨_, rfl⟩
    | some br2 =>
      obtain ⟨b2, M2⟩ := br2
      obtain ⟨hi2, _⟩ := inertText_cons M1 b2 M2 hM1 hf2
      simp only
      rw [sscanfEndOffset_inert scanF b2 hi2]
      exact ⟨_, rfl⟩

theorem endSiteAct_append {V : Type} (scanF : List Char → Option (V × List Char))
    (M rest : List Char) (hM : inertText M = true) (hr : endsWithNewline rest = true) :
    actsAppend M (endSiteAct scanF rest) (endSiteAct scanF (rest ++ M)) := by
  cases hf1 : fgets MAX_LINE_LENGTH rest with
  | none =>
    have := fgets_none _ _ hf1
    subst this
    obtain ⟨r, hr'⟩ := endSiteAct_inert scanF M hM
    simp only [List.nil_append, hr']
    unfold endSiteAct
    rw [hf1]
    exact ⟨r, rfl⟩
  | some br1 =>
    obtain ⟨b1, rest1⟩ := br1
    obtain ⟨hf1', hr1⟩ := fgets_append_more M rest b1 rest1 hr hf1
    unfold endSiteAct
    rw [hf1, hf1']
    simp only
    cases hf2 : fgets MAX_LINE_LENGTH rest1 with
    | none =>
      have := fgets_none _ _ hf2
      subst this
      simp only [List.nil_append]
      cases hm1 : fgets MAX_LINE_LENGTH M with
      | none => exact ⟨_, rfl⟩
      | some bm =>
        obtain ⟨c1, M1⟩ := bm
        obtain ⟨hi1, _⟩ := inertText_cons M c1 M1 hM hm1
        simp only
        rw [sscanfEndOffset_inert scanF c1 hi1]
        exact ⟨_, rfl⟩
    | some br2 =>
      obtain ⟨b2, rest2⟩ := br2
      obtain ⟨hf2', hr2⟩ := fgets_append_more M rest1 b2 rest2 hr1 hf2
      rw [hf2']
      simp only
      cases sscanfEndOffset scanF (cstr b2) with
      | none => exact ⟨_, rfl⟩
      | some off => exact ⟨rfl, hr2⟩

theorem lineAct_append {V : Type} [Zero V] (scanF : List Char → Option (V × List Char))
    (pn : Option (Node V)) (lvl : Int) (line M rest : List Char)
    (hM : inertText M = true) (hr : endsWithNewline rest = true) :
    actsAppend M (lineAct scanF pn lvl line rest) (lineAct scanF pn lvl line (rest ++ M)) := by
  rcases lineAct_rest scanF pn lvl line with ⟨a, ha, hnf, hne⟩ | hf | ⟨_, he⟩
  · rw [ha rest, ha (rest ++ M)]
    cases a with
    | endSite off s => exact absurd rfl (hne off s)
    | fail r => exact absurd rfl (hnf r)
    | skip l => rfl
    | close => rfl
    | update l nd => rfl
    | joint l name => rfl
    | undef => rfl
  · rw [hf rest, hf (rest ++ M)]
    exact ⟨_, rfl⟩
  · rw [he rest, he (rest ++ M)]
    exact endSiteAct_append scanF M rest hM hr

theorem parseBodyLoop_append {V : Type} [Zero V]
    (scanF : List Char → Option (V × List Char)) (M : List Char) (hM : inertText M = true) :
    ∀ (fuel p : Nat) (lvl : Int) (h : Heap V) (s : List Char),
      endsWithNewline s = true → lvl ≠ 0 → s.length < fuel →
      outcomesAppend M (parseBodyLoop scanF fuel p lvl h s)
        (parseBodyLoop scanF (fuel + M.length) p lvl h (s ++ M)) := by
  intro fuel
  induction fuel with
  | zero => intro p lvl h s _ _ hf; omega
  | succ f ih =>
    intro p lvl h s hs hlvl hf
    cases hfg : fgets MAX_LINE_LENGTH s with
    | none =>
      have := fgets_none _ _ hfg
      subst this
      rw [loop_eof, List.nil_append,
        loop_inert scanF (f + 1 + M.length) M p lvl h hlvl hM (by omega)]
      exact Or.inr ⟨rfl, rfl⟩
    | some br =>
      obtain ⟨buf, rest⟩ := br
      obtain ⟨hfg', hrest⟩ := fgets_append_more M s buf rest hs hfg
      have hlt := fgets_shorter s buf rest hfg
      rw [show f + 1 + M.length = (f + M.length) + 1 by omega]
      rw [parseBodyLoop_step, parseBodyLoop_step, hfg, hfg']
      simp only
      have hact := lineAct_append scanF h[p]? lvl ( trim_prefix (cstr buf)) M rest hM hrest
      have hinv := lineAct_inv scanF h[p]? lvl ( trim_prefix (cstr buf)) rest
      cases hA : lineAct scanF h[p]? lvl ( trim_prefix (cstr buf)) rest with
      | skip l =>
        rw [hA] at hact hinv
        simp only [actsAppend] at hact
        simp only at hinv
        rw [hact]
        have hl : l ≠ 0 := by
          rcases hinv with rfl | ⟨_, h0⟩
          · exact hlvl
          · exact h0
        exact ih p l h rest hrest hl (by omega)
      | close =>
        rw [hA] at hact
        simp only [actsAppend] at hact
        rw [hact]
        exact Or.inl ⟨rfl, hrest⟩
      | fail r =>
        rw [hA] at hact
        obtain ⟨r', hB⟩ := hact
        rw [hB]
        exact ⟨h, r', rfl⟩
      | undef =>
        rw [hA] at hact
        simp only [actsAppend] at hact
        rw [hact]
        rfl
      | update l nd =>
        rw [hA] at hact hinv
        simp only [actsAppend] at hact
        simp only at hinv
        rw [hact]
        exact ih p l _ rest hrest hinv.1.2 (by omega)
      | endSite off s2 =>
        rw [hA] at hact
        obtain ⟨hB, hs2⟩ := hact
        rw [hB]
        simp only
        cases createNode "End Site".toList (some p) 0 off.1 off.2.1 off.2.2 h with
        | undef => rfl
        | timeout => rfl
        | ret ch =>
          obtain ⟨e, h1⟩ := ch
          exact Or.inl ⟨rfl, hs2⟩
      | joint l childName =>
        rw [hA] at hact hinv
        simp only [actsAppend] at hact
        simp only at hinv
        rw [hact]
        simp only
        cases createNode childName (some p) 0 0 0 0 h with
        | undef => rfl
        | timeout => rfl
        | ret ch =>
          obtain ⟨child, h1⟩ := ch
          simp only
          have hin := ih child 1 h1 rest hrest (by decide) (by omega)
          cases hX : parseBodyLoop scanF f child 1 h1 rest with
          | undef =>
            rw [hX] at hin
            simp only [outcomesAppend] at hin
            rw [hin]
            rfl
          | timeout =>
            rw [hX] at hin
            simp only [outcomesAppend] at hin
            rw [hin]
            rfl
          | ret x =>
            obtain ⟨r2, h2, s2⟩ := x
            rw [hX] at hin
            have c1 := parseBodyLoop_consumes scanF f child 1 h1 rest _ _ _ hX
            cases r2 with
            | none =>
              obtain ⟨h2', t2, hY⟩ := hin
              rw [hY]
              exact ⟨h2', t2, rfl⟩
            | some v =>
              rcases hin with ⟨hY, hs2⟩ | ⟨rfl, hY⟩
              · rw [hY]
                simp only
                exact ih p l h2 s2 hs2 hinv.1.2 (by omega)
              · rw [hY]
                simp only
                obtain ⟨g, rfl⟩ : ∃ g, f = g + 1 := ⟨f - 1, by omega⟩
                rw [loop_eof, show g + 1 + M.length = (g + M.length) + 1 by omega, loop_eof]
                exact Or.inr ⟨rfl, rfl⟩

theorem parseRoot_append {V : Type} [Zero V] (M rest rest1 : List Char) (root : Nat)
    (h0 : Heap V) (hr : endsWithNewline rest = true)
    (hroot : parseRoot ([] : Heap V) rest = .ret (some root, h0, rest1)) :
    parseRoot ([] : Heap V) (rest ++ M) = .ret (some root, h0, rest1 ++ M) ∧
    endsWithNewline rest1 = true := by
  unfold parseRoot at hroot ⊢
  cases hfg : fgets MAX_LINE_LENGTH rest with
  | none =>
    rw [hfg] at hroot
    simp at hroot
  | some br =>
    obtain ⟨buf, r1⟩ := br
    obtain ⟨hfg', hr1⟩ := fgets_append_more M rest buf r1 hr hfg
    rw [hfg] at hroot
    rw [hfg']
    simp only at hroot ⊢
    by_cases hR : ( trim_prefix (cstr buf)).take 4 ≠ "ROOT".toList
    · rw [if_pos hR] at hroot
      simp at hroot
    · rw [if_neg hR] at hroot
      rw [if_neg hR]
      cases hn : sscanfName "ROOT".toList 19 ( trim_prefix (cstr buf)) with
      | none =>
        rw [hn] at hroot
        simp at hroot
      | some name =>
        rw [hn] at hroot
        simp only at hroot ⊢
        cases hc : createNode name none 6 (0 : V) 0 0 [] with
        | undef => rw [hc] at hroot; cases hroot
        | timeout => rw [hc] at hroot; cases hroot
        | ret x =>
          obtain ⟨r0, h1⟩ := x
          rw [hc] at hroot
          simp only [Run.ret.injEq, Prod.mk.injEq, Option.some.injEq] at hroot ⊢
          obtain ⟨rfl, rfl, rfl⟩ := hroot
          exact ⟨⟨rfl, rfl, rfl⟩, hr1⟩

theorem parseHierarchy_append {V : Type} [Zero V] (scanF : List Char → Option (V × List Char))
    (H M : List Char) (root : Nat) (h : Heap V)
    (hH : endsWithNewline H = true) (hM : inertText M = true)
    (hp : parseHierarchy scanF H = .ret (some (root, h))) :
    parseHierarchy scanF (H ++ M) = .ret (some (root, h)) := by
  obtain ⟨buf, rest, h0, rest1, v, rest2, hfg, hroot, hbody⟩ := parseHierarchy_ret _ _ _ _ hp
  obtain ⟨hfg', hr⟩ := fgets_append_more M H buf rest hH hfg
  obtain ⟨hroot', hr1⟩ := parseRoot_append M rest rest1 root h0 hr hroot
  have hh : headerOk H = true := by
    cases hh : headerOk H with
    | true => rfl
    | false =>
      unfold parseHierarchy at hp
      rw [hh] at hp
      simp at hp
  have hh' : headerOk (H ++ M) = true := by
    unfold headerOk at hh ⊢
    rw [hfg] at hh
    rw [hfg']
    exact hh
  have hsim := parseBodyLoop_append scanF M hM (rest1.length + 1) root 1 h0 rest1 hr1
    (by decide) (by omega)
  rw [hbody] at hsim
  unfold parseHierarchy
  rw [hh', hfg']
  simp only [Bool.true_eq_false, if_false]
  rw [hroot']
  simp only
  unfold parseBody
  rw [show (rest1 ++ M).length + 1 = rest1.length + 1 + M.length by
    simp only [List.length_append]; omega]
  rcases hsim with ⟨hY, _⟩ | ⟨_, hY⟩
  · rw [hY]
  · rw [hY]

theorem parseMotion_ne_timeout {V : Type} (alloc : Alloc) (atof : List Char → V)
    (file : List Char) : parseMotion alloc atof file ≠ .timeout := by
  unfold parseMotion
  simp only
  split
  · simp
  · split
    · simp
    · split
      · simp
      · split
        · simp
        · split
          · simp
          · split <;> simp

theorem parseHierarchyMain_cases {V : Type} [Zero V] (alloc : Alloc) (atof : List Char → V)
    (scanF : List Char → Option (V × List Char)) (file : List Char) :
    parseHierarchyMain alloc atof scanF file = .undef ∨
    parseHierarchyMain alloc atof scanF file = parseHierarchy scanF file := by
  unfold parseHierarchyMain parseHierarchy
  cases headerOk file with
  | false => exact Or.inr rfl
  | true =>
    simp only [Bool.true_eq_false, if_false]
    cases fgets MAX_LINE_LENGTH file with
    | none => exact Or.inr rfl
    | some br =>
      obtain ⟨buf, rest⟩ := br
      simp only
      cases parseRoot ([] : Heap V) rest with
      | undef => exact Or.inr rfl
      | timeout => exact Or.inr rfl
      | ret x =>
        obtain ⟨r, h0, rest1⟩ := x
        cases r with
        | none => exact Or.inr rfl
        | some root =>
          simp only
          cases parseBody scanF (rest1.length + 1) root h0 rest1 with
          | undef => exact Or.inr rfl
          | timeout => exact Or.inr rfl
          | ret y =>
            obtain ⟨r2, h2, rest2⟩ := y
            cases r2 with
            | none => exact Or.inr rfl
            | some v =>
              simp only
              cases hm : parseMotion alloc atof rest2 with
              | undef => exact Or.inl rfl
              | timeout => exact absurd hm (parseMotion_ne_timeout alloc atof rest2)
              | ret d => exact Or.inr rfl

theorem parseBodyLoop_suffix {V : Type} [Zero V] (scanF : List Char → Option (V × List Char)) :
    ∀ (fuel p : Nat) (lvl : Int) (h : Heap V) (s : List Char) (r : Option Nat)
      (h' : Heap V) (s' : List Char),
      parseBodyLoop scanF fuel p lvl h s = .ret (r, h', s') → s' <:+ s := by
  intro fuel
  induction fuel with
  | zero =>
    intro p lvl h s r h' s' hrun
    simp [parseBodyLoop] at hrun
  | succ fuel ih =>
    intro p lvl h s r h' s' hrun
    rw [parseBodyLoop_step] at hrun
    cases hfg : fgets MAX_LINE_LENGTH s with
    | none =>
      rw [hfg] at hrun
      simp only [Run.ret.injEq, Prod.mk.injEq] at hrun
      obtain ⟨_, _, rfl⟩ := hrun
      exact List.suffix_refl _
    | some br =>
      obtain ⟨buf, rest⟩ := br
      rw [hfg] at hrun
      simp only at hrun
      have hrs : rest <:+ s := (fgets_suffix _ _ _ _ hfg).2
      have hinv := lineAct_inv scanF h[p]? lvl ( trim_prefix (cstr buf)) rest
      cases hact : lineAct scanF h[p]? lvl ( trim_prefix (cstr buf)) rest with
      | skip l =>
        rw [hact] at hrun
        exact (ih _ _ _ _ _ _ _ hrun).trans hrs
      | close =>
        rw [hact] at hrun
        simp only [Run.ret.injEq, Prod.mk.injEq] at hrun
        obtain ⟨_, _, rfl⟩ := hrun
        exact hrs
      | fail r0 =>
        rw [hact] at hrun hinv
        simp only [Run.ret.injEq, Prod.mk.injEq] at hrun
        obtain ⟨_, _, rfl⟩ := hrun
        exact hinv.trans hrs
      | undef =>
        rw [hact] at hrun
        cases hrun
      | update l nd =>
        rw [hact] at hrun
        exact (ih _ _ _ _ _ _ _ hrun).trans hrs
      | joint l childName =>
        rw [hact] at hrun
        simp only at hrun
        cases hc : createNode childName (some p) 0 0 0 0 h with
        | undef => rw [hc] at hrun; cases hrun
        | timeout => rw [hc] at hrun; cases hrun
        | ret ch =>
          obtain ⟨child, h1⟩ := ch
          rw [hc] at hrun
          simp only at hrun
          cases hin : parseBodyLoop scanF fuel child 1 h1 rest with
          | undef => rw [hin] at hrun; cases hrun
          | timeout => rw [hin] at hrun; cases hrun
          | ret x =>
            obtain ⟨r2, h2, rest2⟩ := x
            rw [hin] at hrun
            have q1 := ih _ _ _ _ _ _ _ hin
            cases r2 with
            | none =>
              simp only [Run.ret.injEq, Prod.mk.injEq] at hrun
              obtain ⟨_, _, rfl⟩ := hrun
              exact q1.trans hrs
            | some v =>
              simp only at hrun
              exact ((ih _ _ _ _ _ _ _ hrun).trans q1).trans hrs
      | endSite off rest2 =>
        rw [hact] at hrun hinv
        simp only at hrun hinv
        obtain ⟨_, buf1, rest1, buf2, hf1, hf2, _⟩ := hinv
        cases hc : createNode "End Site".toList (some p) 0 off.1 off.2.1 off.2.2 h with
        | undef => rw [hc] at hrun; cases hrun
        | timeout => rw [hc] at hrun; cases hrun
        | ret ch =>
          obtain ⟨e, h1⟩ := ch
          rw [hc] at hrun
          simp only [Run.ret.injEq, Prod.mk.injEq] at hrun
          obtain ⟨_, _, rfl⟩ := hrun
          exact ((fgets_suffix _ _ _ _ hf2).2.trans (fgets_suffix _ _ _ _ hf1).2).trans hrs

theorem mentions_suffix (w : List Char) : ∀ (s t : List Char), mentions w s = false →
    t <:+ s → w.isPrefixOf t = false := by
  intro s
  induction s with
  | nil =>
    intro t hm ht
    have : t = [] := List.eq_nil_of_suffix_nil ht
    subst this
    simpa [mentions] using hm
  | cons c s ih =>
    intro t hm ht
    simp only [mentions, Bool.or_eq_false_iff] at hm
    rcases List.suffix_cons_iff.1 ht with rfl | ht'
    · exact hm.1
    · exact ih t hm.2 ht'

theorem readLines_mem (size : Nat) : ∀ (fuel : Nat) (s l : List Char),
    l ∈ readLines size fuel s → ∃ t, t <:+ s ∧ l <+: t := by
  intro fuel
  induction fuel with
  | zero =>
    intro s l hl
    simp [readLines] at hl
  | succ fuel ih =>
    intro s l hl
    simp only [readLines] at hl
    cases hfg : fgets size s with
    | none =>
      rw [hfg] at hl
      simp at hl
    | some br =>
      obtain ⟨buf, rest⟩ := br
      rw [hfg] at hl
      simp only [List.mem_cons] at hl
      obtain ⟨happ, hsuf⟩ := fgets_suffix size s buf rest hfg
      rcases hl with rfl | hl
      · exact ⟨s, List.suffix_refl _, ⟨rest, happ⟩⟩
      · obtain ⟨t, ht, hlt⟩ := ih rest l hl
        exact ⟨t, ht.trans hsuf, hlt⟩

theorem parseMotion_no_motion {V : Type} (alloc : Alloc) (atof : List Char → V)
    (s : List Char) (ha : alloc.mallocZero = false)
    (hs : mentions "MOTION".toList s = false) : parseMotion alloc atof s = .ret none := by
  rw [parseMotion_zero_frames alloc atof s (Or.inl ?_), if_pos ha]
  intro l hl
  obtain ⟨t, ht, hlt⟩ := readLines_mem 1024 _ s l hl
  have hno := mentions_suffix _ s t hs ht
  cases hc : strncmpEq l "MOTION".toList 6 with
  | false => rfl
  | true =>
    exfalso
    simp only [strncmpEq, decide_eq_true_eq] at hc
    have h1 : "MOTION".toList <+: cstr l := by
      have := List.take_prefix 6 (cstr l)
      rw [hc] at this
      exact this
    have h2 : cstr l <+: l := List.takeWhile_prefix _
    have h3 : "MOTION".toList <+: t := (h1.trans h2).trans hlt
    have h4 : "MOTION".toList.isPrefixOf t = true := List.isPrefixOf_iff_prefix.2 h3
    rw [hno] at h4
    cases h4

/-- C13: what `parseMotion` meets or returns never changes or discards the tree. When `parseHierarchy`
returns a tree for the text `H` of a hierarchy (ending with a newline), the
hierarchy part of `parseHierarchy` returns the same root and the same heap (so the
same nodes, names, offsets, channel counts and links) for `H` followed by
any text `M` of inert lines, as the lines of a motion section are. With
the call of `parseMotion` of `src/main.c`, for every answer of the C library to requests
of zero bytes and every `atof`: on `H` and on `H ++ M` the call returns that
same tree, unless `parseMotion` itself runs into undefined behaviour (a value stored
past the buffer it allocated); it never returns `NULL` or another tree. And
when the word `MOTION` does not occur in `H` and `malloc(0)` returns `NULL`, `parseMotion` returns
`NULL` and `parseHierarchy` returns the tree. -/
theorem motion_never_changes_tree {V : Type} [Zero V]
    (scanF : List Char → Option (V × List Char)) (H M : List Char) (root : Nat) (h : Heap V)
    (hH : endsWithNewline H = true) (hM : inertText M = true)
    (hp : parseHierarchy scanF H = .ret (some (root, h))) :
    parseHierarchy scanF (H ++ M) = .ret (some (root, h)) ∧
    (∀ (alloc : Alloc) (atof : List Char → V),
      (parseHierarchyMain alloc atof scanF H = .ret (some (root, h)) ∨
        parseHierarchyMain alloc atof scanF H = .undef) ∧
      (parseHierarchyMain alloc atof scanF (H ++ M) = .ret (some (root, h)) ∨
        parseHierarchyMain alloc atof scanF (H ++ M) = .undef) ∧
      (alloc.mallocZero = false → mentions "MOTION".toList H = false →
        parseHierarchyMain alloc atof scanF H = .ret (some (root, h)))) := by
  have hp' := parseHierarchy_append scanF H M root h hH hM hp
  refine ⟨hp', ?_⟩
  intro alloc atof
  refine ⟨?_, ?_, ?_⟩
  · rcases parseHierarchyMain_cases alloc atof scanF H with hu | he
    · exact Or.inr hu
    · exact Or.inl (he.trans hp)
  · rcases parseHierarchyMain_cases alloc atof scanF (H ++ M) with hu | he
    · exact Or.inr hu
    · exact Or.inl (he.trans hp')
  · intro ha hno
    obtain ⟨buf, rest, h0, rest1, v, rest2, hfg, hroot, hbody⟩ :=
      parseHierarchy_ret _ _ _ _ hp
    have hh : headerOk H = true := by
      cases hh : headerOk H with
      | true => rfl
      | false =>
        unfold parseHierarchy at hp
        rw [hh] at hp
        simp at hp
    have hsuf : rest2 <:+ H :=
      ((parseBodyLoop_suffix scanF _ _ _ _ _ _ _ _ hbody).trans
        (parseRoot_ret _ _ _ _ hroot).1).trans (fgets_suffix _ _ _ _ hfg).2
    have hno2 : mentions "MOTION".toList rest2 = false := by
      cases hm : mentions "MOTION".toList rest2 with
      | false => rfl
      | true =>
        exfalso
        have key : ∀ (s : List Char), mentions "MOTION".toList s = true →
            ∃ t, t <:+ s ∧ "MOTION".toList.isPrefixOf t = true := by
          intro s
          induction s with
          | nil =>
            intro hs
            simp only [mentions] at hs
            exact ⟨[], List.suffix_refl _, hs⟩
          | cons c s ih =>
            intro hs
            simp only [mentions, Bool.or_eq_true] at hs
            rcases hs with hs | hs
            · exact ⟨c :: s, List.suffix_refl _, hs⟩
            · obtain ⟨t, ht, hpt⟩ := ih hs
              exact ⟨t, ht.trans (List.suffix_cons c s), hpt⟩
        obtain ⟨t, ht, hpt⟩ := key rest2 hm
        have := mentions_suffix _ H t hno (ht.trans hsuf)
        rw [this] at hpt
        cases hpt
    unfold parseHierarchyMain
    rw [hh, hfg]
    simp only [Bool.true_eq_false, if_false]
    rw [hroot]
    simp only
    unfold parseBody
    rw [hbody]
    simp only
    rw [parseMotion_no_motion alloc atof rest2 ha hno2]

/-- C13, witness: the hierarchy `hierarchyOnlyFile` alone and followed by the motion section
`oneFrameMotion` give the same tree; without the motion section and with a
`malloc(0)` that returns `NULL`, and with the motion section and the answers of the
GNU C library, the function of `src/main.c` returns it. -/
theorem motion_never_changes_tree_witness :
    (endsWithNewline hierarchyOnlyFile = true ∧ inertText oneFrameMotion = true ∧
      parseHierarchy (V := Int) scanInt hierarchyOnlyFile = .ret (some (0, gapHeap))) ∧
    (parseHierarchy (V := Int) scanInt (hierarchyOnlyFile ++ oneFrameMotion)
        = .ret (some (0, gapHeap)) ∧
    (∀ (alloc : Alloc) (atof : List Char → Int),
      (parseHierarchyMain alloc atof scanInt hierarchyOnlyFile = .ret (some (0, gapHeap)) ∨
        parseHierarchyMain alloc atof scanInt hierarchyOnlyFile = .undef) ∧
      (parseHierarchyMain alloc atof scanInt (hierarchyOnlyFile ++ oneFrameMotion)
          = .ret (some (0, gapHeap)) ∨
        parseHierarchyMain alloc atof scanInt (hierarchyOnlyFile ++ oneFrameMotion) = .undef) ∧
      (alloc.mallocZero = false → mentions "MOTION".toList hierarchyOnlyFile = false →
        parseHierarchyMain alloc atof scanInt hierarchyOnlyFile
          = .ret (some (0, gapHeap))))) ∧
    parseHierarchyMain nullAlloc atofInt scanInt hierarchyOnlyFile
      = .ret (some (0, gapHeap)) ∧
    parseHierarchyMain glibcAlloc atofInt scanInt (hierarchyOnlyFile ++ oneFrameMotion)
      = .ret (some (0, gapHeap)) ∧
    parseHierarchyMain glibcAlloc atofInt scanInt hierarchyOnlyFile = .undef :=
  ⟨⟨by decide, by decide, by decide⟩,
   motion_never_changes_tree scanInt hierarchyOnlyFile oneFrameMotion 0 gapHeap
     (by decide) (by decide) (by decide),
   by decide, by decide, by decide⟩

/-! ## The writes of `parseMotion` and the capacity of its buffer (C21) -/

theorem parseMotion_eq {V : Type} (alloc : Alloc) (atof : List Char → V) (file : List Char) :
    parseMotion alloc atof file =
      match motionCapacity (motionHeader file).1 with
      | none => .undef
      | some max_values =>
        if max_values < 0 then .ret none
        else if max_values = 0 ∧ alloc.mallocZero = false then .ret none
        else
          match (motionHeader file).2.1 with
          | none => .undef
          | some line =>
            if max_values.toNat
                < ((motionTokens line (motionHeader file).2.2).map atof).length then .undef
            else if ((motionTokens line (motionHeader file).2.2).map atof).length = 0
                ∧ alloc.reallocZero = false then .ret none
            else .ret (some ((motionTokens line (motionHeader file).2.2).map atof)) := by
  have hmap : ∀ (ls : List (List Char)),
      ls.flatMap (fun l => (strtokAll l).map atof) = (ls.flatMap strtokAll).map atof := by
    intro ls
    induction ls with
    | nil => rfl
    | cons a ls ih => simp only [List.flatMap_cons, List.map_append, ih]
  unfold parseMotion motionHeader motionTokens
  simp only [hmap]

/-- C21, as the code has it: `parseMotion` makes no check of `count` against the capacity of
`data`. The capacity is `frames * 100` computed in `int`: when that product is no
value of `int` the call is undefined from there on; when it is negative, or 0
with a `malloc(0)` that returns `NULL`, no buffer is allocated, nothing is stored and
`NULL` is returned. When the buffer has been allocated with the capacity
`max_values` and a line stands in `line`, every write `data[count]` is at an index
below the capacity exactly when `parseMotion` stays defined, that is when the lines it
tokenises hold at most `max_values` tokens; then it returns the values of all
the tokens (or `NULL` where nothing was stored and `realloc(data, 0)` returns `NULL`).
With more tokens the value of the token number `max_values` (from 0) is stored
past the end of the buffer. -/
theorem parseMotion_writes_unchecked {V : Type} (alloc : Alloc) (atof : List Char → V)
    (file : List Char) (frames : Int) (line : List Char) (lines3 : List (List Char))
    (hh : motionHeader file = (frames, some line, lines3)) :
    (motionCapacity frames = none → parseMotion alloc atof file = .undef) ∧
    (∀ max_values, motionCapacity frames = some max_values →
      max_values = frames * 100 ∧ INT_MIN ≤ max_values ∧ max_values ≤ INT_MAX ∧
      (max_values < 0 ∨ (max_values = 0 ∧ alloc.mallocZero = false) →
        parseMotion alloc atof file = .ret none) ∧
      (0 ≤ max_values → (max_values = 0 → alloc.mallocZero = true) →
        ((∀ count, count < (motionTokens line lines3).length → (count : Int) < max_values) ↔
          parseMotion alloc atof file ≠ .undef) ∧
        ((motionTokens line lines3).length ≤ max_values.toNat →
          parseMotion alloc atof file =
            if (motionTokens line lines3).length = 0 ∧ alloc.reallocZero = false then .ret none
            else .ret (some ((motionTokens line lines3).map atof))) ∧
        (max_values.toNat < (motionTokens line lines3).length →
          parseMotion alloc atof file = .undef))) := by
  refine ⟨?_, ?_⟩
  · intro hnone
    rw [parseMotion_eq, hh]
    simp only [hnone]
  · intro max_values hsome
    obtain ⟨e1, e2, e3⟩ := motionCapacity_eq frames max_values hsome
    refine ⟨e1, e2, e3, ?_, ?_⟩
    · intro hneg
      rw [parseMotion_eq, hh]
      simp only [hsome]
      rcases hneg with hneg | hz
      · rw [if_pos hneg]
      · by_cases hlt : max_values < 0
        · rw [if_pos hlt]
        · rw [if_neg hlt, if_pos hz]
    · intro hcap hm
      have h1 : ¬ (max_values < 0) := by omega
      have h2 : ¬ (max_values = 0 ∧ alloc.mallocZero = false) := by
        rintro ⟨h0, hf⟩
        rw [hm h0] at hf
        cases hf
      have hpm : parseMotion alloc atof file =
          if max_values.toNat < (motionTokens line lines3).length then .undef
          else if (motionTokens line lines3).length = 0 ∧ alloc.reallocZero = false then
            .ret none
          else .ret (some ((motionTokens line lines3).map atof)) := by
        rw [parseMotion_eq, hh]
        simp only [hsome, h1, h2, if_false, List.length_map]
      have hlow : max_values.toNat < (motionTokens line lines3).length →
          parseMotion alloc atof file = .undef := by
        intro hlt
        rw [hpm, if_pos hlt]
      have hfit : (motionTokens line lines3).length ≤ max_values.toNat →
          parseMotion alloc atof file =
            if (motionTokens line lines3).length = 0 ∧ alloc.reallocZero = false then .ret none
            else .ret (some ((motionTokens line lines3).map atof)) := by
        intro hle
        rw [hpm, if_neg (by omega)]
      refine ⟨⟨?_, ?_⟩, hfit, hlow⟩
      · intro hall
        have hle : (motionTokens line lines3).length ≤ max_values.toNat := by
          by_contra hgt
          have := hall max_values.toNat (by omega)
          omega
        rw [hfit hle]
        split <;> simp
      · intro hne
        by_contra hall
        apply hne
        apply hlow
        by_contra hle
        apply hall
        intro count hc
        omega

/-- C21, witness: two frames of three values; the capacity is 200 and the six writes
are below it. -/
theorem parseMotion_writes_unchecked_witness :
    motionHeader twoFramesMotion = (2, some "1 2 3\n".toList, ["4 5 6\n".toList]) ∧
    ((motionCapacity 2 = none → parseMotion glibcAlloc atofInt twoFramesMotion = .undef) ∧
    (∀ max_values, motionCapacity 2 = some max_values →
      max_values = 2 * 100 ∧ INT_MIN ≤ max_values ∧ max_values ≤ INT_MAX ∧
      (max_values < 0 ∨ (max_values = 0 ∧ glibcAlloc.mallocZero = false) →
        parseMotion glibcAlloc atofInt twoFramesMotion = .ret none) ∧
      (0 ≤ max_values → (max_values = 0 → glibcAlloc.mallocZero = true) →
        ((∀ count, count < (motionTokens "1 2 3\n".toList ["4 5 6\n".toList]).length →
            (count : Int) < max_values) ↔
          parseMotion glibcAlloc atofInt twoFramesMotion ≠ .undef) ∧
        ((motionTokens "1 2 3\n".toList ["4 5 6\n".toList]).length ≤ max_values.toNat →
          parseMotion glibcAlloc atofInt twoFramesMotion =
            if (motionTokens "1 2 3\n".toList ["4 5 6\n".toList]).length = 0
                ∧ glibcAlloc.reallocZero = false then .ret none
            else .ret (some ((motionTokens "1 2 3\n".toList ["4 5 6\n".toList]).map atofInt))) ∧
        (max_values.toNat < (motionTokens "1 2 3\n".toList ["4 5 6\n".toList]).length →
          parseMotion glibcAlloc atofInt twoFramesMotion = .undef)))) ∧
    motionCapacity 2 = some 200 ∧
    parseMotion glibcAlloc atofInt twoFramesMotion = .ret (some [1, 2, 3, 4, 5, 6]) :=
  ⟨by decide,
   parseMotion_writes_unchecked glibcAlloc atofInt twoFramesMotion 2 "1 2 3\n".toList
     ["4 5 6\n".toList] (by decide),
   by decide, by decide⟩

/-- C21, counterexample: a frame of 101 values. `Frames: 1` gives the capacity 100; the
data line holds 101 tokens, and the value of the last one is stored at
`data[100]`, past the end of the buffer. Without a `Frames:` line the capacity
is 0 and already the first value of the line `1 2 3` is stored past the
buffer. And with `Frames: 42949673` the product `frames * 100` is no value of `int`. -/
theorem parseMotion_writes_past_capacity :
    (motionHeader manyValuesMotion).1 = 1 ∧ motionCapacity 1 = some 100 ∧
    (motionHeader manyValuesMotion).2.1.map (fun l => (motionTokens l []).length) = some 101 ∧
    (motionHeader manyValuesMotion).2.2 = [] ∧
    parseMotion glibcAlloc atofInt manyValuesMotion = .undef ∧
    motionHeader noFramesMotion = (0, some "1 2 3\n".toList, []) ∧
    motionCapacity 0 = some 0 ∧
    (motionTokens "1 2 3\n".toList []).length = 3 ∧
    parseMotion glibcAlloc atofInt noFramesMotion = .undef ∧
    (motionHeader hugeFramesMotion).1 = 42949673 ∧ motionCapacity 42949673 = none ∧
    parseMotion glibcAlloc atofInt hugeFramesMotion = .undef :=
  ⟨by decide, by decide, by decide, by decide, by decide, by decide, by decide, by decide,
   by decide, by decide, by decide, by decide⟩

end BVH
